import Mathlib

/-!
# Verification of the cbuf.js schema parser, hasher and binary codec

A shallow embedding, in Lean 4, of the Verdant Robotics `cbuf.js` library
(`src/parse.ts`, `src/serde.ts`, `src/lookup.ts`, grammar `src/cbuf.ne`),
together with proofs about the embedded definitions.

Modelling conventions, used throughout:

* Byte buffers (`ArrayBuffer` / `DataView` contents) are `List Nat` with every
  element in `0..255`.  The JavaScript serializer writes at a strictly
  monotone cursor into a zero-initialised buffer, so the sequence of bytes it
  writes is modelled as an emitted list; the returned buffer is the emitted
  list padded with zeros to the precomputed size (a `DataView` write past the
  end of the buffer raises, which is modelled as an error when the emitted
  list does not fit).
* A JavaScript number is an IEEE-754 binary64 value.  Values that the codec
  treats as integers are embedded as `Int`; values carried opaquely through
  `setFloat64`/`getFloat64` are embedded as their 64-bit patterns (`Nat`).
  The binary64/binary32 conversions used by `setFloat32`/`getFloat32` are
  implemented on bit patterns below.
* JavaScript `Map` objects are association lists where `set` replaces the
  first binding of the key (or appends) and `get` returns the first binding.
* The recursion of the codec and the hasher is through schema-map lookups and
  so is not structural; every such function takes a `fuel : Nat` that bounds
  the nesting depth of struct values (the JS engine's stack plays this role).
  Fuel is consumed exactly once per nested-struct boundary, and the
  definitions recurse structurally on the fuel so that they evaluate by `rfl`.
-/

set_option maxRecDepth 10000
set_option linter.unusedVariables false

namespace Cbuf

/-! ## Little-endian byte helpers -/

/-- `k` little-endian bytes of `n` (the value is taken mod `2^(8k)`, exactly
as `DataView.setUint32`/`setBigUint64` wrap their argument). -/
def natLE : Nat → Nat → List Nat
  | 0, _ => []
  | k + 1, n => (n % 256) :: natLE k (n / 256)

/-- Read `k` little-endian bytes; `none` when fewer than `k` bytes remain
(a `DataView` read past the end of the buffer throws a `RangeError`). -/
def readLE : Nat → List Nat → Option (Nat × List Nat)
  | 0, l => some (0, l)
  | _ + 1, [] => none
  | k + 1, b :: l => (readLE k l).map (fun p => (b + 256 * p.1, p.2))

/-- Interpret a `bits`-bit unsigned value as two's-complement signed
(`getInt8`/`getInt16`/`getInt32`/`getBigInt64`). -/
def uToS (bits : Nat) (n : Nat) : Int :=
  if n < 2 ^ (bits - 1) then (n : Int) else (n : Int) - 2 ^ bits

/-- Two's-complement `k`-byte little-endian encoding of an integer (the
`ToUint8`/`ToInt32`/`ToBigInt64` wrapping conversions all produce these
bytes). -/
def intLE (k : Nat) (i : Int) : List Nat :=
  natLE k (i.emod (2 ^ (8 * k))).toNat

theorem readLE_natLE (k : Nat) (n : Nat) (rest : List Nat) :
    readLE k (natLE k n ++ rest) = some (n % 2 ^ (8 * k), rest) := by
  induction k generalizing n with
  | zero => simp [readLE, natLE, Nat.mod_one]
  | succ k ih =>
    have hpow : 2 ^ (8 * (k + 1)) = 256 * 2 ^ (8 * k) := by ring
    simp [natLE, readLE, ih, hpow, Nat.mod_mul]

theorem natLE_length (k n : Nat) : (natLE k n).length = k := by
  induction k generalizing n with
  | zero => rfl
  | succ k ih => simp [natLE, ih]

/-! ## UTF-8 / UTF-16 string helpers

`TextEncoder.encode` produces the UTF-8 bytes of the string and
`String.prototype.length` counts UTF-16 code units; both are embedded on the
code points (`Char`) of the Lean string.  `TextDecoder.decode` is embedded as
a UTF-8 decoder that emits U+FFFD for a malformed byte and continues (an
approximation of the WHATWG replacement behaviour that agrees with it on
well-formed input, which is all the proofs rely on). -/

/-- UTF-8 encoding of one code point. -/
def utf8Char (c : Char) : List Nat :=
  let n := c.toNat
  if n < 0x80 then [n]
  else if n < 0x800 then [0xC0 + n / 64, 0x80 + n % 64]
  else if n < 0x10000 then [0xE0 + n / 4096, 0x80 + n / 64 % 64, 0x80 + n % 64]
  else [0xF0 + n / 0x40000, 0x80 + n / 4096 % 64, 0x80 + n / 64 % 64, 0x80 + n % 64]

/-- UTF-8 encoding of a string (`TextEncoder.encode`). -/
def utf8Str (s : String) : List Nat :=
  (s.data.map utf8Char).flatten

/-- Number of UTF-16 code units used by one code point. -/
def utf16Units (c : Char) : Nat :=
  if c.toNat < 0x10000 then 1 else 2

/-- `String.prototype.length`: the number of UTF-16 code units. -/
def utf16Len (s : String) : Nat :=
  (s.data.map utf16Units).sum

/-- `String.prototype.charCodeAt(0)` of the one- or two-unit string holding a
single code point: the code point itself below U+10000, otherwise the high
surrogate of its surrogate pair. -/
def charCodeAt0 (c : Char) : Nat :=
  if c.toNat < 0x10000 then c.toNat else 0xD800 + (c.toNat - 0x10000) / 1024

/-- UTF-8 decoder worker; the fuel (instantiated with the byte count, which
bounds the number of decoded characters) keeps the recursion structural. -/
def utf8DecF : Nat → List Nat → List Char
  | 0, _ => []
  | _, [] => []
  | f + 1, b :: rest =>
    if b < 0x80 then
      Char.ofNat b :: utf8DecF f rest
    else if b < 0xC2 then
      Char.ofNat 0xFFFD :: utf8DecF f rest
    else if b < 0xE0 then
      match rest with
      | b1 :: rest1 =>
        if 0x80 ≤ b1 ∧ b1 < 0xC0 then
          Char.ofNat ((b - 0xC0) * 64 + (b1 - 0x80)) :: utf8DecF f rest1
        else Char.ofNat 0xFFFD :: utf8DecF f rest
      | [] => [Char.ofNat 0xFFFD]
    else if b < 0xF0 then
      match rest with
      | b1 :: b2 :: rest2 =>
        if 0x80 ≤ b1 ∧ b1 < 0xC0 ∧ 0x80 ≤ b2 ∧ b2 < 0xC0 then
          Char.ofNat ((b - 0xE0) * 4096 + (b1 - 0x80) * 64 + (b2 - 0x80)) :: utf8DecF f rest2
        else Char.ofNat 0xFFFD :: utf8DecF f rest
      | _ => Char.ofNat 0xFFFD :: utf8DecF f rest
    else if b < 0xF5 then
      match rest with
      | b1 :: b2 :: b3 :: rest3 =>
        if 0x80 ≤ b1 ∧ b1 < 0xC0 ∧ 0x80 ≤ b2 ∧ b2 < 0xC0 ∧ 0x80 ≤ b3 ∧ b3 < 0xC0 then
          Char.ofNat ((b - 0xF0) * 0x40000 + (b1 - 0x80) * 4096 + (b2 - 0x80) * 64 + (b3 - 0x80))
            :: utf8DecF f rest3
        else Char.ofNat 0xFFFD :: utf8DecF f rest
      | _ => Char.ofNat 0xFFFD :: utf8DecF f rest
    else
      Char.ofNat 0xFFFD :: utf8DecF f rest

/-- UTF-8 decoder (`TextDecoder.decode`); malformed bytes become U+FFFD. -/
def utf8Dec (l : List Nat) : List Char :=
  utf8DecF l.length l

/-- `String.prototype.split(sep)` for a one-character separator. -/
def jsSplit (sep : Char) : List Char → List (List Char)
  | [] => [[]]
  | c :: rest =>
    let r := jsSplit sep rest
    if c = sep then [] :: r else (c :: r.headD []) :: r.tail

/-- `str.split("\0").shift()`: the segment before the first NUL. -/
def splitNullHead (cs : List Char) : List Char :=
  (jsSplit (Char.ofNat 0) cs).headD []

theorem splitNullHead_eq_takeWhile (cs : List Char) :
    splitNullHead cs = cs.takeWhile (fun c => c ≠ Char.ofNat 0) := by
  induction cs with
  | nil => rfl
  | cons c rest ih =>
    simp only [splitNullHead, jsSplit, List.takeWhile_cons] at *
    by_cases h : c = Char.ofNat 0
    · simp [h]
    · simpa [h] using congrArg (List.cons c) ih

/-! ## IEEE-754 binary64 / binary32 helpers

JavaScript numbers are binary64 values and are embedded by their 64-bit
patterns wherever the codec moves them through `setFloat64`/`getFloat64`.
`setFloat32` narrows with round-to-nearest-even and `getFloat32` widens
exactly; both are implemented on bit patterns.  The serializer's integer
paths truncate a number toward zero (`ToUint8` .. `ToInt32`), implemented by
`f64TruncToInt`. -/

/-- Number of bits of `n` (0 for 0), computed with explicit fuel so that it
reduces by `rfl`; 64 rounds of fuel cover every value handled here. -/
def bitLenF : Nat → Nat → Nat
  | 0, _ => 0
  | _ + 1, 0 => 0
  | f + 1, n => bitLenF f (n / 2) + 1

def bitLen (n : Nat) : Nat := bitLenF 80 n

/-- Right shift by `k` with round-to-nearest, ties to even. -/
def rshiftRNE (n k : Nat) : Nat :=
  let q := n / 2 ^ k
  let r := n % 2 ^ k
  let half := 2 ^ k / 2
  if k = 0 then n
  else if r > half ∨ (r = half ∧ q % 2 = 1) then q + 1 else q

/-- Widen a binary32 bit pattern to the binary64 bit pattern of the same
value (`getFloat32` returns this value as a JavaScript number). -/
def f32BitsToF64bits (b : Nat) : Nat :=
  let s := b / 2 ^ 31 % 2
  let e := b / 2 ^ 23 % 256
  let m := b % 2 ^ 23
  if e = 255 then
    -- infinity / NaN
    s * 2 ^ 63 + 0x7FF * 2 ^ 52 + m * 2 ^ 29
  else if e = 0 then
    if m = 0 then s * 2 ^ 63
    else
      -- binary32 subnormal: normalise into a binary64 normal
      let bl := bitLen m
      s * 2 ^ 63 + (bl + 873) * 2 ^ 52 + (m - 2 ^ (bl - 1)) * 2 ^ (52 - (bl - 1))
  else
    s * 2 ^ 63 + (e + 896) * 2 ^ 52 + m * 2 ^ 29

/-- Narrow a binary64 bit pattern to binary32 with round-to-nearest-even
(`setFloat32`).  NaNs map to the canonical quiet NaN. -/
def f64BitsToF32bits (x : Nat) : Nat :=
  let s := x / 2 ^ 63 % 2
  let e := x / 2 ^ 52 % 2048
  let m := x % 2 ^ 52
  if e = 2047 then
    if m = 0 then s * 2 ^ 31 + 0x7F800000 else 0x7FC00000
  else
    -- exact value is sig * 2 ^ (ee - 1075) with 0 < sig < 2^53
    let sig := if e = 0 then m else m + 2 ^ 52
    let ee := if e = 0 then 1 else e
    if sig = 0 then s * 2 ^ 31
    else
      let bl := bitLen sig
      -- exponent of the leading bit of the value is ee - 1075 + (bl - 1);
      -- below -126 the result is a binary32 subnormal
      if ee + bl ≤ 949 then
        -- rounds to a binary32 subnormal (or to zero, or up to the least
        -- normal): target unit is 2^-149, so shift sig right by 926 - ee
        s * 2 ^ 31 + rshiftRNE sig (926 - ee)
      else
        -- normal range (before overflow check): keep 24 significand bits
        let msig := if bl ≤ 24 then sig * 2 ^ (24 - bl) else rshiftRNE sig (bl - 24)
        let fexp := if msig = 2 ^ 24 then ee + bl - 948 else ee + bl - 949
        let msig' := if msig = 2 ^ 24 then 2 ^ 23 else msig
        if fexp ≥ 255 then s * 2 ^ 31 + 0x7F800000
        else s * 2 ^ 31 + fexp * 2 ^ 23 + (msig' - 2 ^ 23)

/-- Truncation of a binary64 value toward zero (the `ToInt32`-family
conversions applied by the integer `DataView` setters). -/
def f64TruncToInt (x : Nat) : Int :=
  let s := x / 2 ^ 63 % 2
  let e := x / 2 ^ 52 % 2048
  let m := x % 2 ^ 52
  if e = 2047 then 0 -- Infinity and NaN truncate to 0 under ToUint8..ToInt32
  else
    let sig := if e = 0 then m else m + 2 ^ 52
    let mag : Nat := if e ≥ 1075 then sig * 2 ^ (e - 1075) else sig / 2 ^ (1075 - e)
    if s = 1 then -(mag : Int) else (mag : Int)

/-- The binary64 bit pattern of a natural number (round-to-nearest-even
above 2^53, as JavaScript's number conversion rounds). -/
def natToF64bits (n : Nat) : Nat :=
  if n = 0 then 0
  else
    let bl := bitLen n
    if bl ≤ 53 then (bl + 1022) * 2 ^ 52 + (n * 2 ^ (53 - bl) - 2 ^ 52)
    else
      let msig := rshiftRNE n (bl - 53)
      let bl' := if msig = 2 ^ 53 then bl + 1 else bl
      let msig' := if msig = 2 ^ 53 then 2 ^ 52 else msig
      if bl' + 1022 ≥ 2047 then 0x7FF * 2 ^ 52
      else (bl' + 1022) * 2 ^ 52 + (msig' - 2 ^ 52)

/-- The binary64 bit pattern of an integer. -/
def intToF64bits (i : Int) : Nat :=
  if i < 0 then 2 ^ 63 + natToF64bits i.natAbs else natToF64bits i.natAbs

/-- `BigInt(x)` for a binary64 `x`: exact when `x` is an integral value,
an error (JavaScript `RangeError`) otherwise; `-0` yields `0`. -/
def f64BitsToBigInt (x : Nat) : Option Int :=
  if x = 2 ^ 63 then some 0
  else if intToF64bits (f64TruncToInt x) = x then some (f64TruncToInt x) else none

/-! ## Data model (src/types.ts and @foxglove/message-definition)

`CbufValue` embeds the JavaScript values the codec moves around.  A
JavaScript number is one binary64 value; here it is split into `vInt`
(numbers holding an integral value, by their value) and `vFlt` (numbers by
their binary64 bit pattern) and the coercions of the codec are defined on
both so that each field type sees the behaviour the corresponding JavaScript
conversion has.  Typed arrays and plain arrays are both embedded as `vArr`
of their elements (the aliasing/alignment distinction of §4.8 of the spec is
a memory-representation concern with no observable effect on decoded element
values). `vUndef` is the JavaScript `undefined`. -/

inductive CbufValue where
  | vBool : Bool → CbufValue
  | vInt : Int → CbufValue
  | vFlt : Nat → CbufValue
  | vBig : Int → CbufValue
  | vStr : String → CbufValue
  | vArr : List CbufValue → CbufValue
  | vObj : List (String × CbufValue) → CbufValue
  | vUndef : CbufValue

/-- A scalar literal from the grammar (`Boolean`, `Number`, `String`,
`IDENTIFIER`); integral numeric literals are embedded by value (a literal
with a fractional part would need binary64 arithmetic in the analyzer and is
outside the model; no claim touches one). -/
inductive DefScalar where
  | dBool : Bool → DefScalar
  | dNum : Int → DefScalar
  | dStr : String → DefScalar
  deriving DecidableEq

/-- A parsed right-hand side (`AssignmentRHS`): a scalar or an array of
scalars (`{a, b, c}`). -/
inductive DefVal where
  | scalar : DefScalar → DefVal
  | arr : List DefScalar → DefVal
  deriving DecidableEq

/-- The `CbufValue` a stored default denotes when the codec reads it. -/
def DefScalar.toValue : DefScalar → CbufValue
  | .dBool b => .vBool b
  | .dNum i => .vInt i
  | .dStr s => .vStr s

def DefVal.toValue : DefVal → CbufValue
  | .scalar s => s.toValue
  | .arr l => .vArr (l.map DefScalar.toValue)

/-- A field descriptor (`MessageDefinitionField`).  JavaScript checks such as
`field.isComplex === true` make `undefined` and `false` interchangeable, so
the optional boolean flags are embedded as `Bool`; the optional numeric
members keep their `Option`. Array lengths parsed from the grammar are
embedded as naturals (a fractional array length is outside the model). -/
structure MessageDefinitionField where
  name : String
  type : String
  isComplex : Bool := false
  isArray : Bool := false
  arrayLength : Option Nat := none
  arrayUpperBound : Option Nat := none
  upperBound : Option Nat := none
  defaultValue : Option DefVal := none
  isConstant : Bool := false
  value : Option DefVal := none
  deriving DecidableEq

/-- A schema entity (`CbufMessageDefinition` in src/types.ts). -/
structure CbufMessageDefinition where
  name : String
  namespaces : List String
  definitions : List MessageDefinitionField
  hashValue : Nat := 0
  isEnum : Bool := false
  isEnumCls : Bool := false
  isNakedStruct : Bool := false
  deriving DecidableEq

/-- The header+payload record returned by `deserializeMessage`
(`CbufMessage` in src/types.ts); `timestamp` is the binary64 bit pattern. -/
structure CbufMessage where
  typeName : String
  size : Nat
  variant : Nat
  hashValue : Nat
  timestamp : Nat
  message : List (String × CbufValue)

/-- The input of the serializer (`CbufMessageData`). -/
structure CbufMessageData where
  typeName : String
  timestamp : Nat
  message : List (String × CbufValue)

/-- Errors; the JavaScript library throws `Error` objects whose messages
distinguish these cases (plus engine-raised `TypeError`/`RangeError`).
`stackOverflow` stands for exhausting the embedded recursion fuel, which in
the JavaScript engine is exhausting the call stack. -/
inductive SerdeErr where
  | invalidOffset
  | bufferTooSmall
  | badMagic
  | sizeExceedsBuffer
  | hashNotFound
  | sizeMismatch
  | unknownMessageType
  | unsupportedType
  | lookupFailed
  | typeError
  | rangeError
  | messageNotObject
  | stackOverflow
  deriving DecidableEq

/-! ## JavaScript `Map` and the schema maps (src/serde.ts 53-65) -/

/-- `Map.prototype.get`: the binding of the key, if any. -/
def mapGet {α : Type} (m : List (String × α)) (k : String) : Option α :=
  (m.find? (fun p => p.1 = k)).map (·.2)

/-- `Map.prototype.get` for bigint keys (the hash map). -/
def mapGetN {α : Type} (m : List (Nat × α)) (k : Nat) : Option α :=
  (m.find? (fun p => p.1 = k)).map (·.2)

/-- `Map.prototype.set`: replace the binding of the key or append one. -/
def mapSet {α : Type} (m : List (String × α)) (k : String) (v : α) : List (String × α) :=
  if (m.find? (fun p => p.1 = k)).isSome then
    m.map (fun p => if p.1 = k then (k, v) else p)
  else m ++ [(k, v)]

def mapSetN {α : Type} (m : List (Nat × α)) (k : Nat) (v : α) : List (Nat × α) :=
  if (m.find? (fun p => p.1 = k)).isSome then
    m.map (fun p => if p.1 = k then (k, v) else p)
  else m ++ [(k, v)]

abbrev NameSchemaMap := List (String × CbufMessageDefinition)
abbrev HashSchemaMap := List (Nat × CbufMessageDefinition)

/-- The bootstrapped `cbufmsg::metadata` definition (src/serde.ts 20-32). -/
def METADATA_DEFINITION : CbufMessageDefinition where
  name := "cbufmsg::metadata"
  namespaces := ["cbufmsg"]
  hashValue := 0xbe6738d544ab72c6
  isEnum := false
  isEnumCls := false
  isNakedStruct := false
  definitions :=
    [ { name := "msg_hash", type := "uint64" },
      { name := "msg_name", type := "string" },
      { name := "msg_meta", type := "string" } ]

def HEADER_SIZE : Nat := 4 + 4 + 8 + 8

/-- `createSchemaMaps` (src/serde.ts 53-65): name map over all schemas, hash
map over the non-enum schemas. -/
def createSchemaMaps (schemas : List CbufMessageDefinition) :
    NameSchemaMap × HashSchemaMap :=
  schemas.foldl
    (fun maps schema =>
      (mapSet maps.1 schema.name schema,
       if schema.isEnum then maps.2 else mapSetN maps.2 schema.hashValue schema))
    ([], [])

/-! ## Name lookup (src/lookup.ts)

The repository holds two revisions of `lookupMsgdef`; following the spec's
§9 selection, the one embedded is the revision that looks a name containing
`::` up directly and otherwise walks the namespace stack from the most
specific prefix down to the global namespace. -/

/-- Does the string contain the substring `::`? -/
def hasDoubleColon : List Char → Bool
  | [] => false
  | [_] => false
  | a :: b :: rest => (a = ':' ∧ b = ':') || hasDoubleColon (b :: rest)

/-- The namespace walk: try `ns[0..i] ++ [typeName]` joined with `::` for
`i = namespaces.length` down to `0`. -/
def lookupWalk {α : Type} (m : List (String × α)) (namespaces : List String)
    (typeName : String) : Nat → Option α
  | 0 => mapGet m typeName
  | i + 1 =>
    match mapGet m (String.intercalate "::" (namespaces.take (i + 1) ++ [typeName])) with
    | some d => some d
    | none => lookupWalk m namespaces typeName i

/-- The shared lookup logic of `lookupMsgdef` and `lookupEnum`
(src/lookup.ts): a name containing `::` is looked up directly, any other
through the namespace walk. -/
def lookupO {α : Type} (m : List (String × α)) (namespaces : List String)
    (typeName : String) : Option α :=
  if hasDoubleColon typeName.data then mapGet m typeName
  else lookupWalk m namespaces typeName namespaces.length

/-- `lookupMsgdef` (src/lookup.ts): resolve a (possibly qualified) type name
to a schema entity; an unresolved name throws. -/
def lookupMsgdef (m : NameSchemaMap) (namespaces : List String) (typeName : String) :
    Except SerdeErr CbufMessageDefinition :=
  match lookupO m namespaces typeName with
  | some d => .ok d
  | none => .error .lookupFailed

/-! ## Value coercions of the codec (src/serde.ts 771-799) -/

/-- `getNumber` (src/serde.ts 771-782) composed with the truncating
`ToUint8`..`ToInt32` conversion every integer `DataView` setter applies; the
final wrap to the field width happens in `intLE`. -/
def getNumberInt : Option CbufValue → Int
  | some (.vInt i) => i
  | some (.vFlt b) => f64TruncToInt b
  | some (.vBig i) => i
  | some (.vBool b) => if b then 1 else 0
  | _ => 0

/-- `getNumber` as seen by `setFloat32`/`setFloat64`: the binary64 pattern
of the resulting number. -/
def getNumberF64 : Option CbufValue → Nat
  | some (.vInt i) => intToF64bits i
  | some (.vFlt b) => b
  | some (.vBig i) => intToF64bits i
  | some (.vBool b) => if b then intToF64bits 1 else 0
  | _ => 0

/-- `getBigInt` (src/serde.ts 784-795); `BigInt(n)` of a non-integral
number throws a `RangeError`. -/
def getBigInt : Option CbufValue → Except SerdeErr Int
  | some (.vBig i) => .ok i
  | some (.vInt i) => .ok i
  | some (.vFlt b) =>
    match f64BitsToBigInt b with
    | some i => .ok i
    | none => .error .rangeError
  | some (.vBool b) => .ok (if b then 1 else 0)
  | _ => .ok 0

/-- `isArray` (src/serde.ts 797-799): a plain array or a typed array. -/
def jsIsArray : Option CbufValue → Bool
  | some (.vArr _) => true
  | _ => false

/-- `isArray(value) ? value : []`. -/
def asArr : Option CbufValue → List CbufValue
  | some (.vArr l) => l
  | _ => []

/-- `value != undefined && typeof value === "object" ? value : {}`: the size
walk coerces a non-object to an empty record without throwing.  A non-object
JavaScript value answers `undefined` to every property read, which is what
the empty record answers, so both coerce to `[]` here. -/
def asObjSize : Option CbufValue → List (String × CbufValue)
  | some (.vObj o) => o
  | _ => []

/-- The serializer passes `value as Record<string, unknown>` straight into
`serializeNakedMessage`, whose property reads throw a `TypeError` on
`undefined`; every other non-object value answers `undefined` to every
property read, behaving as an empty record. -/
def asObjSer : Option CbufValue → Except SerdeErr (List (String × CbufValue))
  | some (.vObj o) => .ok o
  | some .vUndef => .error .typeError
  | none => .error .typeError
  | some _ => .ok []

/-- `message[field.name] ?? field.defaultValue` (src/serde.ts 437, 623). -/
def fieldValue (obj : List (String × CbufValue)) (fld : MessageDefinitionField) :
    Option CbufValue :=
  match mapGet obj fld.name with
  | some .vUndef => fld.defaultValue.map DefVal.toValue
  | none => fld.defaultValue.map DefVal.toValue
  | some v => some v

/-! ## Iteration combinators

The `for` loops of the codec, factored into reusable structural recursions
(the per-element bodies close over the schema functions one nesting level
down, which keeps the whole codec structurally recursive on the fuel). -/

/-- Run an emitting body over a list, concatenating the output. -/
def exList {α : Type} (f : α → Except SerdeErr (List Nat)) :
    List α → Except SerdeErr (List Nat)
  | [] => .ok []
  | a :: rest => do
    let l ← f a
    let r ← exList f rest
    .ok (l ++ r)

/-- Run a size body over a list, summing the output. -/
def exSum {α : Type} (f : α → Except SerdeErr Nat) : List α → Except SerdeErr Nat
  | [] => .ok 0
  | a :: rest => do
    let n ← f a
    let m ← exSum f rest
    .ok (n + m)

/-- Run a consuming reader over a list of descriptors, threading the bytes. -/
def stList {α β : Type} (f : α → List Nat → Except SerdeErr (β × List Nat)) :
    List α → List Nat → Except SerdeErr (List β × List Nat)
  | [], l => .ok ([], l)
  | a :: rest, l => do
    let (b, l1) ← f a l
    let (bs, l2) ← stList f rest l1
    .ok (b :: bs, l2)

/-- Run a consuming reader `count` times. -/
def readElems (rd : List Nat → Except SerdeErr (CbufValue × List Nat)) :
    Nat → List Nat → Except SerdeErr (List CbufValue × List Nat)
  | 0, l => .ok ([], l)
  | n + 1, l => do
    let (v, l1) ← rd l
    let (vs, l2) ← readElems rd n l1
    .ok (v :: vs, l2)

/-- The element slots the serializer iterates for an array field: index
`0 ..< arrayLength` of the supplied array for a fixed-length field (absent
slots are `undefined`), every supplied element for a variable-length one. -/
def elemSlots (fld : MessageDefinitionField) (arr : List CbufValue) :
    List (Option CbufValue) :=
  match fld.arrayLength with
  | some m => (List.range m).map (fun i => arr.get? i)
  | none => arr.map some

/-! ## Size calculation (src/serde.ts 397-545) -/

/-- The UTF-16 length the size walk charges for a string element
(src/serde.ts 473, 531: `typeof element === "string" ? element.length : 0`). -/
def strLenOf : Option CbufValue → Nat
  | some (.vStr s) => utf16Len s
  | _ => 0

/-- One step of `serializedNakedMessageSize` (src/serde.ts 430-545); `prev`
is the same walk one nesting level down. -/
def mkSizeNaked (M : NameSchemaMap)
    (prev : CbufMessageDefinition → List (String × CbufValue) → Except SerdeErr Nat)
    (msgdef : CbufMessageDefinition) (message : List (String × CbufValue)) :
    Except SerdeErr Nat :=
  exSum (fun fld => do
    let value := fieldValue message fld
    if fld.isArray then
      let arrayValue := asArr value
      -- a fixed-length field charges no count word; a variable-length field
      -- charges 4 bytes and uses the supplied length
      let arrayLength := match fld.arrayLength with
        | some m => m
        | none => arrayValue.length
      let cnt : Nat := match fld.arrayLength with
        | some _ => 0
        | none => 4
      match fld.type with
      | "bool" | "uint8" | "int8" => .ok (cnt + arrayLength)
      | "uint16" | "int16" => .ok (cnt + arrayLength * 2)
      | "uint32" | "int32" | "float32" => .ok (cnt + arrayLength * 4)
      | "uint64" | "int64" | "float64" => .ok (cnt + arrayLength * 8)
      | "string" =>
        match fld.upperBound with
        | none => do
          -- 4-byte length word per slot, plus the length of every supplied
          -- element (note: of every element of `arrayValue`, src/serde.ts 472)
          let s ← exSum (fun el => .ok (strLenOf (some el))) arrayValue
          .ok (cnt + arrayLength * 4 + s)
        | some ub => .ok (cnt + arrayLength * ub)
      | _ =>
        -- nested struct array: every supplied element individually, with no
        -- header bytes charged (src/serde.ts 480-491)
        if arrayValue.length > 0 then do
          let nested ← lookupMsgdef M msgdef.namespaces fld.type
          let s ← exSum (fun el => prev nested (asObjSize (some el))) arrayValue
          .ok (cnt + s)
        else .ok cnt
    else
      if fld.isComplex then do
        let nested ← lookupMsgdef M msgdef.namespaces fld.type
        let hdr := if nested.isNakedStruct then 0 else HEADER_SIZE
        let s ← prev nested (asObjSize value)
        .ok (hdr + s)
      else
        match fld.type with
        | "bool" | "uint8" | "int8" => .ok 1
        | "uint16" | "int16" => .ok 2
        | "uint32" | "int32" | "float32" => .ok 4
        | "uint64" | "int64" | "float64" => .ok 8
        | "string" =>
          match fld.upperBound with
          | none => .ok (4 + strLenOf value)
          | some ub => .ok ub
        | _ => .error .unsupportedType) msgdef.definitions

/-- `serializedNakedMessageSize` at a given nesting-depth fuel. -/
def sizeNakedF (M : NameSchemaMap) :
    Nat → CbufMessageDefinition → List (String × CbufValue) → Except SerdeErr Nat
  | 0 => fun _ _ => .error .stackOverflow
  | f + 1 => mkSizeNaked M (sizeNakedF M f)

/-- The message-definition lookup shared by `serializedMessageSize` and
`serializeMessage` (src/serde.ts 412-418, 562-568): the metadata name is
recognised even when absent from the map. -/
def findMsgdefByName (M : NameSchemaMap) (typeName : String) :
    Except SerdeErr CbufMessageDefinition :=
  if typeName = METADATA_DEFINITION.name then .ok METADATA_DEFINITION
  else
    match mapGet M typeName with
    | some d => .ok d
    | none => .error .unknownMessageType

/-- `serializedMessageSize` (src/serde.ts 403-421).  (The guard rejecting a
non-object `message.message` is vacuous here, the embedded message payload
is always a record.) -/
def serializedMessageSize (M : NameSchemaMap) (fuel : Nat) (message : CbufMessageData) :
    Except SerdeErr Nat := do
  let msgdef ← findMsgdefByName M message.typeName
  let s ← sizeNakedF M fuel msgdef message.message
  .ok (HEADER_SIZE + s)

/-! ## Serialization (src/serde.ts 547-769) -/

/-- One step of `serializeNonArrayField` (src/serde.ts 663-769); `prevNaked`
and `prevSize` are the payload walk and the size walk one nesting level
down (the inner header's size word recomputes the nested size,
src/serde.ts 677-685). -/
def mkSerScalar (M : NameSchemaMap)
    (prevNaked : CbufMessageDefinition → List (String × CbufValue) →
      Except SerdeErr (List Nat))
    (prevSize : CbufMessageDefinition → List (String × CbufValue) → Except SerdeErr Nat)
    (nss : List String) (fld : MessageDefinitionField) (value : Option CbufValue) :
    Except SerdeErr (List Nat) :=
  if fld.isComplex then do
    let nested ← lookupMsgdef M nss fld.type
    let obj ← asObjSer value
    if nested.isNakedStruct then
      prevNaked nested obj
    else do
      let nestedSize ← prevSize nested obj
      let payload ← prevNaked nested obj
      .ok (natLE 4 0x56444e54 ++ natLE 4 (HEADER_SIZE + nestedSize) ++
           natLE 8 nested.hashValue ++ natLE 8 0 ++ payload)
  else
    match fld.type with
    | "bool" | "uint8" | "int8" => .ok (intLE 1 (getNumberInt value))
    | "uint16" | "int16" => .ok (intLE 2 (getNumberInt value))
    | "uint32" | "int32" => .ok (intLE 4 (getNumberInt value))
    | "float32" => .ok (natLE 4 (f64BitsToF32bits (getNumberF64 value)))
    | "uint64" | "int64" => do
      let i ← getBigInt value
      .ok (intLE 8 i)
    | "float64" => .ok (natLE 8 (getNumberF64 value))
    | "string" =>
      -- src/serde.ts 743-761: a bounded string occupies exactly upperBound
      -- bytes; an unbounded one is preceded by a u32 equal to the UTF-16
      -- length of the value, and that many bytes of its UTF-8 encoding are
      -- written (`bytes.slice(0, length)`), the rest staying zero
      let pre : List Nat := match fld.upperBound with
        | some _ => []
        | none => natLE 4 (strLenOf value)
      let length : Nat := match fld.upperBound with
        | some ub => ub
        | none => strLenOf value
      let chunk : List Nat := match value with
        | some (.vStr s) =>
          if 0 < utf16Len s then
            let tk := (utf8Str s).take length
            tk ++ List.replicate (length - tk.length) 0
          else List.replicate length 0
        | _ => List.replicate length 0
      .ok (pre ++ chunk)
    | _ => .error .unsupportedType

/-- One step of `serializeNakedMessage` (src/serde.ts 614-658). -/
def mkSerNaked (M : NameSchemaMap)
    (prevNaked : CbufMessageDefinition → List (String × CbufValue) →
      Except SerdeErr (List Nat))
    (prevSize : CbufMessageDefinition → List (String × CbufValue) → Except SerdeErr Nat)
    (msgdef : CbufMessageDefinition) (message : List (String × CbufValue)) :
    Except SerdeErr (List Nat) :=
  exList (fun fld => do
    let value := fieldValue message fld
    if fld.isArray then
      let arrayValue := asArr value
      let pre : List Nat := match fld.arrayLength with
        | some _ => []
        | none => natLE 4 arrayValue.length
      let body ← exList (fun el => mkSerScalar M prevNaked prevSize msgdef.namespaces fld el)
        (elemSlots fld arrayValue)
      .ok (pre ++ body)
    else
      mkSerScalar M prevNaked prevSize msgdef.namespaces fld value) msgdef.definitions

/-- `serializeNakedMessage` at a given nesting-depth fuel. -/
def serNakedF (M : NameSchemaMap) :
    Nat → CbufMessageDefinition → List (String × CbufValue) → Except SerdeErr (List Nat)
  | 0 => fun _ _ => .error .stackOverflow
  | f + 1 => mkSerNaked M (serNakedF M f) (sizeNakedF M f)

/-- The 24-byte preamble `serializeMessage` writes (src/serde.ts 582-596):
magic, the size word (`setUint32` wraps it mod 2^32; the variant is always
whatever bits the size itself has in positions 27-30), the hash, the
timestamp. -/
def serializeHeaderBytes (msgdef : CbufMessageDefinition) (size : Nat) (timestamp : Nat) :
    List Nat :=
  natLE 4 0x56444e54 ++ natLE 4 size ++ natLE 8 msgdef.hashValue ++ natLE 8 timestamp

/-- The byte sequence `serializeMessage` (src/serde.ts 555-602) writes into
its zero-initialised buffer: preamble, then the payload at a strictly
monotone cursor. -/
def serializeMessageRaw (M : NameSchemaMap) (fuel : Nat) (message : CbufMessageData) :
    Except SerdeErr (List Nat) := do
  let msgdef ← findMsgdefByName M message.typeName
  let size ← serializedMessageSize M fuel message
  let payload ← serNakedF M fuel msgdef message.message
  .ok (serializeHeaderBytes msgdef size message.timestamp ++ payload)

/-- `serializeMessage` (src/serde.ts 555-602): the returned `ArrayBuffer`
has exactly `serializedMessageSize` bytes; the bytes actually written are
`serializeMessageRaw` and the rest of the zero-initialised allocation stays
zero.  Every write is at the running cursor, so some write crosses the end
of the buffer (throwing a `RangeError`) exactly when the raw byte sequence
is longer than the allocation. -/
def serializeMessage (M : NameSchemaMap) (fuel : Nat) (message : CbufMessageData) :
    Except SerdeErr (List Nat) := do
  let size ← serializedMessageSize M fuel message
  let raw ← serializeMessageRaw M fuel message
  if raw.length ≤ size then .ok (raw ++ List.replicate (size - raw.length) 0)
  else .error .rangeError

/-! ## Deserialization (src/serde.ts 67-395) -/

/-- `readBasicType` (src/serde.ts 340-395). -/
def readBasicType (fld : MessageDefinitionField) (bytes : List Nat) :
    Except SerdeErr (CbufValue × List Nat) :=
  match fld.type with
  | "bool" =>
    match bytes with
    | b :: rest => .ok (.vBool (b != 0), rest)
    | [] => .error .bufferTooSmall
  | "int8" =>
    match readLE 1 bytes with
    | some (n, rest) => .ok (.vInt (uToS 8 n), rest)
    | none => .error .bufferTooSmall
  | "uint8" =>
    match readLE 1 bytes with
    | some (n, rest) => .ok (.vInt n, rest)
    | none => .error .bufferTooSmall
  | "int16" =>
    match readLE 2 bytes with
    | some (n, rest) => .ok (.vInt (uToS 16 n), rest)
    | none => .error .bufferTooSmall
  | "uint16" =>
    match readLE 2 bytes with
    | some (n, rest) => .ok (.vInt n, rest)
    | none => .error .bufferTooSmall
  | "int32" =>
    match readLE 4 bytes with
    | some (n, rest) => .ok (.vInt (uToS 32 n), rest)
    | none => .error .bufferTooSmall
  | "uint32" =>
    match readLE 4 bytes with
    | some (n, rest) => .ok (.vInt n, rest)
    | none => .error .bufferTooSmall
  | "int64" =>
    match readLE 8 bytes with
    | some (n, rest) => .ok (.vBig (uToS 64 n), rest)
    | none => .error .bufferTooSmall
  | "uint64" =>
    match readLE 8 bytes with
    | some (n, rest) => .ok (.vBig n, rest)
    | none => .error .bufferTooSmall
  | "float32" =>
    match readLE 4 bytes with
    | some (n, rest) => .ok (.vFlt (f32BitsToF64bits n), rest)
    | none => .error .bufferTooSmall
  | "float64" =>
    match readLE 8 bytes with
    | some (n, rest) => .ok (.vFlt n, rest)
    | none => .error .bufferTooSmall
  | "string" =>
    -- src/serde.ts 380-391: bounded strings read upperBound bytes, unbounded
    -- ones a u32 length then that many bytes; the decoded text is cut at the
    -- first NUL (`str.split("\0").shift()`)
    match fld.upperBound with
    | some ub =>
      if ub ≤ bytes.length then
        .ok (.vStr (String.mk (splitNullHead (utf8Dec (bytes.take ub)))), bytes.drop ub)
      else .error .rangeError
    | none =>
      match readLE 4 bytes with
      | some (len, rest) =>
        if len ≤ rest.length then
          .ok (.vStr (String.mk (splitNullHead (utf8Dec (rest.take len)))), rest.drop len)
        else .error .rangeError
      | none => .error .bufferTooSmall
  | _ => .error .unsupportedType

/-- The size-and-variant word decode (src/serde.ts 113-116): bit 27
(`0x8000000`) selects the variant form; then the size keeps bits 0-26 and
the variant is `(word >> 27) & 0x0f`, else the size keeps bits 0-30 and the
variant is 0.  (On a `getUint32` result the JavaScript `&`/`>>` operators
agree with these natural-number operations after the `>>> 0` in the
source.) -/
def decodeSizeAndVariant (sizeAndVariant : Nat) : Nat × Nat :=
  let hasVariant := sizeAndVariant &&& 0x8000000 = 0x8000000
  (if hasVariant then sizeAndVariant &&& 0x07ffffff else sizeAndVariant &&& 0x7fffffff,
   if hasVariant then (sizeAndVariant >>> 27) &&& 0x0f else 0)

/-- One step of `deserializeMessage` (src/serde.ts 78-155) on the remaining
bytes; `prevNaked` is the payload walk one nesting level down. -/
def mkDeserMessage (M : NameSchemaMap) (H : HashSchemaMap)
    (prevNaked : CbufMessageDefinition → List Nat →
      Except SerdeErr (List (String × CbufValue) × List Nat))
    (bytes : List Nat) : Except SerdeErr (CbufMessage × List Nat) :=
  -- offset-validity and minimum-size checks (src/serde.ts 85-103)
  if bytes.length = 0 then .error .invalidOffset
  else if bytes.length < 24 then .error .bufferTooSmall
  else
    match readLE 4 bytes with
    | none => .error .bufferTooSmall
    | some (magic, r1) =>
      if magic ≠ 0x56444e54 then .error .badMagic
      else
        match readLE 4 r1 with
        | none => .error .bufferTooSmall
        | some (sizeAndVariant, r2) =>
          let sv := decodeSizeAndVariant sizeAndVariant
          if sv.1 > bytes.length then .error .sizeExceedsBuffer
          else
            match readLE 8 r2 with
            | none => .error .bufferTooSmall
            | some (hashValue, r3) =>
              match readLE 8 r3 with
              | none => .error .bufferTooSmall
              | some (tsBits, r4) =>
                match
                  (if hashValue = METADATA_DEFINITION.hashValue then
                    some METADATA_DEFINITION
                  else mapGetN H hashValue) with
                | none => .error .hashNotFound
                | some msgdef =>
                  match prevNaked msgdef r4 with
                  | .error e => .error e
                  | .ok (message, r5) =>
                    -- src/serde.ts 143-145: consumed bytes must equal the size
                    if bytes.length - r5.length ≠ sv.1 then .error .sizeMismatch
                    else .ok (⟨msgdef.name, sv.1, sv.2, hashValue, tsBits, message⟩, r5)

/-- One step of `readNonArrayField` (src/serde.ts 292-330). -/
def mkDeserScalar (M : NameSchemaMap) (H : HashSchemaMap)
    (prevNaked : CbufMessageDefinition → List Nat →
      Except SerdeErr (List (String × CbufValue) × List Nat))
    (nss : List String) (fld : MessageDefinitionField) (bytes : List Nat) :
    Except SerdeErr (CbufValue × List Nat) :=
  if fld.isComplex then do
    let nested ← lookupMsgdef M nss fld.type
    if nested.isNakedStruct then do
      let (msg, rest) ← prevNaked nested bytes
      .ok (.vObj msg, rest)
    else do
      -- a nested non-naked struct re-enters deserializeMessage and advances
      -- by its size word, which the inner size check makes the consumed count
      let (r, rest) ← mkDeserMessage M H prevNaked bytes
      .ok (.vObj r.message, rest)
  else readBasicType fld bytes

/-- One step of `deserializeNakedMessage` (src/serde.ts 161-270).  Numeric
arrays take the typed-array fast path in the source; element for element it
reads the same little-endian values `readBasicType` reads, so all array
elements go through the scalar reader here (bool arrays also read one byte
per element, src/serde.ts 185-193). -/
def mkDeserNaked (M : NameSchemaMap) (H : HashSchemaMap)
    (prevNaked : CbufMessageDefinition → List Nat →
      Except SerdeErr (List (String × CbufValue) × List Nat))
    (msgdef : CbufMessageDefinition) (bytes : List Nat) :
    Except SerdeErr (List (String × CbufValue) × List Nat) :=
  stList (fun fld l =>
    if fld.isArray then do
      let (count, l1) ←
        match fld.arrayLength with
        | some m => (.ok (m, l) : Except SerdeErr (Nat × List Nat))
        | none =>
          match readLE 4 l with
          | some p => .ok p
          | none => .error .bufferTooSmall
      let (elems, l2) ← readElems
        (fun b => mkDeserScalar M H prevNaked msgdef.namespaces fld b) count l1
      .ok ((fld.name, CbufValue.vArr elems), l2)
    else do
      let (v, l1) ← mkDeserScalar M H prevNaked msgdef.namespaces fld l
      .ok ((fld.name, v), l1)) msgdef.definitions bytes

/-- `deserializeNakedMessage` at a given nesting-depth fuel. -/
def deserNakedF (M : NameSchemaMap) (H : HashSchemaMap) :
    Nat → CbufMessageDefinition → List Nat →
      Except SerdeErr (List (String × CbufValue) × List Nat)
  | 0 => fun _ _ => .error .stackOverflow
  | f + 1 => mkDeserNaked M H (deserNakedF M H f)

/-- `deserializeMessage` (src/serde.ts 78-155), returning the decoded record
and the bytes after the consumed span. -/
def deserializeMessage (M : NameSchemaMap) (H : HashSchemaMap) (fuel : Nat)
    (bytes : List Nat) : Except SerdeErr (CbufMessage × List Nat) :=
  match fuel with
  | 0 => .error .stackOverflow
  | f + 1 => mkDeserMessage M H (deserNakedF M H f) bytes

/-- `serializeNonArrayField` (src/serde.ts 663-769) at a nesting fuel. -/
def serializeNonArrayField (M : NameSchemaMap) (fuel : Nat) (namespaces : List String)
    (fld : MessageDefinitionField) (value : Option CbufValue) :
    Except SerdeErr (List Nat) :=
  mkSerScalar M (serNakedF M fuel) (sizeNakedF M fuel) namespaces fld value

/-- `readNonArrayField` (src/serde.ts 292-330) at a nesting fuel. -/
def readNonArrayField (M : NameSchemaMap) (H : HashSchemaMap) (fuel : Nat)
    (namespaces : List String) (fld : MessageDefinitionField) (bytes : List Nat) :
    Except SerdeErr (CbufValue × List Nat) :=
  mkDeserScalar M H (deserNakedF M H fuel) namespaces fld bytes

/-! ## Well-formed messages

The executable well-formedness predicate used to state the round-trip
property: the payload binds exactly the schema's fields in declaration
order, and every value is of the shape and range that survives the wire
(ASCII strings without NUL and within bound, integers within their field's
range, binary32-stable floats, exact-length fixed arrays, nested structs
well-formed with coherent hash lookups and a framed size below 2^27). -/

/-- Every character printable on the wire: ASCII and not NUL. -/
def asciiNoNull (s : String) : Bool :=
  s.data.all (fun c => decide (0 < c.toNat ∧ c.toNat < 128))

/-- Well-formedness of one scalar value against a field's type.  `inArray`
rejects nested non-naked structs in array position: the size walk charges no
header for them while the payload walk writes one, so they can never
serialize successfully. -/
def mkWfScalar (M : NameSchemaMap) (H : HashSchemaMap)
    (prevWf : CbufMessageDefinition → List (String × CbufValue) → Bool)
    (prevSize : CbufMessageDefinition → List (String × CbufValue) → Except SerdeErr Nat)
    (nss : List String) (fld : MessageDefinitionField) (inArray : Bool) (v : CbufValue) :
    Bool :=
  if fld.isComplex then
    match lookupMsgdef M nss fld.type, v with
    | .ok nested, .vObj o =>
      prevWf nested o &&
      (if nested.isNakedStruct then true
       else
        !inArray &&
        decide (nested.hashValue < 2 ^ 64) &&
        decide (nested.hashValue = METADATA_DEFINITION.hashValue →
          nested = METADATA_DEFINITION) &&
        decide (mapGetN H nested.hashValue = some nested) &&
        (match prevSize nested o with
         | .ok n => decide (HEADER_SIZE + n < 2 ^ 27)
         | .error _ => false))
    | _, _ => false
  else
    match fld.type with
    | "bool" => match v with | .vBool _ => true | _ => false
    | "uint8" => match v with | .vInt i => decide (0 ≤ i ∧ i < 2 ^ 8) | _ => false
    | "int8" => match v with | .vInt i => decide (-2 ^ 7 ≤ i ∧ i < 2 ^ 7) | _ => false
    | "uint16" => match v with | .vInt i => decide (0 ≤ i ∧ i < 2 ^ 16) | _ => false
    | "int16" => match v with | .vInt i => decide (-2 ^ 15 ≤ i ∧ i < 2 ^ 15) | _ => false
    | "uint32" => match v with | .vInt i => decide (0 ≤ i ∧ i < 2 ^ 32) | _ => false
    | "int32" => match v with | .vInt i => decide (-2 ^ 31 ≤ i ∧ i < 2 ^ 31) | _ => false
    | "uint64" => match v with | .vBig i => decide (0 ≤ i ∧ i < 2 ^ 64) | _ => false
    | "int64" => match v with | .vBig i => decide (-2 ^ 63 ≤ i ∧ i < 2 ^ 63) | _ => false
    | "float32" =>
      match v with
      | .vFlt b => decide (b < 2 ^ 64) && decide (f64BitsToF32bits b < 2 ^ 32) &&
          decide (f32BitsToF64bits (f64BitsToF32bits b) = b)
      | _ => false
    | "float64" => match v with | .vFlt b => decide (b < 2 ^ 64) | _ => false
    | "string" =>
      match v with
      | .vStr s =>
        asciiNoNull s &&
        (match fld.upperBound with
         | none => decide (utf16Len s < 2 ^ 32)
         | some ub => decide (s.data.length ≤ ub))
      | _ => false
    | _ => false

/-- Is the type name one the codec treats as a wire primitive? -/
def isPrimType (t : String) : Bool :=
  match t with
  | "bool" | "uint8" | "int8" | "uint16" | "int16" | "uint32" | "int32"
  | "uint64" | "int64" | "float32" | "float64" | "string" => true
  | _ => false

/-- Well-formedness of one field binding.  (The flag-coherence conjunct for
arrays reflects what the parser guarantees: a field marked complex never
carries a primitive type name.  The array size walk dispatches on the type
name while the element writer dispatches on the flag, so an incoherent
descriptor would make them disagree.) -/
def mkWfField (M : NameSchemaMap) (H : HashSchemaMap)
    (prevWf : CbufMessageDefinition → List (String × CbufValue) → Bool)
    (prevSize : CbufMessageDefinition → List (String × CbufValue) → Except SerdeErr Nat)
    (nss : List String) (fld : MessageDefinitionField) (v : CbufValue) : Bool :=
  if fld.isArray then
    match v with
    | .vArr elems =>
      decide (fld.isComplex = true → isPrimType fld.type = false) &&
      (match fld.arrayLength with
       | some m => decide (elems.length = m)
       | none => decide (elems.length < 2 ^ 32)) &&
      elems.all (fun el => mkWfScalar M H prevWf prevSize nss fld true el)
    | _ => false
  else mkWfScalar M H prevWf prevSize nss fld false v

/-- The payload binds exactly the schema's fields, in declaration order. -/
def wfFieldsB (wfF : MessageDefinitionField → CbufValue → Bool) :
    List MessageDefinitionField → List (String × CbufValue) → Bool
  | [], [] => true
  | fld :: fs, (k, v) :: ps => decide (k = fld.name) && wfF fld v && wfFieldsB wfF fs ps
  | _, _ => false

/-- One step of the well-formedness walk over a payload record. -/
def mkWfObj (M : NameSchemaMap) (H : HashSchemaMap)
    (prevWf : CbufMessageDefinition → List (String × CbufValue) → Bool)
    (prevSize : CbufMessageDefinition → List (String × CbufValue) → Except SerdeErr Nat)
    (msgdef : CbufMessageDefinition) (obj : List (String × CbufValue)) : Bool :=
  decide ((msgdef.definitions.map (fun f => f.name)).Nodup) &&
  wfFieldsB (fun fld v => mkWfField M H prevWf prevSize msgdef.namespaces fld v)
    msgdef.definitions obj

/-- Well-formedness at a given nesting-depth fuel (aligned with the fuel of
the codec: a message well-formed at fuel `f` serializes and deserializes at
fuel `f`). -/
def wfObjF (M : NameSchemaMap) (H : HashSchemaMap) :
    Nat → CbufMessageDefinition → List (String × CbufValue) → Bool
  | 0 => fun _ _ => false
  | f + 1 => fun msgdef obj =>
    mkWfObj M H (wfObjF M H f) (sizeNakedF M f) msgdef obj

/-! ## `fixedOk`: the hypothesis of the amended size/emission agreement

The size walk visits every supplied element of a fixed-length array while
the payload walk visits exactly `arrayLength` slots, so a fixed-length
string or struct array value longer than its declared length makes the size
walk count bytes the payload walk never writes.  `fixedOk` rules exactly
that out, following the serializer's own value resolution.  (The
flag-coherence conjunct for arrays reflects what the parser guarantees: a
field marked complex never carries a primitive type name.  The array size
walk dispatches on the type string while the element emission dispatches on
the complex flag, so the conjunct constrains only the schema, never the
message value.) -/

def mkFixedOk (M : NameSchemaMap)
    (prev : CbufMessageDefinition → List (String × CbufValue) → Bool)
    (msgdef : CbufMessageDefinition) (message : List (String × CbufValue)) : Bool :=
  msgdef.definitions.all (fun fld =>
    let value := fieldValue message fld
    if fld.isArray then
      let arrayValue := asArr value
      decide (fld.isComplex = true → isPrimType fld.type = false) &&
      (match fld.arrayLength with
       | some m => decide (arrayValue.length ≤ m)
       | none => true) &&
      (if isPrimType fld.type then true
       else
         match lookupMsgdef M msgdef.namespaces fld.type with
         | .ok nested => arrayValue.all (fun el => prev nested (asObjSize (some el)))
         | .error _ => true)
    else
      if fld.isComplex then
        match lookupMsgdef M msgdef.namespaces fld.type with
        | .ok nested => prev nested (asObjSize value)
        | .error _ => true
      else true)

def fixedOkF (M : NameSchemaMap) :
    Nat → CbufMessageDefinition → List (String × CbufValue) → Bool
  | 0 => fun _ _ => false
  | f + 1 => mkFixedOk M (fixedOkF M f)

/-! ## Hashing (src/parse.ts 57-82, 362-405) -/

/-- Errors thrown by the parser / semantic analyzer. -/
inductive ParseErr where
  | noEntities
  | nestedNamespace
  | duplicateEntity
  | invalidEnumValue
  | unknownEnumValue
  | invalidDefaultValue
  | complexDefault
  | noStructs
  | unsupportedType
  | lookupFailed
  | stackOverflow
  deriving DecidableEq

/-- One character step of `hashString` (src/parse.ts 362-372): the 64-bit
djb2 step, masked before and after adding the character code. -/
def hashStep (h : Nat) (c : Char) : Nat :=
  ((h * 32 + h) % 2 ^ 64 + charCodeAt0 c) % 2 ^ 64

/-- `hashString` (src/parse.ts 362-372). -/
def hashString (s : String) : Nat :=
  s.data.foldl hashStep 5381

/-- `elementTypeToStrC` (src/parse.ts 374-405): the C spelling hashed for a
primitive field. -/
def elementTypeToStrC : String → Except ParseErr String
  | "uint8" => .ok "uint8_t"
  | "uint16" => .ok "uint16_t"
  | "uint32" => .ok "uint32_t"
  | "uint64" => .ok "uint64_t"
  | "int8" => .ok "int8_t"
  | "int16" => .ok "int16_t"
  | "int32" => .ok "int32_t"
  | "int64" => .ok "int64_t"
  | "float32" => .ok "float"
  | "float64" => .ok "double"
  | "string" => .ok "std::string"
  | "short_string" => .ok "VString<15>"
  | "bool" => .ok "bool"
  | _ => .error .unsupportedType

/-- Concatenate the outputs of a string-emitting body over a list. -/
def exStr {α : Type} (f : α → Except ParseErr String) : List α → Except ParseErr String
  | [] => .ok ""
  | a :: rest => do
    let s ← f a
    let r ← exStr f rest
    .ok (s ++ r)

/-- One step of the canonical-text construction of `computeHashValue`
(src/parse.ts 57-82): `prevText` is the text construction one nesting level
down (the source computes the nested hash by the same recursion). -/
def mkHashText (M : NameSchemaMap)
    (prevText : List String → String → Except ParseErr String)
    (namespaces : List String) (typeName : String) : Except ParseErr String :=
  match lookupO M namespaces typeName with
  | none => .error .lookupFailed
  | some msgdef =>
    (exStr (fun fld => do
      let pre := if fld.isArray then "[" ++ Nat.repr (fld.arrayLength.getD 0) ++ "] " else ""
      if fld.isComplex then do
        let t ← prevText msgdef.namespaces fld.type
        -- src/parse.ts 74: no space before the newline on a complex field line
        .ok (pre ++ Nat.repr (hashString t) ++ " " ++ fld.name ++ ";\n")
      else do
        let sp ← elementTypeToStrC fld.type
        -- src/parse.ts 76: "The space is intentional"
        .ok (pre ++ sp ++ " " ++ fld.name ++ "; \n")) msgdef.definitions).map
      (fun body => "struct " ++ typeName ++ " \n" ++ body)

/-- The canonical text hashed for a struct, at a given nesting-depth fuel. -/
def computeHashTextF (M : NameSchemaMap) :
    Nat → List String → String → Except ParseErr String
  | 0 => fun _ _ => .error .stackOverflow
  | f + 1 => mkHashText M (computeHashTextF M f)

/-- `computeHashValue` (src/parse.ts 57-82). -/
def computeHashValueF (M : NameSchemaMap) (fuel : Nat) (namespaces : List String)
    (typeName : String) : Except ParseErr Nat :=
  (computeHashTextF M fuel namespaces typeName).map hashString

/-! ## Semantic analysis (src/parse.ts 140-360)

The nearley grammar engine itself is not embedded; `parse` is embedded from
the entity list the grammar's postprocessors produce (`cbuf.ne`), which the
claims' scenarios fix concretely. -/

/-- A raw entity from the grammar (`ParserEntityDefinition`,
src/parse.ts 10-41); the boolean flags are `undefined`-or-`true` in the
source. -/
inductive ParserEntity where
  | ns : String → List ParserEntity → ParserEntity
  | constant : String → String → DefVal → ParserEntity
  | enumE : String → Bool → List MessageDefinitionField → ParserEntity
  | structE : String → Bool → List MessageDefinitionField → ParserEntity

/-- An enum recorded in the analyzer's `enums` map. -/
structure EnumDefn where
  name : String
  isEnumCls : Bool
  definitions : List MessageDefinitionField
  deriving DecidableEq

/-- The analyzer's shared mutable state: the seen qualified names, the
constants map and the enums map (src/parse.ts 156-159). -/
structure ParseState where
  entityNames : List String
  constants : List (String × (String × DefVal))
  enums : List (String × EnumDefn)

/-- `lookupEnum` (src/lookup.ts). -/
def lookupEnum (enums : List (String × EnumDefn)) (namespaces : List String)
    (typeName : String) : Option EnumDefn :=
  lookupO enums namespaces typeName

/-- The enum value-assignment loop (src/parse.ts 240-252): a member without
a value receives the running counter, which an explicit (numeric) value
resets to itself plus one. -/
def assignEnumValues : List MessageDefinitionField → Int →
    Except ParseErr (List MessageDefinitionField)
  | [], _ => .ok []
  | d :: rest, next =>
    match d.value with
    | none => do
      let r ← assignEnumValues rest (next + 1)
      .ok ({ d with value := some (.scalar (.dNum next)) } :: r)
    | some (.scalar (.dNum v)) => do
      let r ← assignEnumValues rest (v + 1)
      .ok (d :: r)
    | some _ => .error .invalidEnumValue

/-- `defaultValueTypeCheck` (src/parse.ts 341-360) on one scalar. -/
def defaultValueTypeCheck (typeName : String) (element : DefScalar) :
    Except ParseErr Unit :=
  match typeName with
  | "string" | "short_string" =>
    match element with
    | .dStr _ => .ok ()
    | _ => .error .invalidDefaultValue
  | "bool" =>
    match element with
    | .dBool _ => .ok ()
    | _ => .error .invalidDefaultValue
  | _ =>
    match element with
    | .dNum _ => .ok ()
    | _ => .error .invalidDefaultValue

/-- `defaultValueTypeCheck` on a full right-hand side: an array value has
`typeof` `"object"` and fails every branch. -/
def defaultValueTypeCheckV (typeName : String) (v : DefVal) : Except ParseErr Unit :=
  match v with
  | .scalar s => defaultValueTypeCheck typeName s
  | .arr _ => .error .invalidDefaultValue

/-- The enum-reference rewrite and namespace qualification of one struct
field (src/parse.ts 269-298): a field whose complex type resolves to an enum
becomes `uint32` with `isComplex` cleared, and a named default value is
replaced by the member's numeric value; an unqualified complex type is
prefixed with the namespace stack. -/
def rewriteStructField (enums : List (String × EnumDefn)) (namespaces : List String)
    (d : MessageDefinitionField) : Except ParseErr MessageDefinitionField :=
  if d.isComplex then
    match lookupEnum enums namespaces d.type with
    | some enumDefinition =>
      let d' := { d with type := "uint32", isComplex := false }
      match d.defaultValue with
      | none => .ok d'
      | some (.scalar (.dNum _)) => .ok d'
      | some dv =>
        match
          (match dv with
           | .scalar (.dStr s) =>
             enumDefinition.definitions.find? (fun (m : MessageDefinitionField) => m.name == s)
           | _ => none) with
        | some m => .ok { d' with defaultValue := m.value }
        | none => .error .unknownEnumValue
    | none =>
      if hasDoubleColon d.type.data then .ok d
      else .ok { d with type := String.intercalate "::" (namespaces ++ [d.type]) }
  else .ok d

/-- The default-value checks of one struct field (src/parse.ts 301-322). -/
def checkStructField (d : MessageDefinitionField) : Except ParseErr Unit :=
  match d.defaultValue with
  | none => .ok ()
  | some dv =>
    if d.isComplex then .error .complexDefault
    else if d.isArray then
      match dv with
      | .arr elements =>
        elements.foldlM (fun _ el => defaultValueTypeCheck d.type el) ()
      | .scalar _ => .error .invalidDefaultValue
    else
      match dv with
      | .scalar s => defaultValueTypeCheck d.type s
      | .arr _ => .error .invalidDefaultValue

/-- One step of `parseEntities` (src/parse.ts 187-339) on a single entity;
`prevList` processes the entities of a namespace one nesting level down
(the source's own guard bounds that nesting by one). -/
def mkParseEntity
    (prevList : List ParserEntity → List String → ParseState →
      Except ParseErr (List CbufMessageDefinition × ParseState))
    (entity : ParserEntity) (namespaces : List String) (st : ParseState) :
    Except ParseErr (List CbufMessageDefinition × ParseState) :=
  let entityName := String.intercalate "::"
    (namespaces ++ [match entity with
      | .ns n _ => n
      | .constant _ n _ => n
      | .enumE n _ _ => n
      | .structE n _ _ => n])
  match entity with
  | .ns _ defs =>
    -- the duplicate check skips namespaces (src/parse.ts 200)
    if namespaces.length > 0 then .error .nestedNamespace
    else
      prevList defs (namespaces ++
        [match entity with | .ns n _ => n | _ => ""]) st
  | .constant ty _ value =>
    if entityName ≠ "" ∧ st.entityNames.contains entityName then .error .duplicateEntity
    else
      let st1 := if entityName ≠ "" then
        { st with entityNames := st.entityNames ++ [entityName] } else st
      match defaultValueTypeCheckV ty value with
      | .error e => .error e
      | .ok _ =>
        .ok ([], { st1 with constants := mapSet st1.constants entityName (ty, value) })
  | .enumE _ isCls defs =>
    if entityName ≠ "" ∧ st.entityNames.contains entityName then .error .duplicateEntity
    else
      let st1 := if entityName ≠ "" then
        { st with entityNames := st.entityNames ++ [entityName] } else st
      -- `entity.definitions.slice()` shares the member objects, so the copy in
      -- the enums map sees the assigned values (src/parse.ts 234-252)
      match assignEnumValues defs 0 with
      | .error e => .error e
      | .ok assigned =>
        let ed : EnumDefn :=
          ⟨(match entity with | .enumE n _ _ => n | _ => ""), isCls, assigned⟩
        .ok ([{ name := entityName, namespaces := namespaces, definitions := assigned,
                hashValue := 0, isEnum := true, isEnumCls := isCls,
                isNakedStruct := false }],
            { st1 with enums := mapSet st1.enums entityName ed })
  | .structE _ naked defs =>
    if entityName ≠ "" ∧ st.entityNames.contains entityName then .error .duplicateEntity
    else
      let st1 := if entityName ≠ "" then
        { st with entityNames := st.entityNames ++ [entityName] } else st
      match defs.mapM (rewriteStructField st1.enums namespaces) with
      | .error e => .error e
      | .ok defs' =>
        match defs'.foldlM (fun _ d => checkStructField d) () with
        | .error e => .error e
        | .ok _ =>
          .ok ([{ name := entityName, namespaces := namespaces, definitions := defs',
                  hashValue := 0, isEnum := false, isEnumCls := false,
                  isNakedStruct := naked }], st1)

/-- The entity-list loop of `parseEntities`, threading the shared state. -/
def mkParseList
    (pe : ParserEntity → List String → ParseState →
      Except ParseErr (List CbufMessageDefinition × ParseState)) :
    List ParserEntity → List String → ParseState →
      Except ParseErr (List CbufMessageDefinition × ParseState)
  | [], _, st => .ok ([], st)
  | e :: rest, nss, st => do
    let (r1, st1) ← pe e nss st
    let (r2, st2) ← mkParseList pe rest nss st1
    .ok (r1 ++ r2, st2)

/-- `parseEntities` on one entity at a given namespace-nesting fuel (the
source's nested-namespace guard makes fuel 2 sufficient for every input). -/
def parseEntityF : Nat → ParserEntity → List String → ParseState →
    Except ParseErr (List CbufMessageDefinition × ParseState)
  | 0 => fun _ _ _ => .error .stackOverflow
  | f + 1 => mkParseEntity (mkParseList (parseEntityF f))

/-- `parseEntities` (src/parse.ts 187-339). -/
def parseEntitiesF (fuel : Nat) (entities : List ParserEntity) (namespaces : List String)
    (st : ParseState) : Except ParseErr (List CbufMessageDefinition × ParseState) :=
  mkParseList (parseEntityF fuel) entities namespaces st

/-- The post-analysis steps of `parse` (src/parse.ts 161-184): reject an
enum-only schema, then compute every struct's hash against the name map of
all parsed entities. -/
def parsePost (fuel : Nat) (parsed : List CbufMessageDefinition) :
    Except ParseErr (List CbufMessageDefinition) :=
  let map := parsed.foldl (fun m r => mapSet m r.name r) []
  if (parsed.filter (fun r => !r.isEnum)).length = 0 then .error .noStructs
  else
    parsed.mapM (fun r =>
      if r.isEnum then .ok r
      else
        match computeHashValueF map fuel r.namespaces r.name with
        | .error e => .error e
        | .ok h => .ok { r with hashValue := h })

/-- Modelled from the spec: the `short_string` sugar of §4.3/§4.5 — wherever
`short_string` is written the field is modeled as `type=string,
upperBound=16`.  The grammar (src/cbuf.ne 126) emits `type: "short_string"`
and the hash pass (src/parse.ts 398) still sees it (spelling `VString<15>`),
but the revision of parse.ts that rewrites the descriptor afterwards is not
part of the source snapshot — only its tests are — so the rewrite itself is
modelled from the spec as a pass after hash computation, which is the order
the repository's own test hashes pin down. -/
def shortStringRewriteField (d : MessageDefinitionField) : MessageDefinitionField :=
  if d.type = "short_string" then { d with type := "string", upperBound := some 16 }
  else d

/-- Modelled from the spec: the `short_string` rewrite applied to every
field of every parsed entity (see `shortStringRewriteField`). -/
def shortStringRewrite (defs : List CbufMessageDefinition) :
    List CbufMessageDefinition :=
  defs.map (fun r => { r with definitions := r.definitions.map shortStringRewriteField })

/-- `parse` (src/parse.ts 140-185) from the grammar's entity list: semantic
analysis, hash computation, and the (spec-modelled) `short_string`
rewrite. -/
def parseFromEntities (fuel : Nat) (entities : List ParserEntity) :
    Except ParseErr (List CbufMessageDefinition) :=
  if entities.length = 0 then .error .noEntities
  else
    match parseEntitiesF fuel entities [] ⟨[], [], []⟩ with
    | .error e => .error e
    | .ok (parsed, _) =>
      match parsePost fuel parsed with
      | .error e => .error e
      | .ok hashed => .ok (shortStringRewrite hashed)

/-! ## Preprocessor (src/parse.ts 50-55, 84-132)

The comment-stripping and import-splicing regexes are embedded as string
scans with the same semantics: line comments are removed from each `//` to
the end of its line first, then block comments `/* .. */` non-greedily;
an import directive is the literal `#import`, at least one whitespace
(newlines included, `\s+`), then a quoted path whose capture is greedy — up
to the last `"` on that line.  `String.prototype.replace` with a string
pattern replaces the first occurrence (the `$`-substitution patterns of the
replacement string are not modelled). -/

theorem hashStep_eq (h : Nat) (c : Char) :
    hashStep h c = ((h <<< 5) + h + charCodeAt0 c) % 2 ^ 64 := by
  simp only [hashStep, Nat.shiftLeft_eq, Nat.mod_add_mod]

theorem foldl_hashStep_eq (l : List Char) (h : Nat) :
    l.foldl hashStep h =
      l.foldl (fun h c => ((h <<< 5) + h + charCodeAt0 c) % 2 ^ 64) h := by
  induction l generalizing h with
  | nil => rfl
  | cons c rest ih => simp [List.foldl_cons, hashStep_eq, ih]

/-- The schema of the anchor test (`struct a { bool b; }`, global
namespace), as the grammar's entity list. -/
def anchorEntities : List ParserEntity :=
  [.structE "a" false [{ name := "b", type := "bool" }]]

/-- C3: the struct hash is the djb2-style recurrence `hash := 5381` then
`hash := ((hash << 5) + hash + code(c)) mod 2^64` over the canonical text's
characters, and parsing `struct a { bool b; }` in the global namespace
yields an entity whose hashValue is 3808120302725858088. -/
theorem c3_hash_recurrence_and_anchor :
    (∀ s : String,
      hashString s =
        s.data.foldl (fun h c => ((h <<< 5) + h + charCodeAt0 c) % 2 ^ 64) 5381) ∧
    parseFromEntities 2 anchorEntities =
      .ok [{ name := "a", namespaces := [], definitions := [{ name := "b", type := "bool" }],
             hashValue := 3808120302725858088, isEnum := false, isEnumCls := false,
             isNakedStruct := false }] := by
  exact ⟨fun s => foldl_hashStep_eq s.data 5381, rfl⟩

/-! ## Claim C7: the exact shape of the canonical field lines -/

/-- The line ending of a primitive field per the amended claim: the
semicolon, one space, then the newline. -/
def primLineEnd : String := ";" ++ " " ++ "\n"

/-- The line ending of a complex field per the amended claim: the semicolon
directly followed by the newline, with no space. -/
def complexLineEnd : String := ";" ++ "\n"

/-- The canonical-text builder written from the amended claim's words: the
header line `struct <name> \n`; then per field an optional `[<len or 0>] `
array mark, the element — the decimal string of the nested struct's
recursively computed hash for a complex field, the C spelling for a
primitive — one space, the field name, and the line ending (`primLineEnd`
for a primitive field, `complexLineEnd` for a complex one). -/
def mkSpecText (M : NameSchemaMap)
    (prevHash : List String → String → Except ParseErr Nat)
    (namespaces : List String) (typeName : String) : Except ParseErr String :=
  match lookupO M namespaces typeName with
  | none => .error .lookupFailed
  | some msgdef =>
    ((msgdef.definitions.mapM (fun (fld : MessageDefinitionField) => do
      let arrayMark := if fld.isArray then "[" ++ Nat.repr (fld.arrayLength.getD 0) ++ "] " else ""
      if fld.isComplex then do
        let h ← prevHash msgdef.namespaces fld.type
        pure (arrayMark ++ Nat.repr h ++ " " ++ fld.name ++ complexLineEnd)
      else do
        let sp ← elementTypeToStrC fld.type
        pure (arrayMark ++ sp ++ " " ++ fld.name ++ primLineEnd))).map
      (fun (lines : List String) => lines.foldr (fun a b => a ++ b) "")).map
      (fun body => "struct " ++ typeName ++ " \n" ++ body)

def specTextF (M : NameSchemaMap) : Nat → List String → String → Except ParseErr String
  | 0 => fun _ _ => .error .stackOverflow
  | f + 1 => mkSpecText M (fun nss tn => (specTextF M f nss tn).map hashString)

theorem mapM_foldr_eq_exStr {α : Type} (f : α → Except ParseErr String) (l : List α) :
    (l.mapM f).map (fun xs => xs.foldr (fun a b => a ++ b) "") = exStr f l := by
  induction l with
  | nil => rfl
  | cons a rest ih =>
    simp only [List.mapM_cons, exStr]
    cases f a with
    | error e => rfl
    | ok s =>
      rw [← ih]
      cases rest.mapM f with
      | error e => rfl
      | ok xs => rfl

theorem exStr_congr {α : Type} {f g : α → Except ParseErr String} (l : List α)
    (h : ∀ a ∈ l, f a = g a) : exStr f l = exStr g l := by
  induction l with
  | nil => rfl
  | cons a rest ih =>
    simp only [exStr, h a (List.mem_cons_self a rest),
      ih (fun x hx => h x (List.mem_cons_of_mem a hx))]

/-- The code's canonical text equals the amended claim's canonical text at
every fuel. -/
theorem computeHashTextF_eq_specTextF (M : NameSchemaMap) (fuel : Nat)
    (namespaces : List String) (typeName : String) :
    computeHashTextF M fuel namespaces typeName = specTextF M fuel namespaces typeName := by
  induction fuel generalizing namespaces typeName with
  | zero => rfl
  | succ f ih =>
    show mkHashText M (computeHashTextF M f) namespaces typeName =
      mkSpecText M (fun nss tn => (specTextF M f nss tn).map hashString) namespaces typeName
    unfold mkHashText mkSpecText
    cases lookupO M namespaces typeName with
    | none => rfl
    | some msgdef =>
      dsimp only
      rw [mapM_foldr_eq_exStr]
      refine congrArg _ (exStr_congr _ ?_)
      intro fld _
      by_cases hc : fld.isComplex
      · simp only [hc, if_true, ih]
        cases specTextF M f msgdef.namespaces fld.type with
        | error e => rfl
        | ok t => rfl
      · simp only [hc, if_false, Bool.false_eq_true]
        cases elementTypeToStrC fld.type with
        | error e => rfl
        | ok sp => rfl

/-- Scenario F: `struct Y { u32 z; }`. -/
def c7DefY : CbufMessageDefinition :=
  { name := "Y", namespaces := [], definitions := [{ name := "z", type := "uint32" }] }

/-- Scenario F: `struct X { Y y; }`. -/
def c7DefX : CbufMessageDefinition :=
  { name := "X", namespaces := [],
    definitions := [{ name := "y", type := "Y", isComplex := true }] }

def c7MapXY : NameSchemaMap := [("X", c7DefX), ("Y", c7DefY)]

/-- C7 counterexample: the canonical text of `struct X { Y y; }` — a single
complex field line — does not end with `"; \n"`: the code writes `";\n"`
with no space before the newline on complex field lines
(src/parse.ts 74). -/
theorem c7_counterexample :
    ¬ (∀ t, computeHashTextF c7MapXY 2 [] "X" = .ok t →
        ("; \n".data.isSuffixOf t.data) = true) := by
  intro h
  have hx := h ("struct X \n3993632972737304964 y;\n") rfl
  exact absurd hx (by decide)

/-- C7 (amended): in the canonical text hashed for a struct, every
primitive field line ends with `"; "` then the newline, while every complex
field line ends with `";"` directly followed by the newline; the element is
the decimal string of the nested struct's recursively computed 64-bit hash
for a complex field and the C spelling for a primitive one.  Stated as: the
code's canonical text equals the text built from these words
(`mkSpecText`), at every fuel; and concretely for scenario F the text of
`X` embeds the decimal hash of `Y`. -/
theorem c7_canonical_text_shape :
    (∀ (M : NameSchemaMap) (fuel : Nat) (nss : List String) (tn : String),
      computeHashTextF M fuel nss tn = specTextF M fuel nss tn) ∧
    computeHashTextF c7MapXY 2 [] "X" =
      .ok ("struct X \n" ++ Nat.repr (hashString "struct Y \nuint32_t z; \n") ++ " y;\n") := by
  exact ⟨computeHashTextF_eq_specTextF, rfl⟩

/-! ## Claim C8: enum value assignment and the enum rewrite -/

/-- The claim's assignment rule, written from its words: a member with an
explicit value keeps it; a member without one is assigned the previous
member's value plus one, the first member defaulting to 0. -/
def enumValuesSpec : Option Int → List (Option Int) → List Int
  | _, [] => []
  | prev, some v :: rest => v :: enumValuesSpec (some v) rest
  | none, none :: rest => 0 :: enumValuesSpec (some 0) rest
  | some p, none :: rest => (p + 1) :: enumValuesSpec (some (p + 1)) rest

/-- The explicit value of an enum member as written in the source text. -/
def explicitValOf (d : MessageDefinitionField) : Option Int :=
  match d.value with
  | some (.scalar (.dNum v)) => some v
  | _ => none

theorem assignEnumValues_spec (defs : List MessageDefinitionField) :
    ∀ (next : Int) (prev : Option Int) (r : List MessageDefinitionField),
      (prev = none → next = 0) → (∀ p, prev = some p → next = p + 1) →
      assignEnumValues defs next = .ok r →
      r.map (fun d => d.value) =
        (enumValuesSpec prev (defs.map explicitValOf)).map
          (fun v => some (.scalar (.dNum v))) := by
  induction defs with
  | nil =>
    intro next prev r _ _ h
    cases h
    cases prev <;> rfl
  | cons d rest ih =>
    intro next prev r hn hs h
    match hv : d.value with
    | none =>
      rw [assignEnumValues, hv] at h
      dsimp only at h
      cases hrec : assignEnumValues rest (next + 1) with
      | error e => rw [hrec] at h; cases h
      | ok r' =>
        rw [hrec] at h
        cases h
        have htail := ih (next + 1) (some next) r' (by intro hx; cases hx)
          (by intro p hp; cases hp; rfl) hrec
        cases prev with
        | none =>
          simp only [hn rfl] at htail ⊢
          simp [List.map_cons, explicitValOf, hv, enumValuesSpec, htail, hn rfl]
        | some p =>
          have hnp := hs p rfl
          subst hnp
          simp [List.map_cons, explicitValOf, hv, enumValuesSpec, htail]
    | some (.scalar (.dNum v)) =>
      rw [assignEnumValues, hv] at h
      dsimp only at h
      cases hrec : assignEnumValues rest (v + 1) with
      | error e => rw [hrec] at h; cases h
      | ok r' =>
        rw [hrec] at h
        cases h
        have htail := ih (v + 1) (some v) r' (by intro hx; cases hx)
          (by intro p hp; cases hp; rfl) hrec
        cases prev <;>
          simp [List.map_cons, explicitValOf, hv, enumValuesSpec, htail]
    | some (.scalar (.dBool b)) => rw [assignEnumValues, hv] at h; dsimp only at h; cases h
    | some (.scalar (.dStr s)) => rw [assignEnumValues, hv] at h; dsimp only at h; cases h
    | some (.arr l) => rw [assignEnumValues, hv] at h; dsimp only at h; cases h

theorem exBind_ok {ε α β : Type} {x : Except ε α} {f : α → Except ε β} {b : β}
    (h : (x >>= f) = .ok b) : ∃ a, x = .ok a ∧ f a = .ok b := by
  cases x with
  | error e => exact absurd h (by simp [Bind.bind, Except.bind])
  | ok a => exact ⟨a, rfl, h⟩

/-- The entity-list loop preserves the per-entity enum-hash-0 property. -/
theorem mkParseList_enum_hash
    (pe : ParserEntity → List String → ParseState →
      Except ParseErr (List CbufMessageDefinition × ParseState))
    (hpe : ∀ e nss st r st', pe e nss st = .ok (r, st') →
      ∀ d ∈ r, d.isEnum = true → d.hashValue = 0) :
    ∀ (es : List ParserEntity) (nss : List String) (st : ParseState)
      (r : List CbufMessageDefinition) (st' : ParseState),
      mkParseList pe es nss st = .ok (r, st') →
      ∀ d ∈ r, d.isEnum = true → d.hashValue = 0 := by
  intro es
  induction es with
  | nil =>
    intro nss st0 r0 st1 hh d hd
    cases hh
    cases hd
  | cons e0 rest ihes =>
    intro nss st0 r0 st1 hh d hd hE
    rw [mkParseList] at hh
    obtain ⟨⟨r1, stA⟩, h1, hh⟩ := exBind_ok hh
    obtain ⟨p2, h2, hh⟩ := exBind_ok hh
    obtain ⟨r2, stB⟩ := p2
    cases hh
    rcases List.mem_append.mp hd with h3 | h3
    · exact hpe e0 nss st0 r1 stA h1 d h3 hE
    · exact ihes nss stA r2 _ h2 d h3 hE

/-- Every enum entity `parseEntities` emits carries hash 0
(src/parse.ts 254-262: enums are built with `hashValue: BigInt(0)`). -/
theorem parseEntityF_enum_hash :
    ∀ (f : Nat) (e : ParserEntity) (nss : List String) (st : ParseState)
      (r : List CbufMessageDefinition) (st' : ParseState),
      parseEntityF f e nss st = .ok (r, st') →
      ∀ d ∈ r, d.isEnum = true → d.hashValue = 0 := by
  intro f
  induction f with
  | zero =>
    intro e nss st r st' h
    simp [parseEntityF] at h
  | succ f ih =>
    intro e nss st r st' h
    rw [parseEntityF] at h
    cases e with
    | ns n defs =>
      simp only [mkParseEntity] at h
      split at h
      · cases h
      · exact mkParseList_enum_hash (parseEntityF f) ih defs _ st r st' h
    | constant ty n v =>
      simp only [mkParseEntity] at h
      split at h
      · cases h
      · split at h
        · cases h
        · cases h
          intro d hd
          cases hd
    | enumE n cls defs =>
      simp only [mkParseEntity] at h
      split at h
      · cases h
      · split at h
        · cases h
        · cases h
          intro d hd hE
          cases hd with
          | head => rfl
          | tail _ h2 => cases h2
    | structE n naked defs =>
      simp only [mkParseEntity] at h
      split at h
      · cases h
      · split at h
        · cases h
        · split at h
          · cases h
          · cases h
            intro d hd hE
            cases hd with
            | head => cases hE
            | tail _ h2 => cases h2

theorem mapM_mem_ok {α ε : Type} (g : α → Except ε α) (P Q : α → Prop)
    (hg : ∀ a, P a → ∀ r, g a = .ok r → Q r) :
    ∀ (l out : List α), l.mapM g = .ok out → (∀ a ∈ l, P a) → ∀ d ∈ out, Q d := by
  intro l
  induction l with
  | nil =>
    intro out h _ d hd
    cases h
    cases hd
  | cons a rest ih =>
    intro out h hP d hd
    rw [List.mapM_cons] at h
    obtain ⟨b, h1, h⟩ := exBind_ok h
    obtain ⟨bs, h2, h⟩ := exBind_ok h
    cases h
    cases hd with
    | head => exact hg a (hP a (List.mem_cons_self a rest)) d h1
    | tail _ hd => exact ih bs h2 (fun x hx => hP x (List.mem_cons_of_mem a hx)) d hd

/-- Every enum entity in the output of the full parse pipeline carries
hash 0. -/
theorem parseFromEntities_enum_hash
    (fuel : Nat) (entities : List ParserEntity) (res : List CbufMessageDefinition)
    (h : parseFromEntities fuel entities = .ok res) :
    ∀ d ∈ res, d.isEnum = true → d.hashValue = 0 := by
  rw [parseFromEntities] at h
  split at h
  · cases h
  · cases hpe : parseEntitiesF fuel entities [] ⟨[], [], []⟩ with
    | error e => rw [hpe] at h; cases h
    | ok p =>
      obtain ⟨parsed, stf⟩ := p
      rw [hpe] at h
      dsimp only at h
      -- the analyzer's output has the property
      have hparsed : ∀ d ∈ parsed, d.isEnum = true → d.hashValue = 0 :=
        mkParseList_enum_hash (parseEntityF fuel) (parseEntityF_enum_hash fuel)
          entities [] ⟨[], [], []⟩ parsed stf hpe
      cases hpp : parsePost fuel parsed with
      | error e => rw [hpp] at h; cases h
      | ok hashed =>
        rw [hpp] at h
        dsimp only at h
        cases h
        -- the hash pass keeps enums unchanged
        simp only [parsePost] at hpp
        split at hpp
        · cases hpp
        · have hhashed : ∀ d ∈ hashed, d.isEnum = true → d.hashValue = 0 := by
            refine mapM_mem_ok _ (fun d => d.isEnum = true → d.hashValue = 0)
              (fun d => d.isEnum = true → d.hashValue = 0) ?_ parsed hashed hpp hparsed
            intro a hPa r hr
            by_cases hae : a.isEnum = true
            · rw [if_pos hae] at hr
              cases hr
              exact hPa
            · rw [if_neg hae] at hr
              split at hr
              · cases hr
              · cases hr
                intro hE
                exact absurd hE hae
          -- the short_string rewrite changes neither flag
          intro d hd hE
          rcases List.mem_map.mp hd with ⟨d0, hd0, rfl⟩
          exact hhashed d0 hd0 hE

/-- The scenario E source: `enum E { A, B = 10, C }` followed by
`struct s { E f = B; }`, as the grammar delivers it to `parseEntities`
(enum members arrive as constant uint32 pseudo-fields, the explicit value
attached; the `E`-typed field arrives `isComplex` with the member name as
its default). -/
def c8Ents : List ParserEntity :=
  [ .enumE "E" false
      [ { name := "A", type := "uint32", isConstant := true },
        { name := "B", type := "uint32", isConstant := true,
          value := some (.scalar (.dNum 10)) },
        { name := "C", type := "uint32", isConstant := true } ],
    .structE "s" false
      [ { name := "f", type := "E", isComplex := true,
          defaultValue := some (.scalar (.dStr "B")) } ] ]

/-- C8: (a) enum members without an explicit value get the previous
member's value plus one, starting at 0 (`assignEnumValues` agrees with the
recurrence `enumValuesSpec` on every member list it accepts); (b) for
`enum E { A, B = 10, C }` the member values are 0, 10, 11, and the field
`E f = B` of `struct s` is rewritten to type `uint32` with `isComplex`
cleared and default value 10, the enum entity keeping hash 0; (c) every
enum entity the pipeline outputs carries `hashValue = 0`. -/
theorem c8_enum_values_and_rewrite :
    (∀ (defs r : List MessageDefinitionField),
        assignEnumValues defs 0 = .ok r →
        r.map (fun d => d.value) =
          (enumValuesSpec none (defs.map explicitValOf)).map
            (fun v => some (.scalar (.dNum v)))) ∧
    parseFromEntities 3 c8Ents = .ok
      [ { name := "E", namespaces := [],
          definitions :=
            [ { name := "A", type := "uint32", isConstant := true,
                value := some (.scalar (.dNum 0)) },
              { name := "B", type := "uint32", isConstant := true,
                value := some (.scalar (.dNum 10)) },
              { name := "C", type := "uint32", isConstant := true,
                value := some (.scalar (.dNum 11)) } ],
          hashValue := 0, isEnum := true },
        { name := "s", namespaces := [],
          definitions :=
            [ { name := "f", type := "uint32", isComplex := false,
                defaultValue := some (.scalar (.dNum 10)) } ],
          hashValue := 17190512417040644810 } ] ∧
    (∀ (fuel : Nat) (entities : List ParserEntity)
        (res : List CbufMessageDefinition),
        parseFromEntities fuel entities = .ok res →
        ∀ d ∈ res, d.isEnum = true → d.hashValue = 0) := by
  refine ⟨?_, rfl, parseFromEntities_enum_hash⟩
  intro defs r h
  exact assignEnumValues_spec defs 0 none r (fun _ => rfl)
    (fun p hp => Option.noConfusion hp) h

/-- A schema with a single unbounded-string field, for the C10 anchor. -/
def c10Def : CbufMessageDefinition :=
  { name := "t", namespaces := [],
    definitions := [ { name := "s", type := "string" } ],
    hashValue := 99 }

/-- The schema maps built from `c10Def` alone. -/
def c10Maps : NameSchemaMap × HashSchemaMap := createSchemaMaps [c10Def]

/-- The three-character text `x`, NUL, `y`. -/
def c10Text : String := String.mk ['x', Char.ofNat 0, 'y']

/-- A message carrying `c10Text` in the unbounded string field. -/
def c10Msg : CbufMessageData :=
  { typeName := "t", timestamp := 0, message := [("s", .vStr c10Text)] }

/-- C10: (a) every string value `readBasicType` returns — bounded and
unbounded fields alike — is the decoded text cut before the first NUL
character (`str.split("\0").shift()` equals `takeWhile (· ≠ NUL)`), the
decoded text being the UTF-8 decoding of the `upperBound` bytes (bounded)
or of the `u32`-prefixed byte run (unbounded); (b) concretely, serializing
the text `"x\0y"` through an unbounded string field and deserializing the
result yields the string `"x"`, a strict prefix of the original. -/
theorem c10_deserialized_string_stops_at_null :
    (∀ (fld : MessageDefinitionField) (bytes : List Nat) (v : CbufValue)
        (rest : List Nat),
        fld.type = "string" →
        readBasicType fld bytes = .ok (v, rest) →
        ∃ cs : List Char,
          v = .vStr (String.mk (cs.takeWhile (fun c => c ≠ Char.ofNat 0))) ∧
          ((∃ ub, fld.upperBound = some ub ∧ cs = utf8Dec (bytes.take ub) ∧
              rest = bytes.drop ub) ∨
           (∃ len tl, fld.upperBound = none ∧ readLE 4 bytes = some (len, tl) ∧
              cs = utf8Dec (tl.take len) ∧ rest = tl.drop len))) ∧
    (∃ l, serializeMessage c10Maps.1 1 c10Msg = .ok l ∧
      deserializeMessage c10Maps.1 c10Maps.2 2 l =
        .ok ({ typeName := "t", size := 31, variant := 0, hashValue := 99,
               timestamp := 0, message := [("s", .vStr "x")] }, [])) ∧
    ("x" : String).data ≠ c10Text.data ∧
    (("x" : String).data.isPrefixOf c10Text.data) = true := by
  refine ⟨?_, ⟨_, rfl, rfl⟩, by decide, by decide⟩
  intro fld bytes v rest hty h
  rw [readBasicType.eq_def, hty] at h
  simp only [String.reduceEq] at h
  match hub : fld.upperBound with
  | some ub =>
    rw [hub] at h
    dsimp only at h
    split at h
    · cases h
      exact ⟨utf8Dec (bytes.take ub), by rw [splitNullHead_eq_takeWhile],
        .inl ⟨ub, rfl, rfl, rfl⟩⟩
    · cases h
  | none =>
    rw [hub] at h
    dsimp only at h
    match hle : readLE 4 bytes with
    | some (len, tl) =>
      rw [hle] at h
      dsimp only at h
      split at h
      · cases h
        exact ⟨utf8Dec (tl.take len), by rw [splitNullHead_eq_takeWhile],
          .inr ⟨len, tl, rfl, rfl, rfl, rfl⟩⟩
      · cases h
    | none => rw [hle] at h; cases h

/-- One code point never takes more UTF-16 units than UTF-8 bytes. -/
theorem utf16Units_le_utf8Char_length (c : Char) :
    utf16Units c ≤ (utf8Char c).length := by
  by_cases h1 : c.toNat < 128 <;> by_cases h2 : c.toNat < 2048 <;>
    by_cases h3 : c.toNat < 65536 <;>
      simp [utf16Units, utf8Char, h1, h2, h3] <;> omega

/-- The UTF-16 length never exceeds the UTF-8 byte length. -/
theorem utf16Len_le_utf8Str_length (s : String) :
    utf16Len s ≤ (utf8Str s).length := by
  unfold utf16Len utf8Str
  induction s.data with
  | nil => simp
  | cons c rest ih =>
    simp only [List.map_cons, List.sum_cons, List.flatten_cons, List.length_append]
    exact Nat.add_le_add (utf16Units_le_utf8Char_length c) ih

/-- On ASCII text the two lengths agree (list form). -/
theorem utf16Len_eq_of_ascii_list (l : List Char)
    (h : l.all (fun c => decide (c.toNat < 128)) = true) :
    (l.map utf16Units).sum = ((l.map utf8Char).flatten).length := by
  induction l with
  | nil => rfl
  | cons c rest ih =>
    simp only [List.all_cons, Bool.and_eq_true, decide_eq_true_eq] at h
    simp only [List.map_cons, List.sum_cons, List.flatten_cons, List.length_append]
    rw [ih h.2]
    have h1 : c.toNat < 128 := h.1
    have h3 : c.toNat < 65536 := by omega
    simp [utf16Units, utf8Char, h1, h3]

/-- On ASCII text the UTF-16 length equals the UTF-8 byte length. -/
theorem utf16Len_eq_of_ascii (s : String)
    (h : s.data.all (fun c => decide (c.toNat < 128)) = true) :
    utf16Len s = (utf8Str s).length :=
  utf16Len_eq_of_ascii_list s.data h

/-- An unbounded string field for the C5 statements. -/
def c5Fld : MessageDefinitionField := { name := "s", type := "string" }

/-- C5 counterexample: for the one-character string `"é"` (U+00E9, whose
UTF-8 encoding `0xC3 0xA9` is two bytes but whose JavaScript `length` is 1)
the serializer writes the u32 1 followed by the single truncated byte
`0xC3` — not the u32 2 followed by the complete encoding, as the spec
claims. -/
theorem c5_counterexample :
    serializeNonArrayField [] 1 [] c5Fld
        (some (.vStr (String.mk [Char.ofNat 233]))) = .ok [1, 0, 0, 0, 0xC3] ∧
    natLE 4 (utf8Str (String.mk [Char.ofNat 233])).length ++
        utf8Str (String.mk [Char.ofNat 233]) = [2, 0, 0, 0, 0xC3, 0xA9] ∧
    ([1, 0, 0, 0, 0xC3] : List Nat) ≠ [2, 0, 0, 0, 0xC3, 0xA9] :=
  ⟨rfl, rfl, by decide⟩

/-- C5 (amended): for an unbounded string field the serializer writes a u32
equal to the UTF-16 length (`value.length`) of the string, followed by the
UTF-8 encoding truncated to that many bytes, with no terminator; on ASCII
values the UTF-16 length equals the UTF-8 byte length and the truncation is
the identity, so the spec's sentence holds for ASCII strings. -/
theorem c5_unbounded_string_encoding :
    (∀ (M : NameSchemaMap) (fuel : Nat) (nss : List String)
        (fld : MessageDefinitionField) (s : String),
        fld.isComplex = false → fld.type = "string" → fld.upperBound = none →
        serializeNonArrayField M fuel nss fld (some (.vStr s)) =
          .ok (natLE 4 (utf16Len s) ++ (utf8Str s).take (utf16Len s))) ∧
    (∀ (s : String), s.data.all (fun c => decide (c.toNat < 128)) = true →
        natLE 4 (utf16Len s) ++ (utf8Str s).take (utf16Len s) =
        natLE 4 (utf8Str s).length ++ utf8Str s) := by
  constructor
  · intro M fuel nss fld s hC hty hub
    have htk : ((utf8Str s).take (utf16Len s)).length = utf16Len s := by
      rw [List.length_take]
      exact Nat.min_eq_left (utf16Len_le_utf8Str_length s)
    by_cases h0 : 0 < utf16Len s
    · simp only [serializeNonArrayField, mkSerScalar, hC, hty, hub, String.reduceEq,
        Bool.false_eq_true, if_false, strLenOf, if_pos h0, htk]
      simp
    · have hz : utf16Len s = 0 := Nat.eq_zero_of_not_pos h0
      simp only [serializeNonArrayField, mkSerScalar, hC, hty, hub, String.reduceEq,
        Bool.false_eq_true, if_false, strLenOf, if_neg h0, hz]
      simp
  · intro s h
    rw [utf16Len_eq_of_ascii s h, List.take_length]

/-- A schema text with a `short_string` field, as the grammar delivers it:
`namespace ns1 { struct a { float64 b; short_string c; } }` (the repository's
own parse test). -/
def c6Ents : List ParserEntity :=
  [.ns "ns1" [.structE "a" false
    [ { name := "b", type := "float64" },
      { name := "c", type := "short_string" } ]]]

/-- C6: (a) wherever `short_string` is written the rewrite makes the field
descriptor `type="string"` with `upperBound=16`; (b) concretely, parsing
`namespace ns1 { struct a { float64 b; short_string c; } }` yields that
descriptor (and the hash the repository's test pins down); (c) a
`string` field with `upperBound = 16` is always encoded as exactly 16
bytes: the UTF-8 bytes truncated to 16, null-padded at the tail. -/
theorem c6_short_string_sixteen_bytes :
    (∀ (f : MessageDefinitionField), f.type = "short_string" →
        shortStringRewriteField f =
          { f with type := "string", upperBound := some 16 }) ∧
    parseFromEntities 3 c6Ents = .ok
      [ { name := "ns1::a", namespaces := ["ns1"],
          definitions :=
            [ { name := "b", type := "float64" },
              { name := "c", type := "string", upperBound := some 16 } ],
          hashValue := 16459951902678586258 } ] ∧
    (∀ (M : NameSchemaMap) (fuel : Nat) (nss : List String)
        (fld : MessageDefinitionField) (s : String),
        fld.isComplex = false → fld.type = "string" →
        fld.upperBound = some 16 →
        serializeNonArrayField M fuel nss fld (some (.vStr s)) =
          .ok ((utf8Str s).take 16 ++
               List.replicate (16 - ((utf8Str s).take 16).length) 0) ∧
        ((utf8Str s).take 16 ++
         List.replicate (16 - ((utf8Str s).take 16).length) 0).length = 16) := by
  refine ⟨?_, rfl, ?_⟩
  · intro f hf
    unfold shortStringRewriteField
    rw [if_pos hf]
  · intro M fuel nss fld s hC hty hub
    have hlen : ((utf8Str s).take 16 ++
        List.replicate (16 - ((utf8Str s).take 16).length) 0).length = 16 := by
      have h16 : ((utf8Str s).take 16).length ≤ 16 := by
        rw [List.length_take]; omega
      simp only [List.length_append, List.length_replicate]
      omega
    refine ⟨?_, hlen⟩
    by_cases h0 : 0 < utf16Len s
    · simp only [serializeNonArrayField, mkSerScalar, hC, hty, hub, String.reduceEq,
        Bool.false_eq_true, if_false, if_pos h0]
      simp
    · have hz : utf16Len s = 0 := Nat.eq_zero_of_not_pos h0
      have hs : s.data = [] := by
        cases hd : s.data with
        | nil => rfl
        | cons c rest =>
          exfalso
          have h1 : 1 ≤ utf16Units c := by unfold utf16Units; split <;> omega
          unfold utf16Len at hz
          rw [hd] at hz
          simp only [List.map_cons, List.sum_cons] at hz
          omega
      have hu : utf8Str s = [] := by unfold utf8Str; rw [hs]; rfl
      simp only [serializeNonArrayField, mkSerScalar, hC, hty, hub, String.reduceEq,
        Bool.false_eq_true, if_false, if_neg h0, hu]
      simp

/-- Bind of a success, as a rewrite rule. -/
theorem exBind_ok_eq {ε α β : Type} (a : α) (f : α → Except ε β) :
    (Except.ok a >>= f : Except ε β) = f a := rfl

/-- The raw bytes of `serializeMessage` from the three walks' outputs. -/
theorem serializeMessageRaw_eq (M : NameSchemaMap) (fuel : Nat) (msg : CbufMessageData)
    (msgdef : CbufMessageDefinition) (size : Nat) (payload : List Nat)
    (h1 : findMsgdefByName M msg.typeName = .ok msgdef)
    (h2 : serializedMessageSize M fuel msg = .ok size)
    (h3 : serNakedF M fuel msgdef msg.message = .ok payload) :
    serializeMessageRaw M fuel msg =
      .ok (serializeHeaderBytes msgdef size msg.timestamp ++ payload) := by
  unfold serializeMessageRaw
  rw [h1, exBind_ok_eq]
  rw [h2, exBind_ok_eq]
  rw [h3, exBind_ok_eq]

/-- `serializeMessage` from its size and raw bytes when the raw bytes fit. -/
theorem serializeMessage_eq (M : NameSchemaMap) (fuel : Nat) (msg : CbufMessageData)
    (size : Nat) (raw : List Nat)
    (h2 : serializedMessageSize M fuel msg = .ok size)
    (hraw : serializeMessageRaw M fuel msg = .ok raw)
    (hle : raw.length ≤ size) :
    serializeMessage M fuel msg = .ok (raw ++ List.replicate (size - raw.length) 0) := by
  unfold serializeMessage
  rw [h2, exBind_ok_eq, hraw, exBind_ok_eq, if_pos hle]

/-- Dropping the four magic bytes of a header. -/
theorem drop4_natLE (a : Nat) (R : List Nat) : (natLE 4 a ++ R).drop 4 = R := rfl

/-- Indexing an empty array gives `undefined` at every slot. -/
theorem map_get_nil_range {α : Type} : ∀ (n : Nat),
    (List.range n).map (fun i => ([] : List α).get? i) = List.replicate n none := by
  intro n
  induction n with
  | zero => rfl
  | succ n ih =>
    rw [List.range_succ, List.map_append, ih, List.replicate_succ']
    have h : ([] : List α).get? n = none := by cases n <;> rfl
    simp [h]

/-- A per-element body writing one byte, iterated over `n` equal slots. -/
theorem exList_replicate {α : Type} (f : α → Except SerdeErr (List Nat)) (a : α) (b : Nat)
    (hf : f a = .ok [b]) : ∀ (n : Nat),
    exList f (List.replicate n a) = .ok (List.replicate n b) := by
  intro n
  induction n with
  | zero => rfl
  | succ n ih =>
    rw [List.replicate_succ, exList, hf]
    show (exList f (List.replicate n a) >>= fun r => Except.ok ([b] ++ r)) = _
    rw [ih]
    rfl

/-- A fixed `uint8` array long enough to push the message size to exactly
2^27 bytes (24 header bytes + 134217704 payload bytes). -/
def c4ArrFld : MessageDefinitionField :=
  { name := "a", type := "uint8", isArray := true, arrayLength := some 134217704 }

/-- The C4 schema: one struct holding the big fixed array. -/
def c4Def : CbufMessageDefinition :=
  { name := "big", namespaces := [], definitions := [c4ArrFld], hashValue := 77 }

/-- The schema maps built from `c4Def` alone. -/
def c4Maps : NameSchemaMap × HashSchemaMap := createSchemaMaps [c4Def]

/-- A message of the big-array struct that leaves the array unset (the
serializer then writes every slot as zero). -/
def c4Msg : CbufMessageData := { typeName := "big", timestamp := 0, message := [] }

/-- The size walk gives exactly 2^27 for the C4 message. -/
theorem c4SizeOk : serializedMessageSize c4Maps.1 1 c4Msg = .ok (2^27) := rfl

/-- The element slots of the unset fixed array: all `undefined`. -/
theorem c4Slots : elemSlots c4ArrFld [] = List.replicate 134217704 none := by
  unfold elemSlots
  dsimp only [c4ArrFld]
  exact map_get_nil_range 134217704

/-- The payload of the C4 message: 134217704 zero bytes. -/
theorem c4Payload : serNakedF c4Maps.1 1 c4Def [] = .ok (List.replicate 134217704 0) := by
  show mkSerNaked c4Maps.1 (serNakedF c4Maps.1 0) (sizeNakedF c4Maps.1 0) c4Def [] = _
  unfold mkSerNaked
  show exList _ [c4ArrFld] = _
  rw [exList]
  rw [if_pos (show c4ArrFld.isArray = true from rfl)]
  rw [show asArr (fieldValue [] c4ArrFld) = ([] : List CbufValue) from rfl]
  dsimp only
  rw [c4Slots]
  rw [exList_replicate (fun el => mkSerScalar c4Maps.1 (serNakedF c4Maps.1 0)
    (sizeNakedF c4Maps.1 0) c4Def.namespaces c4ArrFld el) none 0 rfl 134217704]
  show Except.ok (List.replicate 134217704 0 ++ []) = _
  rw [List.append_nil]

/-- The C4 buffer is exactly 2^27 bytes long. -/
theorem c4Hlen : (serializeHeaderBytes c4Def (2^27) 0 ++
    List.replicate 134217704 0).length = 2^27 := by
  rw [List.length_append, List.length_replicate,
      show (serializeHeaderBytes c4Def (2^27) 0).length = 24 from rfl]
  norm_num

/-- C4 counterexample: a message whose serialized size is exactly 2^27
serializes successfully, and the size word the serializer writes is the raw
size 2^27 — its bit 27 is set, so the claim that the serializer always
writes the word with bit 27 clear is false; worse, the deserializer then
decodes size 0 and variant 1 from it. -/
theorem c4_counterexample :
    serializeMessage c4Maps.1 1 c4Msg =
      .ok (serializeHeaderBytes c4Def (2^27) 0 ++ List.replicate 134217704 0) ∧
    (readLE 4 ((serializeHeaderBytes c4Def (2^27) 0 ++
        List.replicate 134217704 0).drop 4)).map (fun p => p.1) = some (2^27) ∧
    Nat.testBit (2^27) 27 = true ∧
    decodeSizeAndVariant (2^27) = (0, 1) := by
  refine ⟨?_, ?_, by decide, by decide⟩
  · have hraw := serializeMessageRaw_eq c4Maps.1 1 c4Msg c4Def (2^27)
      (List.replicate 134217704 0) rfl c4SizeOk c4Payload
    have hmain := serializeMessage_eq c4Maps.1 1 c4Msg (2^27)
      (serializeHeaderBytes c4Def (2^27) 0 ++ List.replicate 134217704 0)
      c4SizeOk (by rw [hraw]; rfl) (le_of_eq c4Hlen)
    rw [c4Hlen, Nat.sub_self, List.replicate_zero, List.append_nil] at hmain
    exact hmain
  · unfold serializeHeaderBytes
    simp only [List.append_assoc]
    rw [drop4_natLE, readLE_natLE]
    rfl

/-- C4 (amended): (a) the deserializer's word decode is as the spec says:
with bit 27 set the size is bits 0-26 and the variant bits 27-30, otherwise
the size is bits 0-30 and the variant 0; (b) the word `(9 <<< 27) ||| 42`
decodes to size 42, variant 9; (c) the serializer writes the size itself as
the word, so the word read back is `size % 2^32`, and whenever the size is
below 2^27 — the only sizes the well-formedness predicate admits — bit 27
is clear and the word decodes to the size with variant 0.  (The spec's
unconditional "always writes variant = 0" fails at sizes ≥ 2^27, see the
counterexample.) -/
theorem c4_size_and_variant_word :
    (∀ w : Nat, decodeSizeAndVariant w =
        (if w.testBit 27 then w % 2^27 else w % 2^31,
         if w.testBit 27 then (w / 2^27) % 16 else 0)) ∧
    decodeSizeAndVariant ((9 <<< 27) ||| 42) = (42, 9) ∧
    (∀ (M : NameSchemaMap) (fuel : Nat) (msg : CbufMessageData) (l : List Nat),
        serializeMessage M fuel msg = .ok l →
        ∃ size rest, serializedMessageSize M fuel msg = .ok size ∧
          readLE 4 (l.drop 4) = some (size % 2^32, rest) ∧
          (size < 2^27 →
            Nat.testBit (size % 2^32) 27 = false ∧
            decodeSizeAndVariant (size % 2^32) = (size, 0))) := by
  have ha : ∀ w : Nat, decodeSizeAndVariant w =
      (if w.testBit 27 then w % 2^27 else w % 2^31,
       if w.testBit 27 then (w / 2^27) % 16 else 0) := by
    intro w
    unfold decodeSizeAndVariant
    cases h : w.testBit 27 with
    | false =>
      have hand : w &&& 0x8000000 = 0 := by
        rw [show (0x8000000 : Nat) = 2^27 by norm_num, Nat.and_two_pow, h]
        rfl
      have h31 : w &&& 2147483647 = w % 2147483648 := by
        have h2 := Nat.and_pow_two_sub_one_eq_mod w 31
        norm_num at h2
        exact h2
      rw [hand]
      simp only [h]
      simp [h31]
    | true =>
      have hand : w &&& 0x8000000 = 0x8000000 := by
        rw [show (0x8000000 : Nat) = 2^27 by norm_num, Nat.and_two_pow, h]
        norm_num
      have h27 : w &&& 134217727 = w % 134217728 := by
        have h2 := Nat.and_pow_two_sub_one_eq_mod w 27
        norm_num at h2
        exact h2
      have hq : w >>> 27 &&& 15 = w / 134217728 % 16 := by
        have h2 := Nat.and_pow_two_sub_one_eq_mod (w >>> 27) 4
        norm_num at h2
        rw [h2, Nat.shiftRight_eq_div_pow]
      rw [hand]
      simp only [h, if_true]
      simp [h27, hq]
  refine ⟨ha, by decide, ?_⟩
  intro M fuel msg l h
  unfold serializeMessage at h
  obtain ⟨size, h1, h⟩ := exBind_ok h
  obtain ⟨raw, h2, h⟩ := exBind_ok h
  split at h
  · cases h
    unfold serializeMessageRaw at h2
    obtain ⟨msgdef, h3, h2⟩ := exBind_ok h2
    obtain ⟨size2, h4, h2⟩ := exBind_ok h2
    obtain ⟨payload, h5, h2⟩ := exBind_ok h2
    cases h2
    rw [h1] at h4
    cases h4
    refine ⟨size, natLE 8 msgdef.hashValue ++ (natLE 8 msg.timestamp ++
      (payload ++ List.replicate (size - (serializeHeaderBytes msgdef size
        msg.timestamp ++ payload).length) 0)), h1, ?_, ?_⟩
    · have hshape : (serializeHeaderBytes msgdef size msg.timestamp ++ payload) ++
          List.replicate (size - (serializeHeaderBytes msgdef size msg.timestamp ++
            payload).length) 0 =
          natLE 4 0x56444e54 ++ (natLE 4 size ++ (natLE 8 msgdef.hashValue ++
            (natLE 8 msg.timestamp ++ (payload ++ List.replicate (size -
              (serializeHeaderBytes msgdef size msg.timestamp ++
                payload).length) 0)))) := by
        simp [serializeHeaderBytes, List.append_assoc]
      rw [hshape, drop4_natLE]
      have hr := readLE_natLE 4 size (natLE 8 msgdef.hashValue ++ (natLE 8 msg.timestamp ++
        (payload ++ List.replicate (size - (serializeHeaderBytes msgdef size
          msg.timestamp ++ payload).length) 0)))
      rw [hr]
    · intro hlt
      have hm : size % 2^32 = size := Nat.mod_eq_of_lt (by omega)
      rw [hm]
      constructor
      · exact Nat.testBit_lt_two_pow hlt
      · rw [ha size]
        rw [Nat.testBit_lt_two_pow hlt]
        have h31 : size % 2147483648 = size := Nat.mod_eq_of_lt (by omega)
        simp [h31]
  · cases h


/-! ## The well-formed round trip

The central induction: a well-formed payload serializes, its emission length
is exactly the size walk's answer, and deserializing those bytes returns the
payload and the untouched remainder.  Built scalar-by-scalar, then over
fields and payload records, by induction on the shared nesting fuel. -/

theorem readLE_intLE (k : Nat) (i : Int) (rest : List Nat) :
    readLE k (intLE k i ++ rest) = some ((i.emod (2 ^ (8 * k))).toNat, rest) := by
  have hpos : (0:Int) < 2 ^ (8 * k) := by positivity
  have hlt := Int.emod_lt_of_pos i hpos
  have hnn := Int.emod_nonneg i (ne_of_gt hpos)
  have hm : (i.emod (2 ^ (8 * k))).toNat % 2 ^ (8 * k) = (i.emod (2 ^ (8 * k))).toNat := by
    apply Nat.mod_eq_of_lt
    zify
    show ((i % 2 ^ (8 * k)).toNat : Int) < 2 ^ (8 * k)
    rw [Int.toNat_of_nonneg hnn]
    exact hlt
  unfold intLE
  rw [readLE_natLE, hm]

theorem uToS_emod (w : Nat) (halfN : Nat) (hh : 2 ^ (w - 1) = halfN)
    (hfI : (2:Int) ^ w = 2 * halfN) (i : Int)
    (h1 : -(halfN:Int) ≤ i) (h2 : i < halfN) :
    uToS w ((i.emod (2 ^ w)).toNat) = i := by
  have h0 : (0:Int) ≤ i.emod (2 ^ w) := Int.emod_nonneg i (by positivity)
  have hltE : i.emod (2 ^ w) < 2 ^ w := Int.emod_lt_of_pos i (by positivity)
  have hchar : i.emod (2 ^ w) = i ∨ i.emod (2 ^ w) = i + 2 ^ w := by
    rcases le_or_lt 0 i with hge | hlt2
    · left
      exact Int.emod_eq_of_lt hge (by omega)
    · right
      have heq : i.emod (2 ^ w) = (i + 2 ^ w).emod (2 ^ w) := by
        show i % 2 ^ w = (i + 2 ^ w) % 2 ^ w
        conv_rhs => rw [show i + (2:Int) ^ w = i + 2 ^ w * 1 by ring]
        rw [Int.add_mul_emod_self_left]
      rw [heq]
      refine Int.emod_eq_of_lt (by omega) ?_
      have : (0:Int) < 2 ^ w := by positivity
      omega
  unfold uToS
  rcases hchar with hE | hE
  · have hge : (0:Int) ≤ i := hE ▸ h0
    rw [hE, hfI, hh]
    split <;> omega
  · have hge : i + 2 ^ w < 2 ^ w := hE ▸ hltE
    have hpI : (0:Int) < 2 ^ w := by positivity
    rw [hE, hfI, hh]
    rw [hfI] at hge hpI
    split <;> omega

theorem utf8Char_ascii (c : Char) (h : c.toNat < 128) : utf8Char c = [c.toNat] := by
  unfold utf8Char
  rw [if_pos h]

theorem utf8Str_ascii_list : ∀ (l : List Char), (∀ c ∈ l, c.toNat < 128) →
    (l.map utf8Char).flatten = l.map Char.toNat := by
  intro l
  induction l with
  | nil => intro _; rfl
  | cons c rest ih =>
    intro h
    simp only [List.map_cons, List.flatten_cons,
      utf8Char_ascii c (h c (List.mem_cons_self c rest))]
    rw [ih (fun x hx => h x (List.mem_cons_of_mem c hx))]
    rfl

theorem utf8Str_ascii_bytes (s : String) (h : ∀ c ∈ s.data, c.toNat < 128) :
    utf8Str s = s.data.map Char.toNat :=
  utf8Str_ascii_list s.data h

theorem utf8DecF_ascii : ∀ (l : List Nat) (f : Nat), (∀ b ∈ l, b < 128) → l.length ≤ f →
    utf8DecF f l = l.map Char.ofNat := by
  intro l
  induction l with
  | nil => intro f _ _; cases f <;> rfl
  | cons b rest ih =>
    intro f h hf
    match f with
    | f' + 1 =>
      rw [utf8DecF.eq_def]
      dsimp only
      rw [if_pos (h b (List.mem_cons_self b rest))]
      rw [ih f' (fun x hx => h x (List.mem_cons_of_mem b hx)) (by simpa using hf)]
      rfl

theorem utf8Dec_ascii (l : List Nat) (h : ∀ b ∈ l, b < 128) :
    utf8Dec l = l.map Char.ofNat :=
  utf8DecF_ascii l l.length h (le_refl _)

theorem map_toNat_ofNat (l : List Char) (h : ∀ c ∈ l, c.toNat < 128) :
    (l.map Char.toNat).map Char.ofNat = l := by
  induction l with
  | nil => rfl
  | cons c rest ih =>
    simp only [List.map_cons, Char.ofNat_toNat]
    rw [ih (fun x hx => h x (List.mem_cons_of_mem c hx))]

theorem exSum_of_ok {α : Type} (g : α → Except SerdeErr Nat) (glen : α → Nat) :
    ∀ (l : List α), (∀ a ∈ l, g a = .ok (glen a)) →
    exSum g l = .ok ((l.map glen).sum) := by
  intro l
  induction l with
  | nil => intro _; rfl
  | cons a rest ih =>
    intro h
    rw [exSum, h a (List.mem_cons_self a rest), exBind_ok_eq,
      ih (fun x hx => h x (List.mem_cons_of_mem a hx)), exBind_ok_eq]
    simp

theorem sum_map_add {α : Type} (f g : α → Nat) (l : List α) :
    (l.map (fun a => f a + g a)).sum = (l.map f).sum + (l.map g).sum := by
  induction l with
  | nil => rfl
  | cons a rest ih => simp only [List.map_cons, List.sum_cons, ih]; omega

theorem range_get_self {α : Type} (arr : List α) :
    (List.range arr.length).map (fun i => arr.get? i) = arr.map some := by
  induction arr with
  | nil => rfl
  | cons a rest ih =>
    show (List.range (rest.length + 1)).map _ = _
    rw [List.range_succ_eq_map]
    simp only [List.map_cons, List.map_map]
    rw [show ((fun i => (a :: rest).get? i) ∘ Nat.succ) = (fun i => rest.get? i) from rfl]
    rw [ih]
    rfl

theorem elems_roundtrip (ser : Option CbufValue → Except SerdeErr (List Nat))
    (rd : List Nat → Except SerdeErr (CbufValue × List Nat)) (glen : CbufValue → Nat) :
    ∀ (els : List CbufValue),
      (∀ el ∈ els, ∃ b, ser (some el) = .ok b ∧ b.length = glen el ∧
        ∀ rest, rd (b ++ rest) = .ok (el, rest)) →
      ∃ bs, exList ser (els.map some) = .ok bs ∧ bs.length = (els.map glen).sum ∧
        ∀ rest, readElems rd els.length (bs ++ rest) = .ok (els, rest) := by
  intro els
  induction els with
  | nil =>
    intro _
    exact ⟨[], rfl, rfl, fun rest => rfl⟩
  | cons el rest ih =>
    intro h
    obtain ⟨b, hser, hlen, hrd⟩ := h el (List.mem_cons_self el rest)
    obtain ⟨bs, hser2, hlen2, hrd2⟩ := ih (fun x hx => h x (List.mem_cons_of_mem el hx))
    refine ⟨b ++ bs, ?_, ?_, ?_⟩
    · rw [List.map_cons, exList, hser, exBind_ok_eq, hser2, exBind_ok_eq]
    · rw [List.length_append, hlen, hlen2]
      rfl
    · intro r
      show readElems rd (rest.length + 1) (b ++ bs ++ r) = _
      rw [readElems, List.append_assoc, hrd (bs ++ r), exBind_ok_eq]
      dsimp only
      rw [hrd2 r, exBind_ok_eq]

theorem take_app_length {α : Type} (l1 l2 : List α) : (l1 ++ l2).take l1.length = l1 := by
  induction l1 with
  | nil => rfl
  | cons a t ih => simp [ih]

theorem drop_app_length {α : Type} (l1 l2 : List α) : (l1 ++ l2).drop l1.length = l2 := by
  induction l1 with
  | nil => rfl
  | cons a t ih => simp [ih]

theorem take_app_of_length {α : Type} (l1 l2 : List α) (n : Nat) (h : l1.length = n) :
    (l1 ++ l2).take n = l1 := by
  subst h
  exact take_app_length l1 l2

theorem drop_app_of_length {α : Type} (l1 l2 : List α) (n : Nat) (h : l1.length = n) :
    (l1 ++ l2).drop n = l2 := by
  subst h
  exact drop_app_length l1 l2

theorem takeWhile_all {α : Type} (p : α → Bool) :
    ∀ (l : List α), (∀ a ∈ l, p a = true) → l.takeWhile p = l := by
  intro l
  induction l with
  | nil => intro _; rfl
  | cons a t ih =>
    intro h
    rw [List.takeWhile_cons, h a (List.mem_cons_self a t),
      ih (fun x hx => h x (List.mem_cons_of_mem a hx))]
    rfl

theorem takeWhile_append_all {α : Type} (p : α → Bool) :
    ∀ (l1 l2 : List α), (∀ a ∈ l1, p a = true) →
    (l1 ++ l2).takeWhile p = l1 ++ l2.takeWhile p := by
  intro l1 l2
  induction l1 with
  | nil => intro _; rfl
  | cons a t ih =>
    intro h
    rw [List.cons_append, List.takeWhile_cons, h a (List.mem_cons_self a t),
      ih (fun x hx => h x (List.mem_cons_of_mem a hx))]
    rfl

theorem takeWhile_replicate_false {α : Type} (p : α → Bool) (a : α) (hp : p a = false) :
    ∀ (d : Nat), (List.replicate d a).takeWhile p = [] := by
  intro d
  cases d with
  | zero => rfl
  | succ d =>
    rw [List.replicate_succ, List.takeWhile_cons, hp]
    rfl

theorem strMkData (s : String) : String.mk s.data = s := by
  cases s
  rfl

theorem mkSerScalar_string_unbounded (M : NameSchemaMap)
    (prevSer : CbufMessageDefinition → List (String × CbufValue) →
      Except SerdeErr (List Nat))
    (prevSize : CbufMessageDefinition → List (String × CbufValue) → Except SerdeErr Nat)
    (nss : List String) (fld : MessageDefinitionField) (s : String)
    (hC : fld.isComplex = false) (hty : fld.type = "string")
    (hub : fld.upperBound = none) :
    mkSerScalar M prevSer prevSize nss fld (some (.vStr s)) =
      .ok (natLE 4 (utf16Len s) ++ (utf8Str s).take (utf16Len s)) := by
  have htk : ((utf8Str s).take (utf16Len s)).length = utf16Len s := by
    rw [List.length_take]
    exact Nat.min_eq_left (utf16Len_le_utf8Str_length s)
  by_cases h0 : 0 < utf16Len s
  · simp only [mkSerScalar, hC, hty, hub, String.reduceEq,
      Bool.false_eq_true, if_false, strLenOf, if_pos h0, htk]
    simp
  · have hz : utf16Len s = 0 := Nat.eq_zero_of_not_pos h0
    simp only [mkSerScalar, hC, hty, hub, String.reduceEq,
      Bool.false_eq_true, if_false, strLenOf, if_neg h0, hz]
    simp

theorem mkSerScalar_string_bounded (M : NameSchemaMap)
    (prevSer : CbufMessageDefinition → List (String × CbufValue) →
      Except SerdeErr (List Nat))
    (prevSize : CbufMessageDefinition → List (String × CbufValue) → Except SerdeErr Nat)
    (nss : List String) (fld : MessageDefinitionField) (s : String) (ub : Nat)
    (hC : fld.isComplex = false) (hty : fld.type = "string")
    (hub : fld.upperBound = some ub) :
    mkSerScalar M prevSer prevSize nss fld (some (.vStr s)) =
      .ok ((utf8Str s).take ub ++
           List.replicate (ub - ((utf8Str s).take ub).length) 0) := by
  by_cases h0 : 0 < utf16Len s
  · simp only [mkSerScalar, hC, hty, hub, String.reduceEq,
      Bool.false_eq_true, if_false, if_pos h0]
    simp
  · have hz : utf16Len s = 0 := Nat.eq_zero_of_not_pos h0
    have hs : s.data = [] := by
      cases hd : s.data with
      | nil => rfl
      | cons c rest =>
        exfalso
        have h1 : 1 ≤ utf16Units c := by unfold utf16Units; split <;> omega
        unfold utf16Len at hz
        rw [hd] at hz
        simp only [List.map_cons, List.sum_cons] at hz
        omega
    have hu : utf8Str s = [] := by unfold utf8Str; rw [hs]; rfl
    simp only [mkSerScalar, hC, hty, hub, String.reduceEq,
      Bool.false_eq_true, if_false, if_neg h0, hu]
    simp

theorem intLE_read_unsigned (k : Nat) (i : Int) (rest : List Nat)
    (h0 : 0 ≤ i) (h1 : i < 2 ^ (8 * k)) :
    readLE k (intLE k i ++ rest) = some (i.toNat, rest) := by
  rw [readLE_intLE]
  show some ((i % 2 ^ (8 * k)).toNat, rest) = _
  rw [Int.emod_eq_of_lt h0 h1]

theorem decode_small (w : Nat) (h : w < 2 ^ 27) : decodeSizeAndVariant w = (w, 0) := by
  unfold decodeSizeAndVariant
  have hand : w &&& 0x8000000 = 0 := by
    rw [show (0x8000000 : Nat) = 2 ^ 27 by norm_num, Nat.and_two_pow,
      Nat.testBit_lt_two_pow h]
    rfl
  have h31 : w &&& 2147483647 = w := by
    have h2 := Nat.and_pow_two_sub_one_eq_mod w 31
    norm_num at h2
    rw [h2]
    apply Nat.mod_eq_of_lt
    omega
  rw [hand]
  simp [h31]

def primSize (fld : MessageDefinitionField) (v : CbufValue) : Nat :=
  match fld.type with
  | "bool" | "uint8" | "int8" => 1
  | "uint16" | "int16" => 2
  | "uint32" | "int32" | "float32" => 4
  | "uint64" | "int64" | "float64" => 8
  | "string" =>
    match fld.upperBound with
    | none => 4 + strLenOf (some v)
    | some ub => ub
  | _ => 0

theorem scalar_roundtrip
    (M : NameSchemaMap) (H : HashSchemaMap)
    (prevWf : CbufMessageDefinition → List (String × CbufValue) → Bool)
    (prevSize : CbufMessageDefinition → List (String × CbufValue) → Except SerdeErr Nat)
    (prevSer : CbufMessageDefinition → List (String × CbufValue) →
      Except SerdeErr (List Nat))
    (prevDeser : CbufMessageDefinition → List Nat →
      Except SerdeErr (List (String × CbufValue) × List Nat))
    (IH : ∀ nested obj, prevWf nested obj = true →
        ∃ l, prevSer nested obj = .ok l ∧ prevSize nested obj = .ok l.length ∧
          ∀ rest, prevDeser nested (l ++ rest) = .ok (obj, rest))
    (nss : List String) (fld : MessageDefinitionField) (inArray : Bool) (v : CbufValue)
    (hwf : mkWfScalar M H prevWf prevSize nss fld inArray v = true) :
    ∃ bs, mkSerScalar M prevSer prevSize nss fld (some v) = .ok bs ∧
      (∀ rest, mkDeserScalar M H prevDeser nss fld (bs ++ rest) = .ok (v, rest)) ∧
      (if fld.isComplex then
        ∃ nested o n, lookupMsgdef M nss fld.type = .ok nested ∧ v = .vObj o ∧
          prevSize nested o = .ok n ∧
          bs.length = (if nested.isNakedStruct then n else 24 + n)
       else bs.length = primSize fld v) := by
  unfold mkWfScalar at hwf
  by_cases hC : fld.isComplex = true
  · rw [if_pos hC] at hwf
    cases hlk : lookupMsgdef M nss fld.type with
    | error e =>
      rw [hlk] at hwf
      exfalso
      cases v <;> simp at hwf
    | ok nested =>
      rw [hlk] at hwf
      match v, hwf with
      | .vObj o, hwf =>
        dsimp only at hwf
        rw [Bool.and_eq_true] at hwf
        obtain ⟨hprev, hrest⟩ := hwf
        obtain ⟨l, hser, hsize, hdes⟩ := IH nested o hprev
        by_cases hnk : nested.isNakedStruct = true
        · refine ⟨l, ?_, ?_, ?_⟩
          · unfold mkSerScalar
            rw [if_pos hC, hlk, exBind_ok_eq]
            rw [show asObjSer (some (.vObj o)) = Except.ok o from rfl, exBind_ok_eq]
            rw [if_pos hnk]
            exact hser
          · intro rest
            unfold mkDeserScalar
            rw [if_pos hC, hlk, exBind_ok_eq]
            rw [if_pos hnk]
            rw [hdes rest, exBind_ok_eq]
          · rw [if_pos hC]
            exact ⟨nested, o, l.length, rfl, rfl, hsize, by rw [if_pos hnk]⟩
        · rw [if_neg hnk] at hrest
          simp only [Bool.and_eq_true] at hrest
          obtain ⟨⟨⟨⟨hIA, h64⟩, hmd⟩, hmap⟩, hszchk⟩ := hrest
          rw [decide_eq_true_eq] at h64 hmd hmap
          rw [hsize] at hszchk
          dsimp only at hszchk
          rw [decide_eq_true_eq] at hszchk
          refine ⟨natLE 4 0x56444e54 ++ natLE 4 (HEADER_SIZE + l.length) ++
            natLE 8 nested.hashValue ++ natLE 8 0 ++ l, ?_, ?_, ?_⟩
          · unfold mkSerScalar
            rw [if_pos hC, hlk, exBind_ok_eq]
            rw [show asObjSer (some (.vObj o)) = Except.ok o from rfl, exBind_ok_eq]
            rw [if_neg hnk]
            rw [hsize, exBind_ok_eq, hser, exBind_ok_eq]
          · intro rest
            unfold mkDeserScalar
            rw [if_pos hC, hlk, exBind_ok_eq]
            rw [if_neg hnk]
            have hstep : mkDeserMessage M H prevDeser
                ((natLE 4 0x56444e54 ++ natLE 4 (HEADER_SIZE + l.length) ++
                  natLE 8 nested.hashValue ++ natLE 8 0 ++ l) ++ rest) =
                .ok (⟨nested.name, HEADER_SIZE + l.length, 0, nested.hashValue, 0, o⟩,
                  rest) := by
              have hassoc : (natLE 4 0x56444e54 ++ natLE 4 (HEADER_SIZE + l.length) ++
                  natLE 8 nested.hashValue ++ natLE 8 0 ++ l) ++ rest =
                  natLE 4 0x56444e54 ++ (natLE 4 (HEADER_SIZE + l.length) ++
                    (natLE 8 nested.hashValue ++ (natLE 8 0 ++ (l ++ rest)))) := by
                simp [List.append_assoc]
              rw [hassoc]
              have hlenb : (natLE 4 0x56444e54 ++ (natLE 4 (HEADER_SIZE + l.length) ++
                  (natLE 8 nested.hashValue ++ (natLE 8 0 ++ (l ++ rest))))).length =
                  24 + (l.length + rest.length) := by
                simp only [List.length_append, natLE_length]
                omega
              unfold mkDeserMessage
              rw [if_neg (by rw [hlenb]; omega)]
              rw [if_neg (by rw [hlenb]; omega)]
              rw [readLE_natLE]
              dsimp only
              rw [show 0x56444e54 % 2 ^ (8 * 4) = 0x56444e54 from by norm_num]
              rw [if_neg (by norm_num)]
              rw [readLE_natLE]
              dsimp only
              have hW : (HEADER_SIZE + l.length) % 2 ^ (8 * 4) = HEADER_SIZE + l.length := by
                apply Nat.mod_eq_of_lt
                calc HEADER_SIZE + l.length < 2 ^ 27 := hszchk
                  _ ≤ 2 ^ (8 * 4) := by norm_num
              rw [hW, decode_small (HEADER_SIZE + l.length) hszchk]
              dsimp only
              rw [if_neg (by rw [hlenb]; simp only [HEADER_SIZE]; omega)]
              rw [readLE_natLE]
              dsimp only
              rw [show nested.hashValue % 2 ^ (8 * 8) = nested.hashValue from by
                apply Nat.mod_eq_of_lt
                calc nested.hashValue < 2 ^ 64 := h64
                  _ ≤ 2 ^ (8 * 8) := by norm_num]
              rw [readLE_natLE]
              dsimp only
              rw [show (0:Nat) % 2 ^ (8 * 8) = 0 from by norm_num]
              by_cases hmdc : nested.hashValue = METADATA_DEFINITION.hashValue
              · rw [if_pos hmdc]
                dsimp only
                rw [← hmd hmdc]
                rw [hdes rest]
                dsimp only
                rw [if_neg (by rw [hlenb]; simp only [HEADER_SIZE]; omega)]
              · rw [if_neg hmdc, hmap]
                dsimp only
                rw [hdes rest]
                dsimp only
                rw [if_neg (by rw [hlenb]; simp only [HEADER_SIZE]; omega)]
            rw [hstep, exBind_ok_eq]
          · rw [if_pos hC]
            refine ⟨nested, o, l.length, rfl, rfl, hsize, ?_⟩
            rw [if_neg hnk]
            simp only [List.length_append, natLE_length, HEADER_SIZE]
  · rw [if_neg hC] at hwf
    rw [Bool.not_eq_true] at hC
    split at hwf
    case _ hty =>  -- bool
      match v, hwf with
      | .vBool b, _ =>
        refine ⟨intLE 1 (getNumberInt (some (.vBool b))), ?_, ?_, ?_⟩
        · unfold mkSerScalar
          rw [hC]
          simp only [Bool.false_eq_true, if_false, hty, String.reduceEq]
        · intro rest
          unfold mkDeserScalar
          rw [hC]
          simp only [Bool.false_eq_true, if_false]
          rw [readBasicType.eq_def, hty]
          simp only [String.reduceEq]
          cases b <;> rfl
        · rw [hC]
          simp only [Bool.false_eq_true, if_false, primSize, hty]
          cases b <;> rfl
    case _ hty =>  -- uint8
      match v, hwf with
      | .vInt i, hwf =>
        rw [decide_eq_true_eq] at hwf
        refine ⟨intLE 1 i, ?_, ?_, ?_⟩
        · unfold mkSerScalar
          rw [hC]
          simp only [Bool.false_eq_true, if_false, hty, String.reduceEq]
          rfl
        · intro rest
          unfold mkDeserScalar
          rw [hC]
          simp only [Bool.false_eq_true, if_false]
          rw [readBasicType.eq_def, hty]
          simp only [String.reduceEq]
          rw [intLE_read_unsigned 1 i rest hwf.1 (by norm_num; omega)]
          dsimp only
          rw [Int.toNat_of_nonneg hwf.1]
        · rw [hC]
          simp only [Bool.false_eq_true, if_false, primSize, hty]
          unfold intLE
          rw [natLE_length]
    case _ hty =>  -- int8
      match v, hwf with
      | .vInt i, hwf =>
        rw [decide_eq_true_eq] at hwf
        refine ⟨intLE 1 i, ?_, ?_, ?_⟩
        · unfold mkSerScalar
          rw [hC]
          simp only [Bool.false_eq_true, if_false, hty, String.reduceEq]
          rfl
        · intro rest
          unfold mkDeserScalar
          rw [hC]
          simp only [Bool.false_eq_true, if_false]
          rw [readBasicType.eq_def, hty]
          simp only [String.reduceEq]
          rw [readLE_intLE 1 i rest]
          dsimp only
          rw [show (2:Int) ^ (8 * 1) = 2 ^ 8 from by norm_num]
          rw [uToS_emod 8 128 (by norm_num) (by norm_num) i (by omega) (by omega)]
        · rw [hC]
          simp only [Bool.false_eq_true, if_false, primSize, hty]
          unfold intLE
          rw [natLE_length]
    case _ hty =>  -- uint16
      match v, hwf with
      | .vInt i, hwf =>
        rw [decide_eq_true_eq] at hwf
        refine ⟨intLE 2 i, ?_, ?_, ?_⟩
        · unfold mkSerScalar
          rw [hC]
          simp only [Bool.false_eq_true, if_false, hty, String.reduceEq]
          rfl
        · intro rest
          unfold mkDeserScalar
          rw [hC]
          simp only [Bool.false_eq_true, if_false]
          rw [readBasicType.eq_def, hty]
          simp only [String.reduceEq]
          rw [intLE_read_unsigned 2 i rest hwf.1 (by norm_num; omega)]
          dsimp only
          rw [Int.toNat_of_nonneg hwf.1]
        · rw [hC]
          simp only [Bool.false_eq_true, if_false, primSize, hty]
          unfold intLE
          rw [natLE_length]
    case _ hty =>  -- int16
      match v, hwf with
      | .vInt i, hwf =>
        rw [decide_eq_true_eq] at hwf
        refine ⟨intLE 2 i, ?_, ?_, ?_⟩
        · unfold mkSerScalar
          rw [hC]
          simp only [Bool.false_eq_true, if_false, hty, String.reduceEq]
          rfl
        · intro rest
          unfold mkDeserScalar
          rw [hC]
          simp only [Bool.false_eq_true, if_false]
          rw [readBasicType.eq_def, hty]
          simp only [String.reduceEq]
          rw [readLE_intLE 2 i rest]
          dsimp only
          rw [show (2:Int) ^ (8 * 2) = 2 ^ 16 from by norm_num]
          rw [uToS_emod 16 32768 (by norm_num) (by norm_num) i (by omega) (by omega)]
        · rw [hC]
          simp only [Bool.false_eq_true, if_false, primSize, hty]
          unfold intLE
          rw [natLE_length]
    case _ hty =>  -- uint32
      match v, hwf with
      | .vInt i, hwf =>
        rw [decide_eq_true_eq] at hwf
        refine ⟨intLE 4 i, ?_, ?_, ?_⟩
        · unfold mkSerScalar
          rw [hC]
          simp only [Bool.false_eq_true, if_false, hty, String.reduceEq]
          rfl
        · intro rest
          unfold mkDeserScalar
          rw [hC]
          simp only [Bool.false_eq_true, if_false]
          rw [readBasicType.eq_def, hty]
          simp only [String.reduceEq]
          rw [intLE_read_unsigned 4 i rest hwf.1 (by norm_num; omega)]
          dsimp only
          rw [Int.toNat_of_nonneg hwf.1]
        · rw [hC]
          simp only [Bool.false_eq_true, if_false, primSize, hty]
          unfold intLE
          rw [natLE_length]
    case _ hty =>  -- int32
      match v, hwf with
      | .vInt i, hwf =>
        rw [decide_eq_true_eq] at hwf
        refine ⟨intLE 4 i, ?_, ?_, ?_⟩
        · unfold mkSerScalar
          rw [hC]
          simp only [Bool.false_eq_true, if_false, hty, String.reduceEq]
          rfl
        · intro rest
          unfold mkDeserScalar
          rw [hC]
          simp only [Bool.false_eq_true, if_false]
          rw [readBasicType.eq_def, hty]
          simp only [String.reduceEq]
          rw [readLE_intLE 4 i rest]
          dsimp only
          rw [show (2:Int) ^ (8 * 4) = 2 ^ 32 from by norm_num]
          rw [uToS_emod 32 2147483648 (by norm_num) (by norm_num) i (by omega) (by omega)]
        · rw [hC]
          simp only [Bool.false_eq_true, if_false, primSize, hty]
          unfold intLE
          rw [natLE_length]
    case _ hty =>  -- uint64
      match v, hwf with
      | .vBig i, hwf =>
        rw [decide_eq_true_eq] at hwf
        refine ⟨intLE 8 i, ?_, ?_, ?_⟩
        · unfold mkSerScalar
          rw [hC]
          simp only [Bool.false_eq_true, if_false, hty, String.reduceEq]
          rfl
        · intro rest
          unfold mkDeserScalar
          rw [hC]
          simp only [Bool.false_eq_true, if_false]
          rw [readBasicType.eq_def, hty]
          simp only [String.reduceEq]
          rw [intLE_read_unsigned 8 i rest hwf.1 (by norm_num; omega)]
          dsimp only
          rw [Int.toNat_of_nonneg hwf.1]
        · rw [hC]
          simp only [Bool.false_eq_true, if_false, primSize, hty]
          unfold intLE
          rw [natLE_length]
    case _ hty =>  -- int64
      match v, hwf with
      | .vBig i, hwf =>
        rw [decide_eq_true_eq] at hwf
        refine ⟨intLE 8 i, ?_, ?_, ?_⟩
        · unfold mkSerScalar
          rw [hC]
          simp only [Bool.false_eq_true, if_false, hty, String.reduceEq]
          rfl
        · intro rest
          unfold mkDeserScalar
          rw [hC]
          simp only [Bool.false_eq_true, if_false]
          rw [readBasicType.eq_def, hty]
          simp only [String.reduceEq]
          rw [readLE_intLE 8 i rest]
          dsimp only
          rw [show (2:Int) ^ (8 * 8) = 2 ^ 64 from by norm_num]
          rw [uToS_emod 64 9223372036854775808 (by norm_num) (by norm_num) i (by omega) (by omega)]
        · rw [hC]
          simp only [Bool.false_eq_true, if_false, primSize, hty]
          unfold intLE
          rw [natLE_length]
    case _ hty =>  -- float32
      match v, hwf with
      | .vFlt b, hwf =>
        simp only [Bool.and_eq_true, decide_eq_true_eq] at hwf
        refine ⟨natLE 4 (f64BitsToF32bits b), ?_, ?_, ?_⟩
        · unfold mkSerScalar
          rw [hC]
          simp only [Bool.false_eq_true, if_false, hty, String.reduceEq]
          rfl
        · intro rest
          unfold mkDeserScalar
          rw [hC]
          simp only [Bool.false_eq_true, if_false]
          rw [readBasicType.eq_def, hty]
          simp only [String.reduceEq]
          rw [readLE_natLE 4 (f64BitsToF32bits b) rest]
          dsimp only
          rw [show (2:Nat) ^ (8 * 4) = 2 ^ 32 from by norm_num]
          rw [Nat.mod_eq_of_lt hwf.1.2, hwf.2]
        · rw [hC]
          simp only [Bool.false_eq_true, if_false, primSize, hty]
          rw [natLE_length]
    case _ hty =>  -- float64
      match v, hwf with
      | .vFlt b, hwf =>
        rw [decide_eq_true_eq] at hwf
        refine ⟨natLE 8 b, ?_, ?_, ?_⟩
        · unfold mkSerScalar
          rw [hC]
          simp only [Bool.false_eq_true, if_false, hty, String.reduceEq]
          rfl
        · intro rest
          unfold mkDeserScalar
          rw [hC]
          simp only [Bool.false_eq_true, if_false]
          rw [readBasicType.eq_def, hty]
          simp only [String.reduceEq]
          rw [readLE_natLE 8 b rest]
          dsimp only
          rw [show (2:Nat) ^ (8 * 8) = 2 ^ 64 from by norm_num]
          rw [Nat.mod_eq_of_lt hwf]
        · rw [hC]
          simp only [Bool.false_eq_true, if_false, primSize, hty]
          rw [natLE_length]
    case _ hty =>  -- string
      match v, hwf with
      | .vStr s, hwf =>
        rw [Bool.and_eq_true] at hwf
        obtain ⟨hascii, hub2⟩ := hwf
        have hchars : ∀ c ∈ s.data, 0 < c.toNat ∧ c.toNat < 128 := by
          intro c hc
          have h2 := List.all_eq_true.mp hascii c hc
          exact decide_eq_true_eq.mp h2
        have hlt128 : ∀ c ∈ s.data, c.toNat < 128 := fun c hc => (hchars c hc).2
        have hbytes : utf8Str s = s.data.map Char.toNat := utf8Str_ascii_bytes s hlt128
        have hlen16 : utf16Len s = s.data.length := by
          rw [utf16Len_eq_of_ascii s
            (List.all_eq_true.mpr (fun c hc => decide_eq_true (hlt128 c hc))),
            hbytes, List.length_map]
        have hbnd : ∀ b ∈ s.data.map Char.toNat, b < 128 := by
          intro b hb
          obtain ⟨c, hc, rfl⟩ := List.mem_map.mp hb
          exact hlt128 c hc
        have hdec : utf8Dec (s.data.map Char.toNat) = s.data := by
          rw [utf8Dec_ascii _ hbnd, map_toNat_ofNat s.data hlt128]
        have hnz : ∀ c ∈ s.data, (fun c => decide (c ≠ Char.ofNat 0)) c = true := by
          intro c hc
          rw [decide_eq_true_eq]
          intro hEq
          have h0 := (hchars c hc).1
          rw [hEq] at h0
          exact absurd h0 (by decide)
        match hub : fld.upperBound with
        | none =>
          rw [hub] at hub2
          dsimp only at hub2
          rw [decide_eq_true_eq] at hub2
          refine ⟨natLE 4 s.data.length ++ s.data.map Char.toNat, ?_, ?_, ?_⟩
          · rw [mkSerScalar_string_unbounded M prevSer prevSize nss fld s hC hty hub,
              hbytes, hlen16,
              List.take_of_length_le (le_of_eq (List.length_map s.data Char.toNat))]
          · intro rest
            unfold mkDeserScalar
            rw [hC]
            simp only [Bool.false_eq_true, if_false]
            rw [readBasicType.eq_def, hty]
            simp only [String.reduceEq]
            rw [hub]
            dsimp only
            rw [List.append_assoc, readLE_natLE]
            dsimp only
            have hmod : s.data.length % 2 ^ (8 * 4) = s.data.length := by
              apply Nat.mod_eq_of_lt
              rw [← hlen16]
              calc utf16Len s < 2 ^ 32 := hub2
                _ ≤ 2 ^ (8 * 4) := by norm_num
            rw [hmod]
            rw [if_pos (by rw [List.length_append, List.length_map]; omega)]
            rw [show s.data.length = (s.data.map Char.toNat).length from
              (List.length_map s.data Char.toNat).symm]
            rw [take_app_length, drop_app_length, hdec,
              splitNullHead_eq_takeWhile, takeWhile_all _ s.data hnz, strMkData]
          · rw [hC]
            simp only [Bool.false_eq_true, if_false, primSize, hty]
            rw [hub]
            dsimp only [strLenOf]
            rw [List.length_append, natLE_length, List.length_map, hlen16]
        | some ub =>
          rw [hub] at hub2
          dsimp only at hub2
          rw [decide_eq_true_eq] at hub2
          have htk : (utf8Str s).take ub = s.data.map Char.toNat := by
            rw [hbytes]
            exact List.take_of_length_le (by rw [List.length_map]; exact hub2)
          have hlA : (s.data.map Char.toNat ++
              List.replicate (ub - s.data.length) 0).length = ub := by
            rw [List.length_append, List.length_map, List.length_replicate]
            omega
          refine ⟨s.data.map Char.toNat ++ List.replicate (ub - s.data.length) 0,
            ?_, ?_, ?_⟩
          · rw [mkSerScalar_string_bounded M prevSer prevSize nss fld s ub hC hty hub,
              htk, List.length_map]
          · intro rest
            unfold mkDeserScalar
            rw [hC]
            simp only [Bool.false_eq_true, if_false]
            rw [readBasicType.eq_def, hty]
            simp only [String.reduceEq]
            rw [hub]
            dsimp only
            rw [if_pos (by rw [List.length_append, hlA]; omega)]
            rw [take_app_of_length _ rest ub hlA, drop_app_of_length _ rest ub hlA]
            have hdec2 : utf8Dec (s.data.map Char.toNat ++
                List.replicate (ub - s.data.length) 0) =
                s.data ++ List.replicate (ub - s.data.length) (Char.ofNat 0) := by
              rw [utf8Dec_ascii]
              · rw [List.map_append, map_toNat_ofNat s.data hlt128, List.map_replicate]
              · intro b hb
                rcases List.mem_append.mp hb with h1 | h1
                · exact hbnd b h1
                · rw [List.eq_of_mem_replicate h1]
                  norm_num
            rw [hdec2, splitNullHead_eq_takeWhile, takeWhile_append_all _ _ _ hnz,
              takeWhile_replicate_false _ _ (by decide), List.append_nil, strMkData]
          · rw [hC]
            simp only [Bool.false_eq_true, if_false, primSize, hty]
            rw [hub]
            dsimp only
            exact hlA
    case _ => exact Bool.noConfusion hwf


theorem map_const_sum {α : Type} (u : Nat) : ∀ (l : List α),
    (l.map (fun _ => u)).sum = l.length * u := by
  intro l
  induction l with
  | nil => simp
  | cons a t ih =>
    simp only [List.map_cons, List.sum_cons, ih, List.length_cons]
    ring

theorem mapGet_cons_self {α : Type} (n : String) (v : α) (ps : List (String × α)) :
    mapGet ((n, v) :: ps) n = some v := by
  unfold mapGet
  rw [List.find?_cons_of_pos _ (by simp)]
  rfl

theorem mapGet_cons_ne {α : Type} (n1 : String) (v1 : α) (ps : List (String × α))
    (k : String) (h : k ≠ n1) :
    mapGet ((n1, v1) :: ps) k = mapGet ps k := by
  unfold mapGet
  rw [List.find?_cons_of_neg _ (by simp; exact fun hq => absurd hq.symm h)]

theorem fieldValue_cons_ne (n1 : String) (v1 : CbufValue)
    (ps : List (String × CbufValue)) (fld : MessageDefinitionField)
    (h : fld.name ≠ n1) :
    fieldValue ((n1, v1) :: ps) fld = fieldValue ps fld := by
  unfold fieldValue
  rw [mapGet_cons_ne n1 v1 ps fld.name h]

theorem fieldValue_eq_of_get (obj : List (String × CbufValue))
    (fld : MessageDefinitionField) (v : CbufValue)
    (hget : mapGet obj fld.name = some v) (hne : v ≠ .vUndef) :
    fieldValue obj fld = some v := by
  unfold fieldValue
  rw [hget]
  cases v
  case vUndef => exact absurd rfl hne
  all_goals rfl

theorem wfScalar_undef (M : NameSchemaMap) (H : HashSchemaMap)
    (prevWf : CbufMessageDefinition → List (String × CbufValue) → Bool)
    (prevSize : CbufMessageDefinition → List (String × CbufValue) → Except SerdeErr Nat)
    (nss : List String) (fld : MessageDefinitionField) (inArray : Bool) :
    mkWfScalar M H prevWf prevSize nss fld inArray .vUndef = false := by
  unfold mkWfScalar
  split
  · cases lookupMsgdef M nss fld.type <;> rfl
  · split <;> first | rfl | (split <;> rfl)

theorem wfField_undef (M : NameSchemaMap) (H : HashSchemaMap)
    (prevWf : CbufMessageDefinition → List (String × CbufValue) → Bool)
    (prevSize : CbufMessageDefinition → List (String × CbufValue) → Except SerdeErr Nat)
    (nss : List String) (fld : MessageDefinitionField) :
    mkWfField M H prevWf prevSize nss fld .vUndef = false := by
  unfold mkWfField
  split
  · rfl
  · exact wfScalar_undef M H prevWf prevSize nss fld false

/-- One field of the walk round-trips: it serializes to `bs`, the size walk
charges exactly `bs.length`, and the reader consumes exactly `bs` giving the
binding back. -/
def fieldOK (serB : MessageDefinitionField → Except SerdeErr (List Nat))
    (sizeB : MessageDefinitionField → Except SerdeErr Nat)
    (deserB : MessageDefinitionField → List Nat →
      Except SerdeErr ((String × CbufValue) × List Nat))
    (fld : MessageDefinitionField) (v : CbufValue) : Prop :=
  ∃ bs, serB fld = .ok bs ∧ sizeB fld = .ok bs.length ∧
    ∀ rest, deserB fld (bs ++ rest) = .ok ((fld.name, v), rest)

theorem walk_roundtrip (serB : MessageDefinitionField → Except SerdeErr (List Nat))
    (sizeB : MessageDefinitionField → Except SerdeErr Nat)
    (deserB : MessageDefinitionField → List Nat →
      Except SerdeErr ((String × CbufValue) × List Nat)) :
    ∀ (defs : List MessageDefinitionField) (obj : List (String × CbufValue)),
      List.Forall₂ (fun fld p => p.1 = fld.name ∧ fieldOK serB sizeB deserB fld p.2)
        defs obj →
      ∃ bs, exList serB defs = .ok bs ∧ exSum sizeB defs = .ok bs.length ∧
        ∀ rest, stList deserB defs (bs ++ rest) = .ok (obj, rest) := by
  intro defs obj h
  induction h with
  | nil => exact ⟨[], rfl, rfl, fun rest => rfl⟩
  | cons hp hrest ih =>
    rename_i fld p fs ps
    obtain ⟨hname, bs1, hser1, hsize1, hdes1⟩ := hp
    obtain ⟨bs, hser, hsize, hdes⟩ := ih
    refine ⟨bs1 ++ bs, ?_, ?_, ?_⟩
    · rw [exList, hser1, exBind_ok_eq, hser, exBind_ok_eq]
    · rw [exSum, hsize1, exBind_ok_eq, hsize, exBind_ok_eq]
      rw [List.length_append]
    · intro rest
      rw [stList, List.append_assoc, hdes1 (bs ++ rest), exBind_ok_eq]
      dsimp only
      rw [hdes rest, exBind_ok_eq]
      dsimp only
      obtain ⟨k, v⟩ := p
      cases hname
      rfl

def arrElemLen (M : NameSchemaMap)
    (prevSize : CbufMessageDefinition → List (String × CbufValue) → Except SerdeErr Nat)
    (nss : List String) (fld : MessageDefinitionField) (el : CbufValue) : Nat :=
  if fld.isComplex = true then
    match lookupMsgdef M nss fld.type with
    | .ok nested =>
      match prevSize nested (asObjSize (some el)) with
      | .ok n => n
      | .error _ => 0
    | .error _ => 0
  else primSize fld el

theorem field_roundtrip
    (M : NameSchemaMap) (H : HashSchemaMap)
    (prevWf : CbufMessageDefinition → List (String × CbufValue) → Bool)
    (prevSize : CbufMessageDefinition → List (String × CbufValue) → Except SerdeErr Nat)
    (prevSer : CbufMessageDefinition → List (String × CbufValue) →
      Except SerdeErr (List Nat))
    (prevDeser : CbufMessageDefinition → List Nat →
      Except SerdeErr (List (String × CbufValue) × List Nat))
    (IH : ∀ nested obj, prevWf nested obj = true →
        ∃ l, prevSer nested obj = .ok l ∧ prevSize nested obj = .ok l.length ∧
          ∀ rest, prevDeser nested (l ++ rest) = .ok (obj, rest))
    (nss : List String) (message : List (String × CbufValue))
    (fld : MessageDefinitionField) (v : CbufValue)
    (hfv : fieldValue message fld = some v)
    (hwf : mkWfField M H prevWf prevSize nss fld v = true) :
    fieldOK
      (fun fld => do
        let value := fieldValue message fld
        if fld.isArray then
          let arrayValue := asArr value
          let pre : List Nat := match fld.arrayLength with
            | some _ => []
            | none => natLE 4 arrayValue.length
          let body ← exList (fun el => mkSerScalar M prevSer prevSize nss fld el)
            (elemSlots fld arrayValue)
          .ok (pre ++ body)
        else
          mkSerScalar M prevSer prevSize nss fld value)
      (fun fld => do
        let value := fieldValue message fld
        if fld.isArray then
          let arrayValue := asArr value
          let arrayLength := match fld.arrayLength with
            | some m => m
            | none => arrayValue.length
          let cnt : Nat := match fld.arrayLength with
            | some _ => 0
            | none => 4
          match fld.type with
          | "bool" | "uint8" | "int8" => .ok (cnt + arrayLength)
          | "uint16" | "int16" => .ok (cnt + arrayLength * 2)
          | "uint32" | "int32" | "float32" => .ok (cnt + arrayLength * 4)
          | "uint64" | "int64" | "float64" => .ok (cnt + arrayLength * 8)
          | "string" =>
            match fld.upperBound with
            | none => do
              let s ← exSum (fun el => .ok (strLenOf (some el))) arrayValue
              .ok (cnt + arrayLength * 4 + s)
            | some ub => .ok (cnt + arrayLength * ub)
          | _ =>
            if arrayValue.length > 0 then do
              let nested ← lookupMsgdef M nss fld.type
              let s ← exSum (fun el => prevSize nested (asObjSize (some el))) arrayValue
              .ok (cnt + s)
            else .ok cnt
        else
          if fld.isComplex then do
            let nested ← lookupMsgdef M nss fld.type
            let hdr := if nested.isNakedStruct then 0 else HEADER_SIZE
            let s ← prevSize nested (asObjSize value)
            .ok (hdr + s)
          else
            match fld.type with
            | "bool" | "uint8" | "int8" => .ok 1
            | "uint16" | "int16" => .ok 2
            | "uint32" | "int32" | "float32" => .ok 4
            | "uint64" | "int64" | "float64" => .ok 8
            | "string" =>
              match fld.upperBound with
              | none => .ok (4 + strLenOf value)
              | some ub => .ok ub
            | _ => .error .unsupportedType)
      (fun fld l =>
        if fld.isArray then do
          let (count, l1) ←
            match fld.arrayLength with
            | some m => (.ok (m, l) : Except SerdeErr (Nat × List Nat))
            | none =>
              match readLE 4 l with
              | some p => .ok p
              | none => .error .bufferTooSmall
          let (elems, l2) ← readElems
            (fun b => mkDeserScalar M H prevDeser nss fld b) count l1
          .ok ((fld.name, CbufValue.vArr elems), l2)
        else do
          let (v, l1) ← mkDeserScalar M H prevDeser nss fld l
          .ok ((fld.name, v), l1))
      fld v := by
  unfold fieldOK
  by_cases hA : fld.isArray = true
  · -- array field
    unfold mkWfField at hwf
    rw [if_pos hA] at hwf
    match v, hwf with
    | .vArr elems, hwf =>
      simp only [Bool.and_eq_true] at hwf
      obtain ⟨⟨hcoh, hcnt⟩, hels⟩ := hwf
      rw [decide_eq_true_eq] at hcoh
      have helswf : ∀ el ∈ elems, mkWfScalar M H prevWf prevSize nss fld true el = true :=
        fun el hel => List.all_eq_true.mp hels el hel
      have hpack : ∀ el ∈ elems, ∃ b,
          mkSerScalar M prevSer prevSize nss fld (some el) = .ok b ∧
          b.length = arrElemLen M prevSize nss fld el ∧
          ∀ rest, mkDeserScalar M H prevDeser nss fld (b ++ rest) = .ok (el, rest) := by
        intro el hel
        obtain ⟨b, hserE, hdesE, hlenE⟩ :=
          scalar_roundtrip M H prevWf prevSize prevSer prevDeser IH nss fld true el
            (helswf el hel)
        refine ⟨b, hserE, ?_, hdesE⟩
        unfold arrElemLen
        by_cases hC : fld.isComplex = true
        · rw [if_pos hC]
          rw [if_pos hC] at hlenE
          obtain ⟨nested, o, n, hlk, rfl, hn, hblen⟩ := hlenE
          rw [hlk]
          dsimp only
          rw [show asObjSize (some (CbufValue.vObj o)) = o from rfl, hn]
          -- inArray well-formedness forces a naked nested struct
          have hw := helswf _ hel
          unfold mkWfScalar at hw
          rw [if_pos hC, hlk] at hw
          dsimp only at hw
          rw [Bool.and_eq_true] at hw
          obtain ⟨hwp, hwr⟩ := hw
          by_cases hnk : nested.isNakedStruct = true
          · rw [hblen, if_pos hnk]
          · exfalso
            rw [if_neg hnk] at hwr
            simp only [Bool.and_eq_true] at hwr
            exact Bool.noConfusion hwr.1.1.1.1
        · rw [if_neg hC]
          rw [if_neg hC] at hlenE
          exact hlenE
      obtain ⟨body, hserB, hlenB, hdesB⟩ :=
        elems_roundtrip (fun el => mkSerScalar M prevSer prevSize nss fld el)
          (fun b => mkDeserScalar M H prevDeser nss fld b)
          (arrElemLen M prevSize nss fld) elems hpack
      have hComplexFalse : isPrimType fld.type = true → fld.isComplex = false := by
        intro hp
        by_cases h : fld.isComplex = true
        · rw [hcoh h] at hp
          exact Bool.noConfusion hp
        · simpa using h
      have hglenPrim : ∀ (u : Nat), fld.isComplex = false →
          (∀ el ∈ elems, primSize fld el = u) →
          body.length = elems.length * u := by
        intro u hCF hps
        have hmap : elems.map (arrElemLen M prevSize nss fld) =
            elems.map (fun _ => u) :=
          List.map_congr_left (fun el hel => by
            unfold arrElemLen
            rw [if_neg (by simp [hCF])]
            exact hps el hel)
        rw [hlenB, hmap, map_const_sum]
      have hglenComplex : fld.isComplex = true →
          ∀ (nested : CbufMessageDefinition),
            lookupMsgdef M nss fld.type = .ok nested →
            ∀ el ∈ elems, prevSize nested (asObjSize (some el)) =
              .ok (arrElemLen M prevSize nss fld el) := by
        intro hC nested hlk el hel
        obtain ⟨b0, hs0, hd0, hdich⟩ :=
          scalar_roundtrip M H prevWf prevSize prevSer prevDeser IH nss fld true el
            (helswf el hel)
        rw [if_pos hC] at hdich
        obtain ⟨nested2, o, n, hlk2, rfl, hn, hbl0⟩ := hdich
        rw [hlk] at hlk2
        injection hlk2 with hnn
        subst hnn
        unfold arrElemLen
        rw [if_pos hC, hlk]
        dsimp only
        rw [show asObjSize (some (CbufValue.vObj o)) = o from rfl]
        rw [hn]
      cases hal : fld.arrayLength with
      | some m =>
        rw [hal] at hcnt
        rw [decide_eq_true_eq] at hcnt
        have hslots : elemSlots fld elems = elems.map some := by
          unfold elemSlots
          rw [hal]
          dsimp only
          rw [← hcnt]
          exact range_get_self elems
        refine ⟨body, ?_, ?_, ?_⟩
        · beta_reduce
          rw [hfv]
          rw [if_pos hA]
          rw [show asArr (some (CbufValue.vArr elems)) = elems from rfl, hal]
          dsimp only
          rw [hslots, hserB, exBind_ok_eq]
          rw [List.nil_append]
        · beta_reduce
          rw [hfv, if_pos hA]
          rw [show asArr (some (CbufValue.vArr elems)) = elems from rfl, hal]
          dsimp only
          split
          case _ hty =>
            have hbl := hglenPrim 1 (hComplexFalse (by rw [hty]; decide))
              (fun el hel => by simp only [primSize, hty, String.reduceEq])
            exact congrArg Except.ok (by omega)
          case _ hty =>
            have hbl := hglenPrim 1 (hComplexFalse (by rw [hty]; decide))
              (fun el hel => by simp only [primSize, hty, String.reduceEq])
            exact congrArg Except.ok (by omega)
          case _ hty =>
            have hbl := hglenPrim 1 (hComplexFalse (by rw [hty]; decide))
              (fun el hel => by simp only [primSize, hty, String.reduceEq])
            exact congrArg Except.ok (by omega)
          case _ hty =>
            have hbl := hglenPrim 2 (hComplexFalse (by rw [hty]; decide))
              (fun el hel => by simp only [primSize, hty, String.reduceEq])
            exact congrArg Except.ok (by omega)
          case _ hty =>
            have hbl := hglenPrim 2 (hComplexFalse (by rw [hty]; decide))
              (fun el hel => by simp only [primSize, hty, String.reduceEq])
            exact congrArg Except.ok (by omega)
          case _ hty =>
            have hbl := hglenPrim 4 (hComplexFalse (by rw [hty]; decide))
              (fun el hel => by simp only [primSize, hty, String.reduceEq])
            exact congrArg Except.ok (by omega)
          case _ hty =>
            have hbl := hglenPrim 4 (hComplexFalse (by rw [hty]; decide))
              (fun el hel => by simp only [primSize, hty, String.reduceEq])
            exact congrArg Except.ok (by omega)
          case _ hty =>
            have hbl := hglenPrim 4 (hComplexFalse (by rw [hty]; decide))
              (fun el hel => by simp only [primSize, hty, String.reduceEq])
            exact congrArg Except.ok (by omega)
          case _ hty =>
            have hbl := hglenPrim 8 (hComplexFalse (by rw [hty]; decide))
              (fun el hel => by simp only [primSize, hty, String.reduceEq])
            exact congrArg Except.ok (by omega)
          case _ hty =>
            have hbl := hglenPrim 8 (hComplexFalse (by rw [hty]; decide))
              (fun el hel => by simp only [primSize, hty, String.reduceEq])
            exact congrArg Except.ok (by omega)
          case _ hty =>
            have hbl := hglenPrim 8 (hComplexFalse (by rw [hty]; decide))
              (fun el hel => by simp only [primSize, hty, String.reduceEq])
            exact congrArg Except.ok (by omega)
          case _ hty =>
            cases hub : fld.upperBound with
            | some ub =>
              dsimp only
              have hbl := hglenPrim ub (hComplexFalse (by rw [hty]; decide))
                (fun el hel => by
                  simp only [primSize, hty, String.reduceEq, hub])
              exact congrArg Except.ok (by
                first
                  | omega
                  | (subst hcnt; omega))
            | none =>
              dsimp only
              rw [exSum_of_ok (fun el => .ok (strLenOf (some el)))
                (fun el => strLenOf (some el)) elems (fun a ha => rfl), exBind_ok_eq]
              have hmap : elems.map (arrElemLen M prevSize nss fld) =
                  elems.map (fun el => 4 + strLenOf (some el)) :=
                List.map_congr_left (fun el hel => by
                  unfold arrElemLen
                  rw [if_neg (by simp [hComplexFalse (by rw [hty]; decide)])]
                  simp only [primSize, hty, String.reduceEq, hub])
              have hbl : body.length =
                  elems.length * 4 + (elems.map (fun el => strLenOf (some el))).sum := by
                rw [hlenB, hmap,
                  sum_map_add (fun _ => 4) (fun el => strLenOf (some el)) elems,
                  map_const_sum]
              exact congrArg Except.ok (by omega)
          case _ =>
            cases elems with
            | nil =>
              rw [if_neg (by simp)]
              have hbl : body.length = 0 := by rw [hlenB]; rfl
              exact congrArg Except.ok (by omega)
            | cons e0 tl =>
              rw [if_pos (by simp)]
              by_cases hC : fld.isComplex = true
              · obtain ⟨b0, hs0, hd0, hdich⟩ :=
                  scalar_roundtrip M H prevWf prevSize prevSer prevDeser IH nss fld
                    true e0 (helswf e0 (List.mem_cons_self e0 tl))
                rw [if_pos hC] at hdich
                obtain ⟨nested, o0, n0, hlk, he0, hn0, hb0⟩ := hdich
                rw [hlk, exBind_ok_eq]
                rw [exSum_of_ok (fun el => prevSize nested (asObjSize (some el)))
                  (arrElemLen M prevSize nss fld) (e0 :: tl)
                  (hglenComplex hC nested hlk), exBind_ok_eq]
                have hbl := hlenB
                exact congrArg Except.ok (by omega)
              · exfalso
                have hw0 := helswf e0 (List.mem_cons_self e0 tl)
                unfold mkWfScalar at hw0
                rw [if_neg hC] at hw0
                split at hw0 <;>
                  first
                    | exact Bool.noConfusion hw0
                    | simp_all
        · intro rest
          beta_reduce
          rw [if_pos hA, hal]
          dsimp only
          rw [exBind_ok_eq]
          dsimp only
          rw [← hcnt]
          rw [hdesB rest, exBind_ok_eq]
      | none =>
        rw [hal] at hcnt
        rw [decide_eq_true_eq] at hcnt
        have hslots : elemSlots fld elems = elems.map some := by
          unfold elemSlots
          rw [hal]
        refine ⟨natLE 4 elems.length ++ body, ?_, ?_, ?_⟩
        · beta_reduce
          rw [hfv, if_pos hA]
          rw [show asArr (some (CbufValue.vArr elems)) = elems from rfl, hal]
          dsimp only
          rw [hslots, hserB, exBind_ok_eq]
        · beta_reduce
          rw [hfv, if_pos hA]
          rw [show asArr (some (CbufValue.vArr elems)) = elems from rfl, hal]
          dsimp only
          rw [List.length_append, natLE_length]
          split
          case _ hty =>
            have hbl := hglenPrim 1 (hComplexFalse (by rw [hty]; decide))
              (fun el hel => by simp only [primSize, hty, String.reduceEq])
            exact congrArg Except.ok (by omega)
          case _ hty =>
            have hbl := hglenPrim 1 (hComplexFalse (by rw [hty]; decide))
              (fun el hel => by simp only [primSize, hty, String.reduceEq])
            exact congrArg Except.ok (by omega)
          case _ hty =>
            have hbl := hglenPrim 1 (hComplexFalse (by rw [hty]; decide))
              (fun el hel => by simp only [primSize, hty, String.reduceEq])
            exact congrArg Except.ok (by omega)
          case _ hty =>
            have hbl := hglenPrim 2 (hComplexFalse (by rw [hty]; decide))
              (fun el hel => by simp only [primSize, hty, String.reduceEq])
            exact congrArg Except.ok (by omega)
          case _ hty =>
            have hbl := hglenPrim 2 (hComplexFalse (by rw [hty]; decide))
              (fun el hel => by simp only [primSize, hty, String.reduceEq])
            exact congrArg Except.ok (by omega)
          case _ hty =>
            have hbl := hglenPrim 4 (hComplexFalse (by rw [hty]; decide))
              (fun el hel => by simp only [primSize, hty, String.reduceEq])
            exact congrArg Except.ok (by omega)
          case _ hty =>
            have hbl := hglenPrim 4 (hComplexFalse (by rw [hty]; decide))
              (fun el hel => by simp only [primSize, hty, String.reduceEq])
            exact congrArg Except.ok (by omega)
          case _ hty =>
            have hbl := hglenPrim 4 (hComplexFalse (by rw [hty]; decide))
              (fun el hel => by simp only [primSize, hty, String.reduceEq])
            exact congrArg Except.ok (by omega)
          case _ hty =>
            have hbl := hglenPrim 8 (hComplexFalse (by rw [hty]; decide))
              (fun el hel => by simp only [primSize, hty, String.reduceEq])
            exact congrArg Except.ok (by omega)
          case _ hty =>
            have hbl := hglenPrim 8 (hComplexFalse (by rw [hty]; decide))
              (fun el hel => by simp only [primSize, hty, String.reduceEq])
            exact congrArg Except.ok (by omega)
          case _ hty =>
            have hbl := hglenPrim 8 (hComplexFalse (by rw [hty]; decide))
              (fun el hel => by simp only [primSize, hty, String.reduceEq])
            exact congrArg Except.ok (by omega)
          case _ hty =>
            cases hub : fld.upperBound with
            | some ub =>
              dsimp only
              have hbl := hglenPrim ub (hComplexFalse (by rw [hty]; decide))
                (fun el hel => by
                  simp only [primSize, hty, String.reduceEq, hub])
              exact congrArg Except.ok (by
                first
                  | omega
                  | (subst hcnt; omega))
            | none =>
              dsimp only
              rw [exSum_of_ok (fun el => .ok (strLenOf (some el)))
                (fun el => strLenOf (some el)) elems (fun a ha => rfl), exBind_ok_eq]
              have hmap : elems.map (arrElemLen M prevSize nss fld) =
                  elems.map (fun el => 4 + strLenOf (some el)) :=
                List.map_congr_left (fun el hel => by
                  unfold arrElemLen
                  rw [if_neg (by simp [hComplexFalse (by rw [hty]; decide)])]
                  simp only [primSize, hty, String.reduceEq, hub])
              have hbl : body.length =
                  elems.length * 4 + (elems.map (fun el => strLenOf (some el))).sum := by
                rw [hlenB, hmap,
                  sum_map_add (fun _ => 4) (fun el => strLenOf (some el)) elems,
                  map_const_sum]
              exact congrArg Except.ok (by omega)
          case _ =>
            cases elems with
            | nil =>
              rw [if_neg (by simp)]
              have hbl : body.length = 0 := by rw [hlenB]; rfl
              exact congrArg Except.ok (by omega)
            | cons e0 tl =>
              rw [if_pos (by simp)]
              by_cases hC : fld.isComplex = true
              · obtain ⟨b0, hs0, hd0, hdich⟩ :=
                  scalar_roundtrip M H prevWf prevSize prevSer prevDeser IH nss fld
                    true e0 (helswf e0 (List.mem_cons_self e0 tl))
                rw [if_pos hC] at hdich
                obtain ⟨nested, o0, n0, hlk, he0, hn0, hb0⟩ := hdich
                rw [hlk, exBind_ok_eq]
                rw [exSum_of_ok (fun el => prevSize nested (asObjSize (some el)))
                  (arrElemLen M prevSize nss fld) (e0 :: tl)
                  (hglenComplex hC nested hlk), exBind_ok_eq]
                have hbl := hlenB
                exact congrArg Except.ok (by omega)
              · exfalso
                have hw0 := helswf e0 (List.mem_cons_self e0 tl)
                unfold mkWfScalar at hw0
                rw [if_neg hC] at hw0
                split at hw0 <;>
                  first
                    | exact Bool.noConfusion hw0
                    | simp_all
        · intro rest
          beta_reduce
          rw [if_pos hA, hal]
          dsimp only
          rw [List.append_assoc, readLE_natLE]
          dsimp only
          have h32 : elems.length < 2 ^ (8 * 4) := hcnt
          rw [Nat.mod_eq_of_lt h32]
          rw [exBind_ok_eq]
          dsimp only
          rw [hdesB rest, exBind_ok_eq]
  · -- scalar field
    unfold mkWfField at hwf
    rw [if_neg hA] at hwf
    obtain ⟨bs, hser, hdes, hlen⟩ :=
      scalar_roundtrip M H prevWf prevSize prevSer prevDeser IH nss fld false v hwf
    refine ⟨bs, ?_, ?_, ?_⟩
    · beta_reduce
      rw [hfv]
      rw [if_neg hA]
      exact hser
    · beta_reduce
      rw [hfv]
      rw [if_neg hA]
      by_cases hC : fld.isComplex = true
      · rw [if_pos hC]
        rw [if_pos hC] at hlen
        obtain ⟨nested, o, n, hlk, rfl, hn, hblen⟩ := hlen
        rw [hlk, exBind_ok_eq]
        rw [show asObjSize (some (.vObj o)) = o from rfl]
        rw [hn, exBind_ok_eq]
        rw [hblen]
        by_cases hnk : nested.isNakedStruct = true
        · rw [if_pos hnk, if_pos hnk]
          simp
        · rw [if_neg hnk, if_neg hnk]
          rfl
      · rw [if_neg hC]
        rw [if_neg hC] at hlen
        -- reduce the type match using well-formedness
        unfold mkWfScalar at hwf
        rw [if_neg hC] at hwf
        rw [hlen]
        split at hwf
        case _ hty => simp only [hty, primSize, String.reduceEq]
        case _ hty => simp only [hty, primSize, String.reduceEq]
        case _ hty => simp only [hty, primSize, String.reduceEq]
        case _ hty => simp only [hty, primSize, String.reduceEq]
        case _ hty => simp only [hty, primSize, String.reduceEq]
        case _ hty => simp only [hty, primSize, String.reduceEq]
        case _ hty => simp only [hty, primSize, String.reduceEq]
        case _ hty => simp only [hty, primSize, String.reduceEq]
        case _ hty => simp only [hty, primSize, String.reduceEq]
        case _ hty => simp only [hty, primSize, String.reduceEq]
        case _ hty => simp only [hty, primSize, String.reduceEq]
        case _ hty =>
          simp only [hty, primSize, String.reduceEq]
          cases fld.upperBound <;> rfl
        case _ => exact Bool.noConfusion hwf
    · intro rest
      beta_reduce
      rw [if_neg hA]
      rw [hdes rest, exBind_ok_eq]
theorem mapGet_append_of_ne {α : Type} (pre rest : List (String × α)) (key : String)
    (h : ∀ q ∈ pre, q.1 ≠ key) :
    mapGet (pre ++ rest) key = mapGet rest key := by
  induction pre with
  | nil => rfl
  | cons q qs ih =>
    rw [List.cons_append]
    rw [mapGet_cons_ne q.1 q.2 (qs ++ rest) key
      (fun hk => absurd hk.symm (h q (List.mem_cons_self q qs)))]
    exact ih (fun q2 hq2 => h q2 (List.mem_cons_of_mem q hq2))

/-- An aligned well-formed record resolves each field, through `fieldValue`
over the whole record, to its own binding: earlier bindings have different
names (the definition's names are distinct) and a well-formed value is not
`undefined`, so neither the `undefined` nor the default-value fallback of the
serializer fires. -/
theorem wfFields_fieldValue
    (wfF : MessageDefinitionField → CbufValue → Bool)
    (hundef : ∀ fld, wfF fld .vUndef = false) :
    ∀ (defs : List MessageDefinitionField) (obj : List (String × CbufValue)),
      wfFieldsB wfF defs obj = true →
      (defs.map (fun f => f.name)).Nodup →
      ∀ (pre : List (String × CbufValue)),
        (∀ q ∈ pre, ∀ fld ∈ defs, q.1 ≠ fld.name) →
        List.Forall₂ (fun fld p => p.1 = fld.name ∧ wfF fld p.2 = true ∧
          fieldValue (pre ++ obj) fld = some p.2) defs obj := by
  intro defs
  induction defs with
  | nil =>
    intro obj hwf _ pre _
    cases obj with
    | nil => exact List.Forall₂.nil
    | cons p ps => exact Bool.noConfusion hwf
  | cons fld fs ih =>
    intro obj hwf hnd pre hpre
    cases obj with
    | nil => exact Bool.noConfusion hwf
    | cons p ps =>
      obtain ⟨k, v⟩ := p
      rw [wfFieldsB] at hwf
      simp only [Bool.and_eq_true] at hwf
      obtain ⟨⟨hk, hv⟩, hrest⟩ := hwf
      rw [decide_eq_true_eq] at hk
      subst hk
      rw [List.map_cons, List.nodup_cons] at hnd
      obtain ⟨hnmem, hnd2⟩ := hnd
      refine List.Forall₂.cons ⟨rfl, hv, ?_⟩ ?_
      · -- the head binding is what fieldValue finds
        have hget : mapGet (pre ++ (fld.name, v) :: ps) fld.name = some v := by
          rw [mapGet_append_of_ne pre _ fld.name
            (fun q hq => hpre q hq fld (List.mem_cons_self fld fs))]
          exact mapGet_cons_self fld.name v ps
        refine fieldValue_eq_of_get _ fld v hget (fun hu => ?_)
        subst hu
        rw [hundef fld] at hv
        exact Bool.noConfusion hv
      · -- tail: extend the scanned prefix with the head binding
        have htail := ih ps hrest hnd2 (pre ++ [(fld.name, v)]) ?_
        · have hassoc : (pre ++ [(fld.name, v)]) ++ ps = pre ++ (fld.name, v) :: ps := by
            rw [List.append_assoc]
            rfl
          rw [hassoc] at htail
          exact htail
        · intro q hq fld2 hfld2
          rcases List.mem_append.mp hq with hq1 | hq1
          · exact hpre q hq1 fld2 (List.mem_cons_of_mem fld hfld2)
          · have : q = (fld.name, v) := by simpa using hq1
            subst this
            intro hq2
            have hmem : fld2.name ∈ List.map (fun f => f.name) fs :=
              List.mem_map_of_mem (fun f => f.name) hfld2
            rw [← hq2] at hmem
            exact hnmem hmem

/-- One level of the naked-message walk round-trips: serialization, the size
walk, and deserialization of a well-formed record agree, given that the
next-deeper level does. -/
theorem naked_roundtrip
    (M : NameSchemaMap) (H : HashSchemaMap)
    (prevWf : CbufMessageDefinition → List (String × CbufValue) → Bool)
    (prevSize : CbufMessageDefinition → List (String × CbufValue) → Except SerdeErr Nat)
    (prevSer : CbufMessageDefinition → List (String × CbufValue) →
      Except SerdeErr (List Nat))
    (prevDeser : CbufMessageDefinition → List Nat →
      Except SerdeErr (List (String × CbufValue) × List Nat))
    (IH : ∀ nested obj, prevWf nested obj = true →
        ∃ l, prevSer nested obj = .ok l ∧ prevSize nested obj = .ok l.length ∧
          ∀ rest, prevDeser nested (l ++ rest) = .ok (obj, rest))
    (msgdef : CbufMessageDefinition) (obj : List (String × CbufValue))
    (hwf : mkWfObj M H prevWf prevSize msgdef obj = true) :
    ∃ l, mkSerNaked M prevSer prevSize msgdef obj = .ok l ∧
      mkSizeNaked M prevSize msgdef obj = .ok l.length ∧
      ∀ rest, mkDeserNaked M H prevDeser msgdef (l ++ rest) = .ok (obj, rest) := by
  unfold mkWfObj at hwf
  rw [Bool.and_eq_true] at hwf
  obtain ⟨hnd, hfs⟩ := hwf
  rw [decide_eq_true_eq] at hnd
  have halign := wfFields_fieldValue
    (fun fld v => mkWfField M H prevWf prevSize msgdef.namespaces fld v)
    (fun fld => wfField_undef M H prevWf prevSize msgdef.namespaces fld)
    msgdef.definitions obj hfs hnd [] (fun q hq => absurd hq (List.not_mem_nil q))
  unfold mkSerNaked mkSizeNaked mkDeserNaked
  apply walk_roundtrip
  refine List.Forall₂.imp ?_ halign
  intro fld p hp
  obtain ⟨hname, hwfv, hfv⟩ := hp
  exact ⟨hname, field_roundtrip M H prevWf prevSize prevSer prevDeser IH
    msgdef.namespaces obj fld p.2 hfv hwfv⟩

/-- The naked-message codec round-trips at every fuel: a record well-formed at
fuel `f` serializes at fuel `f`, the size walk charges exactly the emitted
byte count, and the reader consumes exactly those bytes and returns the
record. -/
theorem wf_roundtrip (M : NameSchemaMap) (H : HashSchemaMap) :
    ∀ (fuel : Nat) (msgdef : CbufMessageDefinition) (obj : List (String × CbufValue)),
      wfObjF M H fuel msgdef obj = true →
      ∃ l, serNakedF M fuel msgdef obj = .ok l ∧
        sizeNakedF M fuel msgdef obj = .ok l.length ∧
        ∀ rest, deserNakedF M H fuel msgdef (l ++ rest) = .ok (obj, rest) := by
  intro fuel
  induction fuel with
  | zero => intro msgdef obj hwf; exact Bool.noConfusion hwf
  | succ f ihf =>
    intro msgdef obj hwf
    simp only [wfObjF] at hwf
    rw [serNakedF, sizeNakedF, deserNakedF]
    exact naked_roundtrip M H (wfObjF M H f) (sizeNakedF M f) (serNakedF M f)
      (deserNakedF M H f) ihf msgdef obj hwf

/-- C2: for every well-formed message of a non-naked struct known to the
schema maps — the name lookup finds its definition, the hash map maps the
definition's hash back to it, hash and timestamp fit in 64 bits, and the
serialized size is below 2^27 — `deserializeMessage` applied to the bytes
of `serializeMessage` returns a record with the same typeName, hashValue,
timestamp and field-by-field message, with `size` equal to the emitted byte
length and `variant` 0 (the serializer writes the size word with bit 27
clear). -/
theorem c2_serialize_then_deserialize
    (M : NameSchemaMap) (H : HashSchemaMap) (fuel : Nat) (msg : CbufMessageData)
    (msgdef : CbufMessageDefinition) (size : Nat)
    (hfind : findMsgdefByName M msg.typeName = .ok msgdef)
    (hname : msgdef.name = msg.typeName)
    (hwf : wfObjF M H fuel msgdef msg.message = true)
    (hsz : serializedMessageSize M fuel msg = .ok size)
    (hlt : size < 2 ^ 27)
    (hhash : msgdef.hashValue < 2 ^ 64)
    (hmeta : msgdef.hashValue = METADATA_DEFINITION.hashValue →
      msgdef = METADATA_DEFINITION)
    (hmap : mapGetN H msgdef.hashValue = some msgdef)
    (hts : msg.timestamp < 2 ^ 64) :
    ∃ l, serializeMessage M fuel msg = .ok l ∧ l.length = size ∧
      ∀ rest, deserializeMessage M H (fuel + 1) (l ++ rest) =
        .ok (⟨msg.typeName, size, 0, msgdef.hashValue, msg.timestamp,
          msg.message⟩, rest) := by
  obtain ⟨payload, hserN, hsizeN, hdesN⟩ := wf_roundtrip M H fuel msgdef msg.message hwf
  have hsz2 : serializedMessageSize M fuel msg = .ok (HEADER_SIZE + payload.length) := by
    unfold serializedMessageSize
    rw [hfind, exBind_ok_eq, hsizeN, exBind_ok_eq]
  have hsize : size = HEADER_SIZE + payload.length := by
    rw [hsz2] at hsz
    injection hsz with h
    exact h.symm
  have hH : HEADER_SIZE = 24 := rfl
  have h24 : (serializeHeaderBytes msgdef size msg.timestamp).length = 24 := by
    rw [serializeHeaderBytes]
    rw [List.length_append, List.length_append, List.length_append,
      natLE_length, natLE_length, natLE_length, natLE_length]
  have hrawlen : (serializeHeaderBytes msgdef size msg.timestamp ++ payload).length
      = size := by
    rw [List.length_append, h24]
    omega
  have hraw := serializeMessageRaw_eq M fuel msg msgdef size payload hfind hsz hserN
  have hser : serializeMessage M fuel msg =
      .ok (serializeHeaderBytes msgdef size msg.timestamp ++ payload) := by
    have hx := serializeMessage_eq M fuel msg size _ hsz hraw (le_of_eq hrawlen)
    rw [hrawlen, Nat.sub_self, List.replicate_zero, List.append_nil] at hx
    exact hx
  refine ⟨_, hser, hrawlen, ?_⟩
  intro rest
  rw [deserializeMessage]
  unfold mkDeserMessage
  simp only [serializeHeaderBytes, List.append_assoc]
  have hlenALL : (natLE 4 0x56444e54 ++ (natLE 4 size ++ (natLE 8 msgdef.hashValue ++
      (natLE 8 msg.timestamp ++ (payload ++ rest))))).length
      = 24 + payload.length + rest.length := by
    simp only [List.length_append, natLE_length]
    omega
  rw [if_neg (by rw [hlenALL]; omega)]
  rw [if_neg (by rw [hlenALL]; omega)]
  rw [readLE_natLE]
  rw [show (0x56444e54 : Nat) % 2 ^ (8 * 4) = 0x56444e54 from
    Nat.mod_eq_of_lt (by norm_num)]
  dsimp only
  rw [if_neg (by decide)]
  rw [readLE_natLE]
  rw [Nat.mod_eq_of_lt (lt_trans hlt (by norm_num))]
  dsimp only
  rw [decode_small size hlt]
  dsimp only
  rw [if_neg (by rw [hlenALL]; omega)]
  rw [readLE_natLE]
  rw [Nat.mod_eq_of_lt hhash]
  dsimp only
  rw [readLE_natLE]
  rw [Nat.mod_eq_of_lt hts]
  dsimp only
  have hlook : (if msgdef.hashValue = METADATA_DEFINITION.hashValue then
      some METADATA_DEFINITION else mapGetN H msgdef.hashValue) = some msgdef := by
    by_cases hm : msgdef.hashValue = METADATA_DEFINITION.hashValue
    · rw [if_pos hm, hmeta hm]
    · rw [if_neg hm]
      exact hmap
  rw [hlook]
  dsimp only
  rw [hdesN rest]
  dsimp only
  rw [if_neg (by rw [hlenALL]; omega)]
  rw [hname]

/-- A framed (non-naked) nested struct `ns::inner` with a single `uint8`. -/
def c2Inner : CbufMessageDefinition :=
  { name := "ns::inner", namespaces := ["ns"],
    definitions := [ { name := "x", type := "uint8" } ],
    hashValue := 1001 }

/-- An outer struct holding one framed `inner` and one `uint32`. -/
def c2Outer : CbufMessageDefinition :=
  { name := "ns::outer", namespaces := ["ns"],
    definitions := [ { name := "i", type := "inner", isComplex := true },
                     { name := "b", type := "uint32" } ],
    hashValue := 1002 }

/-- The schema maps built from the two C2 structs. -/
def c2Maps : NameSchemaMap × HashSchemaMap := createSchemaMaps [c2Inner, c2Outer]

/-- A message of the outer struct with a populated nested record. -/
def c2Msg : CbufMessageData :=
  { typeName := "ns::outer", timestamp := 5,
    message := [("i", .vObj [("x", .vInt 7)]), ("b", .vInt 9)] }

/-- The C2 round trip at a concrete nested message: a 53-byte buffer whose
decoding returns the message record with variant 0. -/
theorem c2_serialize_then_deserialize_witness :
    ∃ l, serializeMessage c2Maps.1 2 c2Msg = .ok l ∧ l.length = 53 ∧
      ∀ rest, deserializeMessage c2Maps.1 c2Maps.2 3 (l ++ rest) =
        .ok (⟨"ns::outer", 53, 0, 1002, 5, c2Msg.message⟩, rest) :=
  c2_serialize_then_deserialize c2Maps.1 c2Maps.2 2 c2Msg c2Outer 53
    rfl rfl rfl rfl (by norm_num) (by decide)
    (fun h => absurd h (by decide)) rfl (by decide)

/-- A struct with one fixed-length array of two unbounded strings. -/
def c1Def : CbufMessageDefinition :=
  { name := "a", namespaces := [],
    definitions := [ { name := "b", type := "string",
                       isArray := true, arrayLength := some 2 } ],
    hashValue := 11 }

/-- The schema maps built from `c1Def` alone. -/
def c1Maps : NameSchemaMap × HashSchemaMap := createSchemaMaps [c1Def]

/-- A message supplying three strings to the two-slot array. -/
def c1MsgLong : CbufMessageData :=
  { typeName := "a", timestamp := 0,
    message := [("b", .vArr [.vStr "a", .vStr "b", .vStr "c"])] }

/-- A message supplying exactly the declared two strings. -/
def c1MsgOk : CbufMessageData :=
  { typeName := "a", timestamp := 0,
    message := [("b", .vArr [.vStr "a", .vStr "b"])] }

/-- C1 counterexample: for `struct a { string b[2]; }` and a message
supplying three strings, the size walk charges the length words of both
declared slots plus the bytes of all **three** supplied strings (35 bytes in
total with the header), while the payload walk writes only the two declared
slots (34 bytes), so the encoder returns a 35-byte buffer whose final byte
it never wrote: `serializedMessageSize` does not equal the emitted byte
count and the buffer is not fully filled. -/
theorem c1_counterexample :
    ∃ raw l, serializeMessageRaw c1Maps.1 1 c1MsgLong = .ok raw ∧
      serializeMessage c1Maps.1 1 c1MsgLong = .ok l ∧
      serializedMessageSize c1Maps.1 1 c1MsgLong = .ok 35 ∧
      raw.length = 34 ∧ l = raw ++ [0] :=
  ⟨_, _, rfl, rfl, rfl, rfl, rfl⟩


theorem intLE_length (k : Nat) (i : Int) : (intLE k i).length = k := by
  unfold intLE
  exact natLE_length k _

/-- When the serializer's object coercion succeeds, it returns the same
record the size walk's coercion produces. -/
theorem asObjSer_size (value : Option CbufValue) (obj : List (String × CbufValue))
    (h : asObjSer value = .ok obj) : asObjSize value = obj := by
  cases value with
  | none => exact Except.noConfusion h
  | some v =>
    cases v with
    | vUndef => exact Except.noConfusion h
    | vObj o => injection h with h; try rw [← h]
    | vBool b => injection h with h; try rw [← h]
    | vInt i => injection h with h; try rw [← h]
    | vFlt b => injection h with h; try rw [← h]
    | vBig i => injection h with h; try rw [← h]
    | vStr t => injection h with h; try rw [← h]
    | vArr l => injection h with h; try rw [← h]

/-- The byte count a successful primitive scalar write occupies (the
per-branch byte counts of src/serde.ts 702-761, resolved on the slot
value). -/
def primSizeO (fld : MessageDefinitionField) (value : Option CbufValue) : Nat :=
  match fld.type with
  | "bool" | "uint8" | "int8" => 1
  | "uint16" | "int16" => 2
  | "uint32" | "int32" | "float32" => 4
  | "uint64" | "int64" | "float64" => 8
  | "string" =>
    match fld.upperBound with
    | none => 4 + strLenOf value
    | some ub => ub
  | _ => 0

theorem serChunkLen (value : Option CbufValue) (len : Nat) :
    (match value with
      | some (.vStr s) =>
        if 0 < utf16Len s then
          let tk := (utf8Str s).take len
          tk ++ List.replicate (len - tk.length) 0
        else List.replicate len 0
      | _ => List.replicate len 0).length = len := by
  cases value with
  | none => simp
  | some v =>
    cases v with
    | vBool b => simp
    | vInt i => simp
    | vFlt b => simp
    | vBig i => simp
    | vArr l => simp
    | vObj o => simp
    | vUndef => simp
    | vStr s =>
      dsimp only
      by_cases h : 0 < utf16Len s
      · rw [if_pos h]
        rw [List.length_append, List.length_replicate]
        have hle : ((utf8Str s).take len).length ≤ len := by
          rw [List.length_take]
          exact Nat.min_le_left len _
        exact Nat.add_sub_cancel' hle
      · rw [if_neg h]
        simp

/-- A successful primitive (non-complex) scalar write occupies exactly
`primSizeO` bytes, whatever the slot value. -/
theorem mkSerScalar_prim_length (M : NameSchemaMap)
    (prevSer : CbufMessageDefinition → List (String × CbufValue) →
      Except SerdeErr (List Nat))
    (prevSize : CbufMessageDefinition → List (String × CbufValue) → Except SerdeErr Nat)
    (nss : List String) (fld : MessageDefinitionField) (value : Option CbufValue)
    (bs : List Nat)
    (hC : fld.isComplex = false)
    (hser : mkSerScalar M prevSer prevSize nss fld value = .ok bs) :
    bs.length = primSizeO fld value := by
  unfold mkSerScalar at hser
  rw [if_neg (by simp [hC])] at hser
  split at hser
  case _ hty =>
    injection hser with h
    rw [← h]
    simp only [primSizeO, hty, String.reduceEq]
    exact intLE_length 1 _
  case _ hty =>
    injection hser with h
    rw [← h]
    simp only [primSizeO, hty, String.reduceEq]
    exact intLE_length 1 _
  case _ hty =>
    injection hser with h
    rw [← h]
    simp only [primSizeO, hty, String.reduceEq]
    exact intLE_length 1 _
  case _ hty =>
    injection hser with h
    rw [← h]
    simp only [primSizeO, hty, String.reduceEq]
    exact intLE_length 2 _
  case _ hty =>
    injection hser with h
    rw [← h]
    simp only [primSizeO, hty, String.reduceEq]
    exact intLE_length 2 _
  case _ hty =>
    injection hser with h
    rw [← h]
    simp only [primSizeO, hty, String.reduceEq]
    exact intLE_length 4 _
  case _ hty =>
    injection hser with h
    rw [← h]
    simp only [primSizeO, hty, String.reduceEq]
    exact intLE_length 4 _
  case _ hty =>
    injection hser with h
    rw [← h]
    simp only [primSizeO, hty, String.reduceEq]
    exact natLE_length 4 _
  case _ hty =>
    obtain ⟨i, hbig, h2⟩ := exBind_ok hser
    injection h2 with h
    rw [← h]
    simp only [primSizeO, hty, String.reduceEq]
    exact intLE_length 8 i
  case _ hty =>
    obtain ⟨i, hbig, h2⟩ := exBind_ok hser
    injection h2 with h
    rw [← h]
    simp only [primSizeO, hty, String.reduceEq]
    exact intLE_length 8 i
  case _ hty =>
    injection hser with h
    rw [← h]
    simp only [primSizeO, hty, String.reduceEq]
    exact natLE_length 8 _
  case _ hty =>
    cases hub : fld.upperBound with
    | none =>
      dsimp only at hser
      injection hser with h
      rw [← h]
      simp only [primSizeO, hty, String.reduceEq, hub]
      rw [List.length_append, natLE_length, serChunkLen]
    | some ub =>
      dsimp only at hser
      injection hser with h
      rw [← h]
      simp only [primSizeO, hty, String.reduceEq, hub]
      rw [List.nil_append, serChunkLen]
  case _ => exact Except.noConfusion hser

/-- A complex scalar write rejects an `undefined` slot (the property reads
of `serializeNakedMessage` throw on it). -/
theorem mkSerScalar_complex_none (M : NameSchemaMap)
    (prevSer : CbufMessageDefinition → List (String × CbufValue) →
      Except SerdeErr (List Nat))
    (prevSize : CbufMessageDefinition → List (String × CbufValue) → Except SerdeErr Nat)
    (nss : List String) (fld : MessageDefinitionField) (b : List Nat)
    (hC : fld.isComplex = true)
    (h : mkSerScalar M prevSer prevSize nss fld none = .ok b) : False := by
  unfold mkSerScalar at h
  rw [if_pos hC] at h
  obtain ⟨nested, _, h2⟩ := exBind_ok h
  obtain ⟨obj, hobj, _⟩ := exBind_ok h2
  exact Except.noConfusion hobj

theorem exList_ok_mem {α : Type} (g : α → Except SerdeErr (List Nat)) :
    ∀ (l : List α) (out : List Nat), exList g l = .ok out →
      ∀ a ∈ l, ∃ b, g a = .ok b := by
  intro l
  induction l with
  | nil => intro out _ a ha; cases ha
  | cons x rest ih =>
    intro out h a ha
    rw [exList] at h
    obtain ⟨b, hb, h2⟩ := exBind_ok h
    obtain ⟨r, hr, _⟩ := exBind_ok h2
    cases ha with
    | head => exact ⟨b, hb⟩
    | tail _ ha => exact ih r hr a ha

theorem exList_length_sum {α : Type} (g : α → Except SerdeErr (List Nat)) (h : α → Nat) :
    ∀ (l : List α) (out : List Nat),
      (∀ a ∈ l, ∀ b, g a = .ok b → b.length = h a) →
      exList g l = .ok out → out.length = (l.map h).sum := by
  intro l
  induction l with
  | nil =>
    intro out _ hx
    cases hx
    rfl
  | cons x rest ih =>
    intro out hlen hx
    rw [exList] at hx
    obtain ⟨b, hb, h2⟩ := exBind_ok hx
    obtain ⟨r, hr, h3⟩ := exBind_ok h2
    injection h3 with h3
    rw [← h3, List.length_append, List.map_cons, List.sum_cons]
    rw [hlen x (List.mem_cons_self x rest) b hb]
    rw [ih r (fun a ha b2 hb2 => hlen a (List.mem_cons_of_mem x ha) b2 hb2) hr]

theorem exList_exSum_le {α : Type} (g : α → Except SerdeErr (List Nat))
    (q : α → Except SerdeErr Nat) :
    ∀ (l : List α) (out : List Nat),
      (∀ a ∈ l, ∀ b, g a = .ok b → ∃ n, q a = .ok n ∧ n ≤ b.length) →
      exList g l = .ok out → ∃ s, exSum q l = .ok s ∧ s ≤ out.length := by
  intro l
  induction l with
  | nil =>
    intro out _ hx
    cases hx
    exact ⟨0, rfl, Nat.le_refl 0⟩
  | cons x rest ih =>
    intro out hq hx
    rw [exList] at hx
    obtain ⟨b, hb, h2⟩ := exBind_ok hx
    obtain ⟨r, hr, h3⟩ := exBind_ok h2
    injection h3 with h3
    obtain ⟨n, hn, hnle⟩ := hq x (List.mem_cons_self x rest) b hb
    obtain ⟨s, hs, hsle⟩ :=
      ih r (fun a ha b2 hb2 => hq a (List.mem_cons_of_mem x ha) b2 hb2) hr
    refine ⟨n + s, ?_, ?_⟩
    · rw [exSum, hn, exBind_ok_eq, hs, exBind_ok_eq]
    · rw [← h3, List.length_append]
      omega

theorem exList_map_some {α : Type} (g : Option α → Except SerdeErr (List Nat)) :
    ∀ (l : List α), exList g (l.map some) = exList (fun a => g (some a)) l := by
  intro l
  induction l with
  | nil => rfl
  | cons x rest ih => simp only [List.map_cons, exList, ih]

theorem sum_replicate_nat (k u : Nat) : (List.replicate k u).sum = k * u := by
  induction k with
  | zero => simp
  | succ k ih =>
    simp only [List.replicate_succ, List.sum_cons, ih]
    ring

theorem range_get_pad {α : Type} :
    ∀ (l : List α) (m : Nat), l.length ≤ m →
      (List.range m).map (fun i => l.get? i) =
        l.map some ++ List.replicate (m - l.length) none := by
  intro l
  induction l with
  | nil =>
    intro m _
    simp [List.get?]
  | cons a t ih =>
    intro m hm
    cases m with
    | zero => exact absurd hm (by simp)
    | succ m =>
      rw [List.range_succ_eq_map, List.map_cons, List.map_map]
      have hcomp : ((fun i => (a :: t).get? i) ∘ Nat.succ) = fun i => t.get? i := by
        funext i
        rfl
      rw [hcomp]
      rw [ih m (by simpa using hm)]
      simp
/-- A successful scalar write is charged at most its own byte count by the
size walk: exactly for primitives, and through the nested size (plus the
inner header when framed) for complex fields. -/
theorem scalar_size_le
    (M : NameSchemaMap)
    (prevFix : CbufMessageDefinition → List (String × CbufValue) → Bool)
    (prevSize : CbufMessageDefinition → List (String × CbufValue) → Except SerdeErr Nat)
    (prevSer : CbufMessageDefinition → List (String × CbufValue) →
      Except SerdeErr (List Nat))
    (IH : ∀ nested obj, prevFix nested obj = true → ∀ l, prevSer nested obj = .ok l →
      ∃ n, prevSize nested obj = .ok n ∧ n ≤ l.length)
    (nss : List String) (fld : MessageDefinitionField) (value : Option CbufValue)
    (bs : List Nat)
    (hser : mkSerScalar M prevSer prevSize nss fld value = .ok bs)
    (hfixc : fld.isComplex = true → ∀ nested, lookupMsgdef M nss fld.type = .ok nested →
      prevFix nested (asObjSize value) = true) :
    (fld.isComplex = true →
      ∃ nested n, lookupMsgdef M nss fld.type = .ok nested ∧
        prevSize nested (asObjSize value) = .ok n ∧
        n + (if nested.isNakedStruct then 0 else HEADER_SIZE) ≤ bs.length) ∧
    (fld.isComplex = false → bs.length = primSizeO fld value) := by
  constructor
  · intro hC
    unfold mkSerScalar at hser
    rw [if_pos hC] at hser
    obtain ⟨nested, hlk, h2⟩ := exBind_ok hser
    obtain ⟨obj, hobj, h3⟩ := exBind_ok h2
    have hobj2 : asObjSize value = obj := asObjSer_size value obj hobj
    have hfix := hfixc hC nested hlk
    rw [hobj2] at hfix
    by_cases hnk : nested.isNakedStruct = true
    · rw [if_pos hnk] at h3
      obtain ⟨n, hn, hle⟩ := IH nested obj hfix bs h3
      refine ⟨nested, n, hlk, ?_, ?_⟩
      · rw [hobj2]
        exact hn
      · rw [if_pos hnk]
        omega
    · rw [if_neg hnk] at h3
      obtain ⟨ns, hns, h4⟩ := exBind_ok h3
      obtain ⟨payload, hpl, h5⟩ := exBind_ok h4
      injection h5 with h5
      obtain ⟨n, hn, hle⟩ := IH nested obj hfix payload hpl
      have hnn : ns = n := by
        rw [hn] at hns
        injection hns with hns
        exact hns.symm
      refine ⟨nested, n, hlk, ?_, ?_⟩
      · rw [hobj2]
        exact hn
      · rw [if_neg hnk, ← h5]
        rw [List.length_append, List.length_append, List.length_append,
          List.length_append, natLE_length, natLE_length, natLE_length, natLE_length]
        have hH : HEADER_SIZE = 24 := rfl
        omega
  · intro hC
    exact mkSerScalar_prim_length M prevSer prevSize nss fld value bs hC hser
/-- One field of the walk is charged at most the bytes it emits, given the
field's `fixedOk` conjunct: exactly for primitive scalars and arrays, and
through the nested walks for complex values. -/
theorem field_size_le
    (M : NameSchemaMap)
    (prevFix : CbufMessageDefinition → List (String × CbufValue) → Bool)
    (prevSize : CbufMessageDefinition → List (String × CbufValue) → Except SerdeErr Nat)
    (prevSer : CbufMessageDefinition → List (String × CbufValue) →
      Except SerdeErr (List Nat))
    (IH : ∀ nested obj, prevFix nested obj = true → ∀ l, prevSer nested obj = .ok l →
      ∃ n, prevSize nested obj = .ok n ∧ n ≤ l.length)
    (nss : List String) (message : List (String × CbufValue))
    (fld : MessageDefinitionField) (bs : List Nat)
    (hfix :
      (fun fld =>
        let value := fieldValue message fld
        if fld.isArray then
          let arrayValue := asArr value
          decide (fld.isComplex = true → isPrimType fld.type = false) &&
          (match fld.arrayLength with
           | some m => decide (arrayValue.length ≤ m)
           | none => true) &&
          (if isPrimType fld.type then true
           else
             match lookupMsgdef M nss fld.type with
             | .ok nested => arrayValue.all (fun el => prevFix nested (asObjSize (some el)))
             | .error _ => true)
        else
          if fld.isComplex then
            match lookupMsgdef M nss fld.type with
            | .ok nested => prevFix nested (asObjSize value)
            | .error _ => true
          else true)
        fld = true)
    (hser :
      ((fun fld => do
        let value := fieldValue message fld
        if fld.isArray then
          let arrayValue := asArr value
          let pre : List Nat := match fld.arrayLength with
            | some _ => []
            | none => natLE 4 arrayValue.length
          let body ← exList (fun el => mkSerScalar M prevSer prevSize nss fld el)
            (elemSlots fld arrayValue)
          .ok (pre ++ body)
        else
          mkSerScalar M prevSer prevSize nss fld value) :
        MessageDefinitionField → Except SerdeErr (List Nat))
        fld = .ok bs) :
    ∃ n,
      ((fun fld => do
        let value := fieldValue message fld
        if fld.isArray then
          let arrayValue := asArr value
          let arrayLength := match fld.arrayLength with
            | some m => m
            | none => arrayValue.length
          let cnt : Nat := match fld.arrayLength with
            | some _ => 0
            | none => 4
          match fld.type with
          | "bool" | "uint8" | "int8" => .ok (cnt + arrayLength)
          | "uint16" | "int16" => .ok (cnt + arrayLength * 2)
          | "uint32" | "int32" | "float32" => .ok (cnt + arrayLength * 4)
          | "uint64" | "int64" | "float64" => .ok (cnt + arrayLength * 8)
          | "string" =>
            match fld.upperBound with
            | none => do
              let s ← exSum (fun el => .ok (strLenOf (some el))) arrayValue
              .ok (cnt + arrayLength * 4 + s)
            | some ub => .ok (cnt + arrayLength * ub)
          | _ =>
            if arrayValue.length > 0 then do
              let nested ← lookupMsgdef M nss fld.type
              let s ← exSum (fun el => prevSize nested (asObjSize (some el))) arrayValue
              .ok (cnt + s)
            else .ok cnt
        else
          if fld.isComplex then do
            let nested ← lookupMsgdef M nss fld.type
            let hdr := if nested.isNakedStruct then 0 else HEADER_SIZE
            let s ← prevSize nested (asObjSize value)
            .ok (hdr + s)
          else
            match fld.type with
            | "bool" | "uint8" | "int8" => .ok 1
            | "uint16" | "int16" => .ok 2
            | "uint32" | "int32" | "float32" => .ok 4
            | "uint64" | "int64" | "float64" => .ok 8
            | "string" =>
              match fld.upperBound with
              | none => .ok (4 + strLenOf value)
              | some ub => .ok ub
            | _ => .error .unsupportedType) :
        MessageDefinitionField → Except SerdeErr Nat)
        fld = .ok n ∧ n ≤ bs.length := by
  beta_reduce at hfix hser ⊢
  by_cases hA : fld.isArray = true
  · rw [if_pos hA] at hser
    obtain ⟨body, hbody, h2⟩ := exBind_ok hser
    injection h2 with h2
    rw [if_pos hA] at hfix
    simp only [Bool.and_eq_true] at hfix
    obtain ⟨⟨hcoh, hcnt⟩, htyfix⟩ := hfix
    rw [decide_eq_true_eq] at hcoh
    rw [if_pos hA]
    cases hal : fld.arrayLength with
    | some m =>
      rw [hal] at hcnt h2
      rw [decide_eq_true_eq] at hcnt
      dsimp only at h2
      rw [List.nil_append] at h2
      dsimp only
      have hsl : (elemSlots fld (asArr (fieldValue message fld))).length = m := by
        unfold elemSlots
        rw [hal]
        simp
      have hslotdec : elemSlots fld (asArr (fieldValue message fld)) =
          (asArr (fieldValue message fld)).map some ++
          List.replicate (m - (asArr (fieldValue message fld)).length) none := by
        unfold elemSlots
        rw [hal]
        exact range_get_pad _ m hcnt
      split
      case _ hty =>
        refine ⟨_, rfl, ?_⟩
        have hC : fld.isComplex = false := by
          by_cases hxx : fld.isComplex = true
          · exact absurd (hcoh hxx) (by rw [hty]; decide)
          · simpa using hxx
        have hlen := exList_length_sum
          (fun el => mkSerScalar M prevSer prevSize nss fld el)
          (fun slot => primSizeO fld slot) _ body
          (fun a ha b hb =>
            mkSerScalar_prim_length M prevSer prevSize nss fld a b hC hb) hbody
        have hmap : (elemSlots fld (asArr (fieldValue message fld))).map
            (fun slot => primSizeO fld slot) =
            (elemSlots fld (asArr (fieldValue message fld))).map (fun _ => 1) :=
          List.map_congr_left (fun a ha => by
            simp only [primSizeO, hty, String.reduceEq])
        rw [← h2, hlen, hmap, map_const_sum]
        omega
      case _ hty =>
        refine ⟨_, rfl, ?_⟩
        have hC : fld.isComplex = false := by
          by_cases hxx : fld.isComplex = true
          · exact absurd (hcoh hxx) (by rw [hty]; decide)
          · simpa using hxx
        have hlen := exList_length_sum
          (fun el => mkSerScalar M prevSer prevSize nss fld el)
          (fun slot => primSizeO fld slot) _ body
          (fun a ha b hb =>
            mkSerScalar_prim_length M prevSer prevSize nss fld a b hC hb) hbody
        have hmap : (elemSlots fld (asArr (fieldValue message fld))).map
            (fun slot => primSizeO fld slot) =
            (elemSlots fld (asArr (fieldValue message fld))).map (fun _ => 1) :=
          List.map_congr_left (fun a ha => by
            simp only [primSizeO, hty, String.reduceEq])
        rw [← h2, hlen, hmap, map_const_sum]
        omega
      case _ hty =>
        refine ⟨_, rfl, ?_⟩
        have hC : fld.isComplex = false := by
          by_cases hxx : fld.isComplex = true
          · exact absurd (hcoh hxx) (by rw [hty]; decide)
          · simpa using hxx
        have hlen := exList_length_sum
          (fun el => mkSerScalar M prevSer prevSize nss fld el)
          (fun slot => primSizeO fld slot) _ body
          (fun a ha b hb =>
            mkSerScalar_prim_length M prevSer prevSize nss fld a b hC hb) hbody
        have hmap : (elemSlots fld (asArr (fieldValue message fld))).map
            (fun slot => primSizeO fld slot) =
            (elemSlots fld (asArr (fieldValue message fld))).map (fun _ => 1) :=
          List.map_congr_left (fun a ha => by
            simp only [primSizeO, hty, String.reduceEq])
        rw [← h2, hlen, hmap, map_const_sum]
        omega
      case _ hty =>
        refine ⟨_, rfl, ?_⟩
        have hC : fld.isComplex = false := by
          by_cases hxx : fld.isComplex = true
          · exact absurd (hcoh hxx) (by rw [hty]; decide)
          · simpa using hxx
        have hlen := exList_length_sum
          (fun el => mkSerScalar M prevSer prevSize nss fld el)
          (fun slot => primSizeO fld slot) _ body
          (fun a ha b hb =>
            mkSerScalar_prim_length M prevSer prevSize nss fld a b hC hb) hbody
        have hmap : (elemSlots fld (asArr (fieldValue message fld))).map
            (fun slot => primSizeO fld slot) =
            (elemSlots fld (asArr (fieldValue message fld))).map (fun _ => 2) :=
          List.map_congr_left (fun a ha => by
            simp only [primSizeO, hty, String.reduceEq])
        rw [← h2, hlen, hmap, map_const_sum]
        omega
      case _ hty =>
        refine ⟨_, rfl, ?_⟩
        have hC : fld.isComplex = false := by
          by_cases hxx : fld.isComplex = true
          · exact absurd (hcoh hxx) (by rw [hty]; decide)
          · simpa using hxx
        have hlen := exList_length_sum
          (fun el => mkSerScalar M prevSer prevSize nss fld el)
          (fun slot => primSizeO fld slot) _ body
          (fun a ha b hb =>
            mkSerScalar_prim_length M prevSer prevSize nss fld a b hC hb) hbody
        have hmap : (elemSlots fld (asArr (fieldValue message fld))).map
            (fun slot => primSizeO fld slot) =
            (elemSlots fld (asArr (fieldValue message fld))).map (fun _ => 2) :=
          List.map_congr_left (fun a ha => by
            simp only [primSizeO, hty, String.reduceEq])
        rw [← h2, hlen, hmap, map_const_sum]
        omega
      case _ hty =>
        refine ⟨_, rfl, ?_⟩
        have hC : fld.isComplex = false := by
          by_cases hxx : fld.isComplex = true
          · exact absurd (hcoh hxx) (by rw [hty]; decide)
          · simpa using hxx
        have hlen := exList_length_sum
          (fun el => mkSerScalar M prevSer prevSize nss fld el)
          (fun slot => primSizeO fld slot) _ body
          (fun a ha b hb =>
            mkSerScalar_prim_length M prevSer prevSize nss fld a b hC hb) hbody
        have hmap : (elemSlots fld (asArr (fieldValue message fld))).map
            (fun slot => primSizeO fld slot) =
            (elemSlots fld (asArr (fieldValue message fld))).map (fun _ => 4) :=
          List.map_congr_left (fun a ha => by
            simp only [primSizeO, hty, String.reduceEq])
        rw [← h2, hlen, hmap, map_const_sum]
        omega
      case _ hty =>
        refine ⟨_, rfl, ?_⟩
        have hC : fld.isComplex = false := by
          by_cases hxx : fld.isComplex = true
          · exact absurd (hcoh hxx) (by rw [hty]; decide)
          · simpa using hxx
        have hlen := exList_length_sum
          (fun el => mkSerScalar M prevSer prevSize nss fld el)
          (fun slot => primSizeO fld slot) _ body
          (fun a ha b hb =>
            mkSerScalar_prim_length M prevSer prevSize nss fld a b hC hb) hbody
        have hmap : (elemSlots fld (asArr (fieldValue message fld))).map
            (fun slot => primSizeO fld slot) =
            (elemSlots fld (asArr (fieldValue message fld))).map (fun _ => 4) :=
          List.map_congr_left (fun a ha => by
            simp only [primSizeO, hty, String.reduceEq])
        rw [← h2, hlen, hmap, map_const_sum]
        omega
      case _ hty =>
        refine ⟨_, rfl, ?_⟩
        have hC : fld.isComplex = false := by
          by_cases hxx : fld.isComplex = true
          · exact absurd (hcoh hxx) (by rw [hty]; decide)
          · simpa using hxx
        have hlen := exList_length_sum
          (fun el => mkSerScalar M prevSer prevSize nss fld el)
          (fun slot => primSizeO fld slot) _ body
          (fun a ha b hb =>
            mkSerScalar_prim_length M prevSer prevSize nss fld a b hC hb) hbody
        have hmap : (elemSlots fld (asArr (fieldValue message fld))).map
            (fun slot => primSizeO fld slot) =
            (elemSlots fld (asArr (fieldValue message fld))).map (fun _ => 4) :=
          List.map_congr_left (fun a ha => by
            simp only [primSizeO, hty, String.reduceEq])
        rw [← h2, hlen, hmap, map_const_sum]
        omega
      case _ hty =>
        refine ⟨_, rfl, ?_⟩
        have hC : fld.isComplex = false := by
          by_cases hxx : fld.isComplex = true
          · exact absurd (hcoh hxx) (by rw [hty]; decide)
          · simpa using hxx
        have hlen := exList_length_sum
          (fun el => mkSerScalar M prevSer prevSize nss fld el)
          (fun slot => primSizeO fld slot) _ body
          (fun a ha b hb =>
            mkSerScalar_prim_length M prevSer prevSize nss fld a b hC hb) hbody
        have hmap : (elemSlots fld (asArr (fieldValue message fld))).map
            (fun slot => primSizeO fld slot) =
            (elemSlots fld (asArr (fieldValue message fld))).map (fun _ => 8) :=
          List.map_congr_left (fun a ha => by
            simp only [primSizeO, hty, String.reduceEq])
        rw [← h2, hlen, hmap, map_const_sum]
        omega
      case _ hty =>
        refine ⟨_, rfl, ?_⟩
        have hC : fld.isComplex = false := by
          by_cases hxx : fld.isComplex = true
          · exact absurd (hcoh hxx) (by rw [hty]; decide)
          · simpa using hxx
        have hlen := exList_length_sum
          (fun el => mkSerScalar M prevSer prevSize nss fld el)
          (fun slot => primSizeO fld slot) _ body
          (fun a ha b hb =>
            mkSerScalar_prim_length M prevSer prevSize nss fld a b hC hb) hbody
        have hmap : (elemSlots fld (asArr (fieldValue message fld))).map
            (fun slot => primSizeO fld slot) =
            (elemSlots fld (asArr (fieldValue message fld))).map (fun _ => 8) :=
          List.map_congr_left (fun a ha => by
            simp only [primSizeO, hty, String.reduceEq])
        rw [← h2, hlen, hmap, map_const_sum]
        omega
      case _ hty =>
        refine ⟨_, rfl, ?_⟩
        have hC : fld.isComplex = false := by
          by_cases hxx : fld.isComplex = true
          · exact absurd (hcoh hxx) (by rw [hty]; decide)
          · simpa using hxx
        have hlen := exList_length_sum
          (fun el => mkSerScalar M prevSer prevSize nss fld el)
          (fun slot => primSizeO fld slot) _ body
          (fun a ha b hb =>
            mkSerScalar_prim_length M prevSer prevSize nss fld a b hC hb) hbody
        have hmap : (elemSlots fld (asArr (fieldValue message fld))).map
            (fun slot => primSizeO fld slot) =
            (elemSlots fld (asArr (fieldValue message fld))).map (fun _ => 8) :=
          List.map_congr_left (fun a ha => by
            simp only [primSizeO, hty, String.reduceEq])
        rw [← h2, hlen, hmap, map_const_sum]
        omega
      case _ hty =>
        have hC : fld.isComplex = false := by
          by_cases hxx : fld.isComplex = true
          · exact absurd (hcoh hxx) (by rw [hty]; decide)
          · simpa using hxx
        have hlen := exList_length_sum
          (fun el => mkSerScalar M prevSer prevSize nss fld el)
          (fun slot => primSizeO fld slot) _ body
          (fun a ha b hb =>
            mkSerScalar_prim_length M prevSer prevSize nss fld a b hC hb) hbody
        cases hub : fld.upperBound with
        | some ub =>
          dsimp only
          refine ⟨_, rfl, ?_⟩
          have hmap : (elemSlots fld (asArr (fieldValue message fld))).map
              (fun slot => primSizeO fld slot) =
              (elemSlots fld (asArr (fieldValue message fld))).map (fun _ => ub) :=
            List.map_congr_left (fun a ha => by
              simp only [primSizeO, hty, String.reduceEq, hub])
          rw [← h2, hlen, hmap, map_const_sum, hsl]
          omega
        | none =>
          dsimp only
          rw [exSum_of_ok (fun el => .ok (strLenOf (some el)))
            (fun el => strLenOf (some el)) _ (fun a ha => rfl), exBind_ok_eq]
          refine ⟨_, rfl, ?_⟩
          have hmap : (elemSlots fld (asArr (fieldValue message fld))).map
              (fun slot => primSizeO fld slot) =
              (elemSlots fld (asArr (fieldValue message fld))).map
                (fun slot => 4 + strLenOf slot) :=
            List.map_congr_left (fun a ha => by
              simp only [primSizeO, hty, String.reduceEq, hub])
          rw [← h2, hlen, hmap, hslotdec, List.map_append, List.sum_append,
            List.map_map]
          rw [show ((fun slot => 4 + strLenOf slot) ∘ some) =
            (fun el => 4 + strLenOf (some el)) from rfl]
          rw [sum_map_add (fun _ => 4) (fun el => strLenOf (some el)) _,
            map_const_sum, List.map_replicate]
          simp only [show (4 + strLenOf (none : Option CbufValue)) = 4 from rfl]
          rw [sum_replicate_nat]
          omega
      case _ =>
        have hprimF : isPrimType fld.type = false := by
          unfold isPrimType
          split <;> simp_all
        by_cases hC : fld.isComplex = true
        · rw [if_neg (by simp [hprimF])] at htyfix
          cases hlk : lookupMsgdef M nss fld.type with
          | error e =>
            cases helems : asArr (fieldValue message fld) with
            | nil =>
              rw [if_neg (by simp)]
              refine ⟨_, rfl, ?_⟩
              rw [← h2]
              omega
            | cons e0 tl =>
              exfalso
              have hmem : (some e0) ∈ elemSlots fld (asArr (fieldValue message fld)) := by
                  unfold elemSlots
                  rw [hal]
                  have h0m : 0 < m :=
                    Nat.lt_of_lt_of_le (by rw [helems]; simp) hcnt
                  have hg : (asArr (fieldValue message fld)).get? 0 = some e0 := by
                    rw [helems]
                    rfl
                  rw [← hg]
                  exact List.mem_map_of_mem _ (List.mem_range.mpr h0m)
              obtain ⟨b, hb⟩ := exList_ok_mem _ _ body hbody (some e0) hmem
              unfold mkSerScalar at hb
              rw [if_pos hC] at hb
              obtain ⟨nested, hlk2, _⟩ := exBind_ok hb
              rw [hlk] at hlk2
              exact Except.noConfusion hlk2
          | ok nested =>
            rw [hlk] at htyfix
            dsimp only at htyfix
            cases helems : asArr (fieldValue message fld) with
            | nil =>
              rw [if_neg (by simp)]
              refine ⟨_, rfl, ?_⟩
              rw [← h2]
              omega
            | cons e0 tl =>
              rw [helems] at htyfix hbody hcnt
              rw [if_pos (by simp), exBind_ok_eq]
              beta_reduce
              have hslots2 : elemSlots fld (e0 :: tl) =
                  (e0 :: tl).map some := by
                  have hm : m = (e0 :: tl).length := by
                    rcases Nat.lt_or_ge (e0 :: tl).length m with hlt | hge
                    · exfalso
                      have hmemn : (none : Option CbufValue) ∈ elemSlots fld (e0 :: tl) := by
                        unfold elemSlots
                        rw [hal]
                        have hg : (e0 :: tl).get? (e0 :: tl).length = none :=
                          List.get?_eq_none.mpr (Nat.le_refl _)
                        rw [← hg]
                        exact List.mem_map_of_mem _ (List.mem_range.mpr hlt)
                      obtain ⟨b, hb⟩ := exList_ok_mem _ _ body hbody none hmemn
                      exact mkSerScalar_complex_none M prevSer prevSize nss fld b hC hb
                    · omega
                  unfold elemSlots
                  rw [hal]
                  dsimp only
                  rw [hm, range_get_pad (e0 :: tl) _ (Nat.le_refl _)]
                  simp
              rw [hslots2, exList_map_some] at hbody
              have hq : ∀ el ∈ (e0 :: tl), ∀ b,
                  mkSerScalar M prevSer prevSize nss fld (some el) = .ok b →
                  ∃ n, prevSize nested (asObjSize (some el)) = .ok n ∧
                    n ≤ b.length := by
                intro el hel b hb
                have hfixel : fld.isComplex = true →
                    ∀ nested2, lookupMsgdef M nss fld.type = .ok nested2 →
                    prevFix nested2 (asObjSize (some el)) = true := by
                  intro _ nested2 hlk2
                  rw [hlk] at hlk2
                  injection hlk2 with he
                  rw [← he]
                  exact List.all_eq_true.mp htyfix el hel
                obtain ⟨hcx, _⟩ := scalar_size_le M prevFix prevSize prevSer IH
                  nss fld (some el) b hb hfixel
                obtain ⟨nested2, n, hlk2, hn, hle2⟩ := hcx hC
                rw [hlk] at hlk2
                injection hlk2 with he
                rw [← he] at hn
                exact ⟨n, hn, by omega⟩
              obtain ⟨s, hs, hsle⟩ := exList_exSum_le _ _ (e0 :: tl) body hq hbody
              rw [hs, exBind_ok_eq]
              refine ⟨_, rfl, ?_⟩
              rw [← h2]
              omega
        · have hCF : fld.isComplex = false := by simpa using hC
          have hnoslot : ∀ slot ∈ elemSlots fld (asArr (fieldValue message fld)),
              False := by
            intro slot hslot
            obtain ⟨b, hb⟩ := exList_ok_mem _ _ body hbody slot hslot
            unfold mkSerScalar at hb
            rw [if_neg (by simp [hCF])] at hb
            split at hb
            all_goals first | exact Except.noConfusion hb | simp_all
          have hm0 : m = 0 := by
            by_contra hm0
            exact hnoslot ((asArr (fieldValue message fld)).get? 0) (by
              unfold elemSlots
              rw [hal]
              exact List.mem_map_of_mem _ (List.mem_range.mpr (by omega)))
          have hlen0 : (asArr (fieldValue message fld)).length = 0 := by omega
          rw [if_neg (by omega)]
          refine ⟨_, rfl, ?_⟩
          rw [← h2]
          omega
    | none =>
      rw [hal] at h2
      dsimp only at h2
      dsimp only
      have hsl : (elemSlots fld (asArr (fieldValue message fld))).length =
          (asArr (fieldValue message fld)).length := by
        unfold elemSlots
        rw [hal]
        simp
      have hslotdec : elemSlots fld (asArr (fieldValue message fld)) =
          (asArr (fieldValue message fld)).map some := by
        unfold elemSlots
        rw [hal]
      split
      case _ hty =>
        refine ⟨_, rfl, ?_⟩
        have hC : fld.isComplex = false := by
          by_cases hxx : fld.isComplex = true
          · exact absurd (hcoh hxx) (by rw [hty]; decide)
          · simpa using hxx
        have hlen := exList_length_sum
          (fun el => mkSerScalar M prevSer prevSize nss fld el)
          (fun slot => primSizeO fld slot) _ body
          (fun a ha b hb =>
            mkSerScalar_prim_length M prevSer prevSize nss fld a b hC hb) hbody
        have hmap : (elemSlots fld (asArr (fieldValue message fld))).map
            (fun slot => primSizeO fld slot) =
            (elemSlots fld (asArr (fieldValue message fld))).map (fun _ => 1) :=
          List.map_congr_left (fun a ha => by
            simp only [primSizeO, hty, String.reduceEq])
        rw [← h2, List.length_append, natLE_length, hlen, hmap, map_const_sum]
        omega
      case _ hty =>
        refine ⟨_, rfl, ?_⟩
        have hC : fld.isComplex = false := by
          by_cases hxx : fld.isComplex = true
          · exact absurd (hcoh hxx) (by rw [hty]; decide)
          · simpa using hxx
        have hlen := exList_length_sum
          (fun el => mkSerScalar M prevSer prevSize nss fld el)
          (fun slot => primSizeO fld slot) _ body
          (fun a ha b hb =>
            mkSerScalar_prim_length M prevSer prevSize nss fld a b hC hb) hbody
        have hmap : (elemSlots fld (asArr (fieldValue message fld))).map
            (fun slot => primSizeO fld slot) =
            (elemSlots fld (asArr (fieldValue message fld))).map (fun _ => 1) :=
          List.map_congr_left (fun a ha => by
            simp only [primSizeO, hty, String.reduceEq])
        rw [← h2, List.length_append, natLE_length, hlen, hmap, map_const_sum]
        omega
      case _ hty =>
        refine ⟨_, rfl, ?_⟩
        have hC : fld.isComplex = false := by
          by_cases hxx : fld.isComplex = true
          · exact absurd (hcoh hxx) (by rw [hty]; decide)
          · simpa using hxx
        have hlen := exList_length_sum
          (fun el => mkSerScalar M prevSer prevSize nss fld el)
          (fun slot => primSizeO fld slot) _ body
          (fun a ha b hb =>
            mkSerScalar_prim_length M prevSer prevSize nss fld a b hC hb) hbody
        have hmap : (elemSlots fld (asArr (fieldValue message fld))).map
            (fun slot => primSizeO fld slot) =
            (elemSlots fld (asArr (fieldValue message fld))).map (fun _ => 1) :=
          List.map_congr_left (fun a ha => by
            simp only [primSizeO, hty, String.reduceEq])
        rw [← h2, List.length_append, natLE_length, hlen, hmap, map_const_sum]
        omega
      case _ hty =>
        refine ⟨_, rfl, ?_⟩
        have hC : fld.isComplex = false := by
          by_cases hxx : fld.isComplex = true
          · exact absurd (hcoh hxx) (by rw [hty]; decide)
          · simpa using hxx
        have hlen := exList_length_sum
          (fun el => mkSerScalar M prevSer prevSize nss fld el)
          (fun slot => primSizeO fld slot) _ body
          (fun a ha b hb =>
            mkSerScalar_prim_length M prevSer prevSize nss fld a b hC hb) hbody
        have hmap : (elemSlots fld (asArr (fieldValue message fld))).map
            (fun slot => primSizeO fld slot) =
            (elemSlots fld (asArr (fieldValue message fld))).map (fun _ => 2) :=
          List.map_congr_left (fun a ha => by
            simp only [primSizeO, hty, String.reduceEq])
        rw [← h2, List.length_append, natLE_length, hlen, hmap, map_const_sum]
        omega
      case _ hty =>
        refine ⟨_, rfl, ?_⟩
        have hC : fld.isComplex = false := by
          by_cases hxx : fld.isComplex = true
          · exact absurd (hcoh hxx) (by rw [hty]; decide)
          · simpa using hxx
        have hlen := exList_length_sum
          (fun el => mkSerScalar M prevSer prevSize nss fld el)
          (fun slot => primSizeO fld slot) _ body
          (fun a ha b hb =>
            mkSerScalar_prim_length M prevSer prevSize nss fld a b hC hb) hbody
        have hmap : (elemSlots fld (asArr (fieldValue message fld))).map
            (fun slot => primSizeO fld slot) =
            (elemSlots fld (asArr (fieldValue message fld))).map (fun _ => 2) :=
          List.map_congr_left (fun a ha => by
            simp only [primSizeO, hty, String.reduceEq])
        rw [← h2, List.length_append, natLE_length, hlen, hmap, map_const_sum]
        omega
      case _ hty =>
        refine ⟨_, rfl, ?_⟩
        have hC : fld.isComplex = false := by
          by_cases hxx : fld.isComplex = true
          · exact absurd (hcoh hxx) (by rw [hty]; decide)
          · simpa using hxx
        have hlen := exList_length_sum
          (fun el => mkSerScalar M prevSer prevSize nss fld el)
          (fun slot => primSizeO fld slot) _ body
          (fun a ha b hb =>
            mkSerScalar_prim_length M prevSer prevSize nss fld a b hC hb) hbody
        have hmap : (elemSlots fld (asArr (fieldValue message fld))).map
            (fun slot => primSizeO fld slot) =
            (elemSlots fld (asArr (fieldValue message fld))).map (fun _ => 4) :=
          List.map_congr_left (fun a ha => by
            simp only [primSizeO, hty, String.reduceEq])
        rw [← h2, List.length_append, natLE_length, hlen, hmap, map_const_sum]
        omega
      case _ hty =>
        refine ⟨_, rfl, ?_⟩
        have hC : fld.isComplex = false := by
          by_cases hxx : fld.isComplex = true
          · exact absurd (hcoh hxx) (by rw [hty]; decide)
          · simpa using hxx
        have hlen := exList_length_sum
          (fun el => mkSerScalar M prevSer prevSize nss fld el)
          (fun slot => primSizeO fld slot) _ body
          (fun a ha b hb =>
            mkSerScalar_prim_length M prevSer prevSize nss fld a b hC hb) hbody
        have hmap : (elemSlots fld (asArr (fieldValue message fld))).map
            (fun slot => primSizeO fld slot) =
            (elemSlots fld (asArr (fieldValue message fld))).map (fun _ => 4) :=
          List.map_congr_left (fun a ha => by
            simp only [primSizeO, hty, String.reduceEq])
        rw [← h2, List.length_append, natLE_length, hlen, hmap, map_const_sum]
        omega
      case _ hty =>
        refine ⟨_, rfl, ?_⟩
        have hC : fld.isComplex = false := by
          by_cases hxx : fld.isComplex = true
          · exact absurd (hcoh hxx) (by rw [hty]; decide)
          · simpa using hxx
        have hlen := exList_length_sum
          (fun el => mkSerScalar M prevSer prevSize nss fld el)
          (fun slot => primSizeO fld slot) _ body
          (fun a ha b hb =>
            mkSerScalar_prim_length M prevSer prevSize nss fld a b hC hb) hbody
        have hmap : (elemSlots fld (asArr (fieldValue message fld))).map
            (fun slot => primSizeO fld slot) =
            (elemSlots fld (asArr (fieldValue message fld))).map (fun _ => 4) :=
          List.map_congr_left (fun a ha => by
            simp only [primSizeO, hty, String.reduceEq])
        rw [← h2, List.length_append, natLE_length, hlen, hmap, map_const_sum]
        omega
      case _ hty =>
        refine ⟨_, rfl, ?_⟩
        have hC : fld.isComplex = false := by
          by_cases hxx : fld.isComplex = true
          · exact absurd (hcoh hxx) (by rw [hty]; decide)
          · simpa using hxx
        have hlen := exList_length_sum
          (fun el => mkSerScalar M prevSer prevSize nss fld el)
          (fun slot => primSizeO fld slot) _ body
          (fun a ha b hb =>
            mkSerScalar_prim_length M prevSer prevSize nss fld a b hC hb) hbody
        have hmap : (elemSlots fld (asArr (fieldValue message fld))).map
            (fun slot => primSizeO fld slot) =
            (elemSlots fld (asArr (fieldValue message fld))).map (fun _ => 8) :=
          List.map_congr_left (fun a ha => by
            simp only [primSizeO, hty, String.reduceEq])
        rw [← h2, List.length_append, natLE_length, hlen, hmap, map_const_sum]
        omega
      case _ hty =>
        refine ⟨_, rfl, ?_⟩
        have hC : fld.isComplex = false := by
          by_cases hxx : fld.isComplex = true
          · exact absurd (hcoh hxx) (by rw [hty]; decide)
          · simpa using hxx
        have hlen := exList_length_sum
          (fun el => mkSerScalar M prevSer prevSize nss fld el)
          (fun slot => primSizeO fld slot) _ body
          (fun a ha b hb =>
            mkSerScalar_prim_length M prevSer prevSize nss fld a b hC hb) hbody
        have hmap : (elemSlots fld (asArr (fieldValue message fld))).map
            (fun slot => primSizeO fld slot) =
            (elemSlots fld (asArr (fieldValue message fld))).map (fun _ => 8) :=
          List.map_congr_left (fun a ha => by
            simp only [primSizeO, hty, String.reduceEq])
        rw [← h2, List.length_append, natLE_length, hlen, hmap, map_const_sum]
        omega
      case _ hty =>
        refine ⟨_, rfl, ?_⟩
        have hC : fld.isComplex = false := by
          by_cases hxx : fld.isComplex = true
          · exact absurd (hcoh hxx) (by rw [hty]; decide)
          · simpa using hxx
        have hlen := exList_length_sum
          (fun el => mkSerScalar M prevSer prevSize nss fld el)
          (fun slot => primSizeO fld slot) _ body
          (fun a ha b hb =>
            mkSerScalar_prim_length M prevSer prevSize nss fld a b hC hb) hbody
        have hmap : (elemSlots fld (asArr (fieldValue message fld))).map
            (fun slot => primSizeO fld slot) =
            (elemSlots fld (asArr (fieldValue message fld))).map (fun _ => 8) :=
          List.map_congr_left (fun a ha => by
            simp only [primSizeO, hty, String.reduceEq])
        rw [← h2, List.length_append, natLE_length, hlen, hmap, map_const_sum]
        omega
      case _ hty =>
        have hC : fld.isComplex = false := by
          by_cases hxx : fld.isComplex = true
          · exact absurd (hcoh hxx) (by rw [hty]; decide)
          · simpa using hxx
        have hlen := exList_length_sum
          (fun el => mkSerScalar M prevSer prevSize nss fld el)
          (fun slot => primSizeO fld slot) _ body
          (fun a ha b hb =>
            mkSerScalar_prim_length M prevSer prevSize nss fld a b hC hb) hbody
        cases hub : fld.upperBound with
        | some ub =>
          dsimp only
          refine ⟨_, rfl, ?_⟩
          have hmap : (elemSlots fld (asArr (fieldValue message fld))).map
              (fun slot => primSizeO fld slot) =
              (elemSlots fld (asArr (fieldValue message fld))).map (fun _ => ub) :=
            List.map_congr_left (fun a ha => by
              simp only [primSizeO, hty, String.reduceEq, hub])
          rw [← h2, List.length_append, natLE_length, hlen, hmap, map_const_sum,
            hsl]
        | none =>
          dsimp only
          rw [exSum_of_ok (fun el => .ok (strLenOf (some el)))
            (fun el => strLenOf (some el)) _ (fun a ha => rfl), exBind_ok_eq]
          refine ⟨_, rfl, ?_⟩
          have hmap : (elemSlots fld (asArr (fieldValue message fld))).map
              (fun slot => primSizeO fld slot) =
              (elemSlots fld (asArr (fieldValue message fld))).map
                (fun slot => 4 + strLenOf slot) :=
            List.map_congr_left (fun a ha => by
              simp only [primSizeO, hty, String.reduceEq, hub])
          rw [← h2, List.length_append, natLE_length, hlen, hmap, hslotdec,
            List.map_map]
          rw [show ((fun slot => 4 + strLenOf slot) ∘ some) =
            (fun el => 4 + strLenOf (some el)) from rfl]
          rw [sum_map_add (fun _ => 4) (fun el => strLenOf (some el)) _,
            map_const_sum]
          omega
      case _ =>
        have hprimF : isPrimType fld.type = false := by
          unfold isPrimType
          split <;> simp_all
        by_cases hC : fld.isComplex = true
        · rw [if_neg (by simp [hprimF])] at htyfix
          cases hlk : lookupMsgdef M nss fld.type with
          | error e =>
            cases helems : asArr (fieldValue message fld) with
            | nil =>
              rw [if_neg (by simp)]
              refine ⟨_, rfl, ?_⟩
              rw [← h2, List.length_append, natLE_length]
              omega
            | cons e0 tl =>
              exfalso
              have hmem : (some e0) ∈ elemSlots fld (asArr (fieldValue message fld)) := by
                  unfold elemSlots
                  rw [hal]
                  dsimp only
                  rw [helems]
                  exact List.mem_map_of_mem some (List.mem_cons_self e0 tl)
              obtain ⟨b, hb⟩ := exList_ok_mem _ _ body hbody (some e0) hmem
              unfold mkSerScalar at hb
              rw [if_pos hC] at hb
              obtain ⟨nested, hlk2, _⟩ := exBind_ok hb
              rw [hlk] at hlk2
              exact Except.noConfusion hlk2
          | ok nested =>
            rw [hlk] at htyfix
            dsimp only at htyfix
            cases helems : asArr (fieldValue message fld) with
            | nil =>
              rw [if_neg (by simp)]
              refine ⟨_, rfl, ?_⟩
              rw [← h2, List.length_append, natLE_length]
              omega
            | cons e0 tl =>
              rw [helems] at htyfix hbody
              rw [if_pos (by simp), exBind_ok_eq]
              beta_reduce
              have hslots2 : elemSlots fld (e0 :: tl) =
                  (e0 :: tl).map some := by
                  unfold elemSlots
                  rw [hal]
              rw [hslots2, exList_map_some] at hbody
              have hq : ∀ el ∈ (e0 :: tl), ∀ b,
                  mkSerScalar M prevSer prevSize nss fld (some el) = .ok b →
                  ∃ n, prevSize nested (asObjSize (some el)) = .ok n ∧
                    n ≤ b.length := by
                intro el hel b hb
                have hfixel : fld.isComplex = true →
                    ∀ nested2, lookupMsgdef M nss fld.type = .ok nested2 →
                    prevFix nested2 (asObjSize (some el)) = true := by
                  intro _ nested2 hlk2
                  rw [hlk] at hlk2
                  injection hlk2 with he
                  rw [← he]
                  exact List.all_eq_true.mp htyfix el hel
                obtain ⟨hcx, _⟩ := scalar_size_le M prevFix prevSize prevSer IH
                  nss fld (some el) b hb hfixel
                obtain ⟨nested2, n, hlk2, hn, hle2⟩ := hcx hC
                rw [hlk] at hlk2
                injection hlk2 with he
                rw [← he] at hn
                exact ⟨n, hn, by omega⟩
              obtain ⟨s, hs, hsle⟩ := exList_exSum_le _ _ (e0 :: tl) body hq hbody
              rw [hs, exBind_ok_eq]
              refine ⟨_, rfl, ?_⟩
              rw [← h2, List.length_append, natLE_length]
              omega
        · have hCF : fld.isComplex = false := by simpa using hC
          have hnoslot : ∀ slot ∈ elemSlots fld (asArr (fieldValue message fld)),
              False := by
            intro slot hslot
            obtain ⟨b, hb⟩ := exList_ok_mem _ _ body hbody slot hslot
            unfold mkSerScalar at hb
            rw [if_neg (by simp [hCF])] at hb
            split at hb
            all_goals first | exact Except.noConfusion hb | simp_all
          have hlen0 : (asArr (fieldValue message fld)).length = 0 := by
            cases hx : asArr (fieldValue message fld) with
            | nil => rfl
            | cons e0 tl =>
              exact (hnoslot (some e0) (by
                unfold elemSlots
                rw [hal, hx]
                exact List.mem_map_of_mem some (List.mem_cons_self e0 tl))).elim
          rw [if_neg (by omega)]
          refine ⟨_, rfl, ?_⟩
          rw [← h2, List.length_append, natLE_length]
          omega
  · rw [if_neg hA] at hser hfix
    rw [if_neg hA]
    by_cases hC : fld.isComplex = true
    · rw [if_pos hC] at hfix
      rw [if_pos hC]
      have hfixc : fld.isComplex = true →
          ∀ nested, lookupMsgdef M nss fld.type = .ok nested →
          prevFix nested (asObjSize (fieldValue message fld)) = true := by
        intro _ nested hlk
        rw [hlk] at hfix
        exact hfix
      obtain ⟨hcx, _⟩ := scalar_size_le M prevFix prevSize prevSer IH nss fld
        (fieldValue message fld) bs hser hfixc
      obtain ⟨nested, n, hlk, hn, hle⟩ := hcx hC
      rw [hlk, exBind_ok_eq]
      dsimp only
      rw [hn, exBind_ok_eq]
      refine ⟨_, rfl, ?_⟩
      omega
    · rw [if_neg hC]
      have hCF : fld.isComplex = false := by simpa using hC
      have hlen := mkSerScalar_prim_length M prevSer prevSize nss fld
        (fieldValue message fld) bs hCF hser
      split
      case _ hty =>
        refine ⟨_, rfl, ?_⟩
        simp only [primSizeO, hty, String.reduceEq] at hlen
        omega
      case _ hty =>
        refine ⟨_, rfl, ?_⟩
        simp only [primSizeO, hty, String.reduceEq] at hlen
        omega
      case _ hty =>
        refine ⟨_, rfl, ?_⟩
        simp only [primSizeO, hty, String.reduceEq] at hlen
        omega
      case _ hty =>
        refine ⟨_, rfl, ?_⟩
        simp only [primSizeO, hty, String.reduceEq] at hlen
        omega
      case _ hty =>
        refine ⟨_, rfl, ?_⟩
        simp only [primSizeO, hty, String.reduceEq] at hlen
        omega
      case _ hty =>
        refine ⟨_, rfl, ?_⟩
        simp only [primSizeO, hty, String.reduceEq] at hlen
        omega
      case _ hty =>
        refine ⟨_, rfl, ?_⟩
        simp only [primSizeO, hty, String.reduceEq] at hlen
        omega
      case _ hty =>
        refine ⟨_, rfl, ?_⟩
        simp only [primSizeO, hty, String.reduceEq] at hlen
        omega
      case _ hty =>
        refine ⟨_, rfl, ?_⟩
        simp only [primSizeO, hty, String.reduceEq] at hlen
        omega
      case _ hty =>
        refine ⟨_, rfl, ?_⟩
        simp only [primSizeO, hty, String.reduceEq] at hlen
        omega
      case _ hty =>
        refine ⟨_, rfl, ?_⟩
        simp only [primSizeO, hty, String.reduceEq] at hlen
        omega
      case _ hty =>
        cases hub : fld.upperBound with
        | none =>
          dsimp only
          refine ⟨_, rfl, ?_⟩
          simp only [primSizeO, hty, String.reduceEq, hub] at hlen
          omega
        | some ub =>
          dsimp only
          refine ⟨_, rfl, ?_⟩
          simp only [primSizeO, hty, String.reduceEq, hub] at hlen
          omega
      case _ =>
        exfalso
        unfold mkSerScalar at hser
        rw [if_neg (by simp [hCF])] at hser
        split at hser
        all_goals first | exact Except.noConfusion hser | simp_all
theorem walk_size_le (serB : MessageDefinitionField → Except SerdeErr (List Nat))
    (sizeB : MessageDefinitionField → Except SerdeErr Nat)
    (fixB : MessageDefinitionField → Bool) :
    ∀ (defs : List MessageDefinitionField) (l : List Nat),
      defs.all fixB = true →
      (∀ fld ∈ defs, fixB fld = true → ∀ bs, serB fld = .ok bs →
        ∃ n, sizeB fld = .ok n ∧ n ≤ bs.length) →
      exList serB defs = .ok l →
      ∃ n, exSum sizeB defs = .ok n ∧ n ≤ l.length := by
  intro defs
  induction defs with
  | nil =>
    intro l _ _ hx
    cases hx
    exact ⟨0, rfl, Nat.le_refl 0⟩
  | cons fld rest ih =>
    intro l hfix hstep hx
    rw [List.all_cons, Bool.and_eq_true] at hfix
    rw [exList] at hx
    obtain ⟨b, hb, h2⟩ := exBind_ok hx
    obtain ⟨r, hr, h3⟩ := exBind_ok h2
    injection h3 with h3
    obtain ⟨n, hn, hnle⟩ := hstep fld (List.mem_cons_self fld rest) hfix.1 b hb
    obtain ⟨s, hs, hsle⟩ := ih r hfix.2
      (fun f hf hfx bs hbs => hstep f (List.mem_cons_of_mem fld hf) hfx bs hbs) hr
    refine ⟨n + s, ?_, ?_⟩
    · rw [exSum, hn, exBind_ok_eq, hs, exBind_ok_eq]
    · rw [← h3, List.length_append]
      omega

/-- One level of the naked walks: the size walk never charges more than the
payload walk emits, given the record's `fixedOk` conjuncts. -/
theorem naked_size_le
    (M : NameSchemaMap)
    (prevFix : CbufMessageDefinition → List (String × CbufValue) → Bool)
    (prevSize : CbufMessageDefinition → List (String × CbufValue) → Except SerdeErr Nat)
    (prevSer : CbufMessageDefinition → List (String × CbufValue) →
      Except SerdeErr (List Nat))
    (IH : ∀ nested obj, prevFix nested obj = true → ∀ l, prevSer nested obj = .ok l →
      ∃ n, prevSize nested obj = .ok n ∧ n ≤ l.length)
    (msgdef : CbufMessageDefinition) (obj : List (String × CbufValue)) (l : List Nat)
    (hfix : mkFixedOk M prevFix msgdef obj = true)
    (hser : mkSerNaked M prevSer prevSize msgdef obj = .ok l) :
    ∃ n, mkSizeNaked M prevSize msgdef obj = .ok n ∧ n ≤ l.length := by
  unfold mkFixedOk at hfix
  unfold mkSerNaked at hser
  unfold mkSizeNaked
  exact walk_size_le _ _ _ msgdef.definitions l hfix
    (fun fld hf hfx bs hbs =>
      field_size_le M prevFix prevSize prevSer IH msgdef.namespaces obj fld bs
        hfx hbs)
    hser

/-- At every fuel, the size walk of a `fixedOk` record never exceeds the
emitted byte count. -/
theorem fixedOk_size_le (M : NameSchemaMap) :
    ∀ (fuel : Nat) (msgdef : CbufMessageDefinition) (obj : List (String × CbufValue)),
      fixedOkF M fuel msgdef obj = true →
      ∀ l, serNakedF M fuel msgdef obj = .ok l →
      ∃ n, sizeNakedF M fuel msgdef obj = .ok n ∧ n ≤ l.length := by
  intro fuel
  induction fuel with
  | zero =>
    intro msgdef obj hfix
    exact Bool.noConfusion hfix
  | succ f ihf =>
    intro msgdef obj hfix l hser
    rw [fixedOkF] at hfix
    rw [serNakedF] at hser
    rw [sizeNakedF]
    exact naked_size_le M (fixedOkF M f) (sizeNakedF M f) (serNakedF M f)
      (fun nested o hf l2 hs => ihf nested o hf l2 hs) msgdef obj l hfix hser

/-- C1 (amended): for every message the serializer accepts whose
fixed-length array values are not over-full (the `fixedOk` condition — it
constrains nothing else: default and omitted fields, out-of-range numbers
and non-ASCII strings are all allowed), `serializedMessageSize` equals the
byte length of the buffer `serializeMessage` returns, and the raw write
sequence is that whole buffer: the encoder fills every allocated byte and
no zero padding remains. -/
theorem c1_size_matches_emitted
    (M : NameSchemaMap) (fuel : Nat) (msg : CbufMessageData)
    (msgdef : CbufMessageDefinition) (l : List Nat)
    (hfind : findMsgdefByName M msg.typeName = .ok msgdef)
    (hfix : fixedOkF M fuel msgdef msg.message = true)
    (hser : serializeMessage M fuel msg = .ok l) :
    serializedMessageSize M fuel msg = .ok l.length ∧
    serializeMessageRaw M fuel msg = .ok l := by
  unfold serializeMessage at hser
  obtain ⟨size, hsz, h2⟩ := exBind_ok hser
  obtain ⟨raw, hraw, h3⟩ := exBind_ok h2
  have hsz2 := hsz
  unfold serializedMessageSize at hsz2
  rw [hfind, exBind_ok_eq] at hsz2
  obtain ⟨s, hs, h4⟩ := exBind_ok hsz2
  injection h4 with h4
  have hraw2 := hraw
  unfold serializeMessageRaw at hraw2
  rw [hfind, exBind_ok_eq, hsz, exBind_ok_eq] at hraw2
  obtain ⟨payload, hpl, h5⟩ := exBind_ok hraw2
  injection h5 with h5
  obtain ⟨n, hn, hnle⟩ := fixedOk_size_le M fuel msgdef msg.message hfix payload hpl
  rw [hs] at hn
  injection hn with hn
  have h24 : (serializeHeaderBytes msgdef size msg.timestamp).length = 24 := by
    rw [serializeHeaderBytes]
    rw [List.length_append, List.length_append, List.length_append,
      natLE_length, natLE_length, natLE_length, natLE_length]
  have hrawlen : raw.length = 24 + payload.length := by
    rw [← h5, List.length_append, h24]
  have hH : HEADER_SIZE = 24 := rfl
  by_cases hle : raw.length ≤ size
  · rw [if_pos hle] at h3
    injection h3 with h3
    rw [← h3]
    constructor
    · rw [hsz]
      rw [List.length_append, List.length_replicate]
      exact congrArg Except.ok (by omega)
    · rw [hraw]
      rw [show size - raw.length = 0 by omega, List.replicate_zero, List.append_nil]
  · rw [if_neg hle] at h3
    exact Except.noConfusion h3

/-- The buffer the serializer returns for the in-bounds C1 message. -/
def c1Out : List Nat :=
  match serializeMessage c1Maps.1 1 c1MsgOk with
  | .ok l => l
  | .error _ => []

/-- The C1 size/emission agreement at a concrete in-bounds message. -/
theorem c1_size_matches_emitted_witness :
    serializedMessageSize c1Maps.1 1 c1MsgOk = .ok c1Out.length ∧
    serializeMessageRaw c1Maps.1 1 c1MsgOk = .ok c1Out :=
  c1_size_matches_emitted c1Maps.1 1 c1MsgOk c1Def c1Out rfl rfl rfl

end Cbuf
